import Mathlib

set_option maxRecDepth 8000

/-!
# Verification of the dmipy acquisition-scheme / shell-classification subsystem

Shallow embedding of `src/microstruktur/core/acquisition_scheme.py`.

Modelling conventions:
* Python floats are modelled as exact rationals (`ℚ`); numpy arrays of floats as
  `List ℚ`.  All decimal literals of the source are exactly representable as IEEE
  doubles (they are integers below 2^53), so the rational constants below denote
  the same values the Python program computes with.
* External library calls are modelled by their documented semantics:
  - `scipy.cluster.hierarchy.linkage(np.c_[bvalues])` followed by
    `fcluster(Z, t, criterion='distance')` performs single-linkage
    (the default method) agglomerative clustering and cuts the dendrogram at
    cophenetic distance `t`.  On one-dimensional data the resulting partition is
    the set of maximal runs of the sorted values in which consecutive gaps are
    at most `t`: two values are merged below height `t` exactly when they are
    connected by a chain of gaps each of size `≤ t`.  `linkage` raises
    `ValueError` (an empty condensed distance matrix) when given fewer than two
    observations.  `fcluster`'s own cluster numbering is arbitrary; the source
    re-labels clusters by ascending mean (`argsort` of the cluster means), so
    only the partition matters.  The model below assumes a nonnegative distance
    threshold (every call site of the repository passes a nonnegative one);
    theorems that depend on the clustering carry `0 ≤ d` as a hypothesis.
  - `np.unique(arr, axis=0)` returns the distinct rows of `arr` sorted in
    ascending lexicographic order.
  - `np.array(list_of_1d_arrays).ravel()` concatenates the arrays row-major
    when they all have the same length.  When the lengths differ, the result is
    an object array that is not flattened; construction then fails (numpy
    `ValueError` for an inhomogeneous shape on current numpy, an
    `IndexError`/broadcast `ValueError` in the subsequent spherical-harmonics
    loop on the numpy of the source's era whenever a diffusion-weighted shell
    exists).  The model treats this ragged case as a construction error.
* Fallible Python code (raised exceptions) is modelled with `Except`.
* `microstruktur.utils.utils.cart2sphere`, `dipy...real_sym_sh_mrtrix` and the
  unit conversions of `microstruktur.core.gradient_conversions` are code this
  repository references but whose source is not under `src/`; conversions are
  treated as arbitrary elementwise function parameters, and the
  spherical-harmonics matrix of a shell is represented by the arguments the
  builder passes to it (SH order and the shell's cartesian gradient subset).
-/

deriving instance DecidableEq for Except

/-- A cartesian gradient direction (one row of `gradient_directions`). -/
abbrev Vec3 : Type := ℚ × ℚ × ℚ

/-! ## Generic list helpers (numpy boolean masking) -/

/-- numpy boolean-mask selection `a[mask]`. -/
def selectMask {α : Type} : List α → List Bool → List α
  | a :: as, m :: ms => if m then a :: selectMask as ms else selectMask as ms
  | _, _ => []

/-- numpy boolean-mask assignment `a[mask] = vs` (the `vs` are consumed in
order at the `true` positions of the mask). -/
def scatterMask {α : Type} : List α → List Bool → List α → List α
  | a :: as, m :: ms, vs =>
      if m then vs.headD a :: scatterMask as ms vs.tail
      else a :: scatterMask as ms vs
  | as, _, _ => as

/-- `np.mean` of a 1-D array. -/
def listMean (l : List ℚ) : ℚ := l.sum / l.length

/-- `np.max` of an array of nonnegative integers (0 on the empty list). -/
def listMax (l : List ℕ) : ℕ := l.foldr max 0

/-- Reshape a flat row-major buffer into rows of three (an `(N, 3)` array). -/
def chunk3 : List ℚ → List Vec3
  | x :: y :: z :: rest => (x, y, z) :: chunk3 rest
  | _ => []

/-! ## Shell classifier: `calculate_shell_bvalues_and_indices` (lines 363-401)

The scipy calls `linkage(np.c_[bvalues])` / `fcluster(linkage_matrix,
max_distance, criterion='distance')` partition the b-values into maximal runs
of the sorted values whose consecutive gaps are `≤ max_distance` (single
linkage on the line, see the header).  The source then re-labels the clusters
by ascending cluster mean; because the clusters are intervals of the sorted
values, ascending mean order coincides with ascending position order, so the
final label of a value is the number of gaps exceeding `max_distance` that lie
below it in the sorted list.  (That the composite really does re-label by
ascending mean is proved, not assumed: see the theorem for claim C4.) -/

/-- Number of adjacent gaps strictly greater than `d` in the (sorted) list
whose right endpoint is `≤ v`. -/
def gapCutsBelow (d v : ℚ) : List ℚ → ℕ
  | a :: b :: rest => (if d < b - a ∧ b ≤ v then 1 else 0) + gapCutsBelow d v (b :: rest)
  | _ => 0

/-- Total number of adjacent gaps strictly greater than `d` in the list. -/
def gapCuts (d : ℚ) : List ℚ → ℕ
  | a :: b :: rest => (if d < b - a then 1 else 0) + gapCuts d (b :: rest)
  | _ => 0

/-- The b-values in ascending order. -/
def bvalSort (l : List ℚ) : List ℚ := l.insertionSort (· ≤ ·)

/-- Final (mean-relabelled) 0-based shell label of the value `v` within the
b-value list `l` at threshold `d`. -/
def shellLabel (l : List ℚ) (d v : ℚ) : ℕ := gapCutsBelow d v (bvalSort l)

/-- Number of shells (clusters) of `l` at threshold `d` (for nonempty `l`). -/
def numShellsOf (l : List ℚ) (d : ℚ) : ℕ := gapCuts d (bvalSort l) + 1

/-- The measurements (in input order) of shell `c`. -/
def shellMembers (l : List ℚ) (d : ℚ) (c : ℕ) : List ℚ :=
  l.filter (fun v => shellLabel l d v = c)

/-- Per-measurement shell indices returned by the classifier. -/
def shellIndicesOf (l : List ℚ) (d : ℚ) : List ℕ := l.map (shellLabel l d)

/-- Per-shell mean b-values returned by the classifier. -/
def shellBvaluesOf (l : List ℚ) (d : ℚ) : List ℚ :=
  (List.range (numShellsOf l d)).map (fun c => listMean (shellMembers l d c))

/-- Ways the scheme builder can raise after validation has passed. -/
inductive SchemeErr : Type where
  /-- `scipy...linkage` raises `ValueError` ("The number of observations
  cannot be determined on an empty distance matrix") on fewer than two
  observations. -/
  | linkageEmptyDistance : SchemeErr
  /-- `np.array` of a ragged list of per-group shell-mean arrays (see header):
  the per-shell bookkeeping fails whenever two timing groups produce different
  numbers of shells. -/
  | raggedShellBvalues : SchemeErr
  /-- zero measurements reach the single-measurement branch (unreachable
  through the validated factory entry points). -/
  | emptyMeasurements : SchemeErr
deriving DecidableEq, Repr

/-- `calculate_shell_bvalues_and_indices` (source lines 363-401): clusters the
b-values with single-linkage at `max_distance`, then re-labels clusters by
ascending mean b-value; returns the per-measurement 0-based shell indices and
the per-shell mean b-values.  Raises for fewer than two observations (the
`linkage` call). -/
def calculate_shell_bvalues_and_indices (bvalues : List ℚ) (max_distance : ℚ) :
    Except SchemeErr (List ℕ × List ℚ) :=
  if bvalues.length < 2 then .error .linkageEmptyDistance
  else .ok (shellIndicesOf bvalues max_distance, shellBvaluesOf bvalues max_distance)

/-! ## SH order table: `get_sh_order_from_bval` (lines 14-19)

`sh_orders = np.arange(2, 15, 2) = [2, 4, 6, 8, 10, 12, 14]` and
`np.argmax(bvals > bval)` is the first breakpoint strictly greater than
`bval` (the last breakpoint is `np.inf`, which exceeds every finite value).
Every breakpoint literal of the source is an integer below 2^53 and hence an
exact IEEE double: `2.02020202e+08 = 202020202` and so on.  The result is
stored into a float array by the builder, so it is modelled as `ℚ`. -/
def get_sh_order_from_bval (bval : ℚ) : ℚ :=
  if bval < 202020202 then 2
  else if bval < 707070707 then 4
  else if bval < 1212121210 then 6
  else if bval < 2525252530 then 8
  else if bval < 3131313130 then 10
  else if bval < 5353535350 then 12
  else 14

/-! ## numpy ndarray model and the input validator (lines 404-449)

`check_acquisition_scheme` receives numpy arrays and inspects `ndim`, `len()`,
`np.min`, `shape` and row norms, raising `ValueError` with a message naming the
violated check.  `len()` of a zero-dimensional array raises `TypeError`, and
`np.min` of an empty array raises `ValueError` (a numpy reduction error, not
one of the validator's own checks); both are modelled explicitly because they
are reachable from the validator's argument space. -/

/-- A numpy ndarray of floats: a shape and a flat row-major buffer. -/
structure NDArr : Type where
  shape : List ℕ
  data : List ℚ
deriving DecidableEq, Repr

/-- `arr.ndim`. -/
def NDArr.ndim (a : NDArr) : ℕ := a.shape.length

/-- `len(arr)`: the leading shape entry. -/
def NDArr.len (a : NDArr) : ℕ := a.shape.headD 0

/-- Well-formed ndarray: the buffer has exactly `shape.prod` entries. -/
def NDArr.WF (a : NDArr) : Prop := a.data.length = a.shape.prod

instance (a : NDArr) : Decidable a.WF := by unfold NDArr.WF; infer_instance

/-- Python-level exceptions raised by numpy primitives inside the validator. -/
inductive PyErr : Type where
  /-- `len()` of an unsized (0-dimensional) object raises `TypeError`. -/
  | typeErrorLen : PyErr
  /-- `np.min` of an empty array raises `ValueError` (zero-size reduction). -/
  | emptyReduction : PyErr
deriving DecidableEq, Repr

/-- `len(arr)`, fallible. -/
def npLen (a : NDArr) : Except PyErr ℕ :=
  match a.shape with
  | [] => .error .typeErrorLen
  | n :: _ => .ok n

/-- `np.min(arr)`, fallible. -/
def npMin (a : NDArr) : Except PyErr ℚ :=
  match a.data with
  | [] => .error .emptyReduction
  | x :: xs => .ok (xs.foldl min x)

/-- Squared euclidean norm of a gradient-direction row. -/
def sqNorm (v : Vec3) : ℚ := v.1 * v.1 + v.2.1 * v.2.1 + v.2.2 * v.2.2

/-- `abs(np.linalg.norm(row) - 1.) < 0.001`, stated on the squared norm so it
is exact over `ℚ`: for a nonnegative norm `s`, `|s - 1| < 1/1000` holds iff
`(999/1000)^2 < s^2 < (1001/1000)^2`. -/
def unitNormWithin (v : Vec3) : Prop :=
  (999 / 1000 : ℚ) ^ 2 < sqNorm v ∧ sqNorm v < (1001 / 1000 : ℚ) ^ 2

instance (v : Vec3) : Decidable (unitNormWithin v) := by
  unfold unitNormWithin; infer_instance

/-- The distinct `ValueError`s the validator itself raises, in source order,
plus the wrapped numpy/`len` exceptions. -/
inductive CheckErr : Type where
  | bqgNdim : CheckErr
  | lenGrad : CheckErr
  | lenDeltas : CheckErr
  | deltaNdim : CheckErr
  | deltaNeg : CheckErr
  | gradShape : CheckErr
  | bqgNeg : CheckErr
  | unitNorm : CheckErr
  | py (e : PyErr) : CheckErr
deriving DecidableEq, Repr

/-- `check_acquisition_scheme` (lines 404-449), with Python's exact
left-to-right and short-circuit evaluation order:
`len(x) != len(delta) or len(x) != len(Delta)` evaluates `len(delta)` first and
only evaluates `len(Delta)` when the first comparison is false;
`np.min(delta) < 0 or np.min(Delta) < 0` evaluates `np.min(delta)` first; the
`gradient_directions.shape[1]` access only happens when `ndim == 2`. -/
def check_acquisition_scheme (bqg_values gradient_directions delta Delta : NDArr) :
    Except CheckErr Unit :=
  if 1 < bqg_values.ndim then .error .bqgNdim
  else match npLen bqg_values with
  | .error e => .error (.py e)
  | .ok nb =>
    match npLen gradient_directions with
    | .error e => .error (.py e)
    | .ok ng =>
      if nb ≠ ng then .error .lenGrad
      else match npLen delta with
      | .error e => .error (.py e)
      | .ok nd =>
        if nb ≠ nd then .error .lenDeltas
        else match npLen Delta with
        | .error e => .error (.py e)
        | .ok nD =>
          if nb ≠ nD then .error .lenDeltas
          else if 1 < delta.ndim ∨ 1 < Delta.ndim then .error .deltaNdim
          else match npMin delta with
          | .error e => .error (.py e)
          | .ok md =>
            if md < 0 then .error .deltaNeg
            else match npMin Delta with
            | .error e => .error (.py e)
            | .ok mD =>
              if mD < 0 then .error .deltaNeg
              else if gradient_directions.ndim ≠ 2 ∨
                  gradient_directions.shape.getD 1 0 ≠ 3 then .error .gradShape
              else match npMin bqg_values with
              | .error e => .error (.py e)
              | .ok mb =>
                if mb < 0 then .error .bqgNeg
                else if ¬ (chunk3 gradient_directions.data).all
                    (fun v => decide (unitNormWithin v)) then .error .unitNorm
                else .ok ()

/-! Specification side of claim C2: the eight listed failure conditions, in the
claim's fixed order.  These definitions follow the claim's words (for the
refinement theorem below), not the source. -/

/-- The failure conditions named by the claim, in its order. -/
inductive AcqCond : Type where
  | primaryNotOneDim : AcqCond
  | lenMismatchGrad : AcqCond
  | lenMismatchDeltas : AcqCond
  | deltasNotOneDim : AcqCond
  | deltaNegative : AcqCond
  | gradNotN3 : AcqCond
  | primaryNegative : AcqCond
  | notUnitNorm : AcqCond
deriving DecidableEq, Repr

/-- Whether one of the claim's conditions holds of the validator's input. -/
def condHolds (bqg gd delta Delta : NDArr) : AcqCond → Bool
  | .primaryNotOneDim => bqg.ndim ≠ 1
  | .lenMismatchGrad => bqg.len ≠ gd.len
  | .lenMismatchDeltas => bqg.len ≠ delta.len ∨ bqg.len ≠ Delta.len
  | .deltasNotOneDim => delta.ndim ≠ 1 ∨ Delta.ndim ≠ 1
  | .deltaNegative => delta.data.any (fun x => x < 0) ∨ Delta.data.any (fun x => x < 0)
  | .gradNotN3 => ¬(gd.ndim = 2 ∧ gd.shape.getD 1 0 = 3)
  | .primaryNegative => bqg.data.any (fun x => x < 0)
  | .notUnitNorm => (chunk3 gd.data).any (fun v => ¬ unitNormWithin v)

/-- The claim's fixed check order. -/
def acqCondOrder : List AcqCond :=
  [.primaryNotOneDim, .lenMismatchGrad, .lenMismatchDeltas, .deltasNotOneDim,
   .deltaNegative, .gradNotN3, .primaryNegative, .notUnitNorm]

/-- First failing condition in the claim's order, if any. -/
def firstFailing (bqg gd delta Delta : NDArr) : Option AcqCond :=
  acqCondOrder.find? (condHolds bqg gd delta Delta)

/-- The validator error corresponding to each listed condition. -/
def condErr : AcqCond → CheckErr
  | .primaryNotOneDim => .bqgNdim
  | .lenMismatchGrad => .lenGrad
  | .lenMismatchDeltas => .lenDeltas
  | .deltasNotOneDim => .deltaNdim
  | .deltaNegative => .deltaNeg
  | .gradNotN3 => .gradShape
  | .primaryNegative => .bqgNeg
  | .notUnitNorm => .unitNorm

/-! ## The acquisition-scheme builder: `MipyAcquisitionScheme.__init__` (lines 22-107) -/

/-- Lexicographic order on `(delta, Delta)` rows, the order in which
`np.unique(deltas, axis=0)` returns the distinct rows. -/
def lexLe (p q : ℚ × ℚ) : Prop := p.1 < q.1 ∨ (p.1 = q.1 ∧ p.2 ≤ q.2)

/-- Strict part of `lexLe`. -/
def lexLt (p q : ℚ × ℚ) : Prop := lexLe p q ∧ p ≠ q

instance : DecidableRel lexLe := fun _ _ => by unfold lexLe; infer_instance

instance : DecidableRel lexLt := fun _ _ => by unfold lexLt; infer_instance

instance : IsTotal (ℚ × ℚ) lexLe where
  total p q := by
    unfold lexLe
    rcases lt_trichotomy p.1 q.1 with h | h | h
    · exact Or.inl (Or.inl h)
    · rcases le_total p.2 q.2 with h2 | h2
      · exact Or.inl (Or.inr ⟨h, h2⟩)
      · exact Or.inr (Or.inr ⟨h.symm, h2⟩)
    · exact Or.inr (Or.inl h)

instance : IsTrans (ℚ × ℚ) lexLe where
  trans p q r hpq hqr := by
    unfold lexLe at *
    rcases hpq with h | ⟨e, h2⟩
    · rcases hqr with h' | ⟨e', _⟩
      · exact Or.inl (h.trans h')
      · exact Or.inl (e' ▸ h)
    · rcases hqr with h' | ⟨e', h2'⟩
      · exact Or.inl (e ▸ h')
      · exact Or.inr ⟨e.trans e', h2.trans h2'⟩

/-- `np.unique(np.c_[delta, Delta], axis=0)`: distinct rows in ascending
lexicographic order. -/
def uniqueRows (l : List (ℚ × ℚ)) : List (ℚ × ℚ) := l.dedup.insertionSort lexLe

/-- `np.unique` of a 1-D integer array: sorted distinct values. -/
def uniqueNats (l : List ℕ) : List ℕ := l.dedup.insertionSort (· ≤ ·)

/-- The boolean mask `np.all(deltas == unique_deltas_, axis=1)` selecting the
measurements of one timing group. -/
def groupMask (deltas : List (ℚ × ℚ)) (g : ℚ × ℚ) : List Bool :=
  deltas.map (fun p => decide (p = g))

/-- The loop over `unique_deltas` (lines 55-64): for each unique
`(delta, Delta)` row, classify that group's b-values into shells, write the
returned labels plus the running offset `max_index` back through the group's
mask, append the group's mean array, and recompute
`max_index = max(shell_indices + 1)` over the whole index array. -/
def buildShellsGo (bvalues : List ℚ) (deltas : List (ℚ × ℚ)) (d : ℚ) :
    List (ℚ × ℚ) → List ℕ → List (List ℚ) → ℕ →
    Except SchemeErr (List ℕ × List (List ℚ))
  | [], si, acc, _ => .ok (si, acc)
  | g :: rest, si, acc, max_index => do
    let mask := groupMask deltas g
    let (si_, sb_) ← calculate_shell_bvalues_and_indices (selectMask bvalues mask) d
    let si' := scatterMask si mask (si_.map (· + max_index))
    buildShellsGo bvalues deltas d rest si' (acc ++ [sb_]) (listMax si' + 1)

/-- Lines 46-64: the whole per-timing-group shell computation, starting from
`shell_indices = np.zeros(len(bvalues))`, `shell_bvalues = []`,
`max_index = 0`. -/
def buildShells (bvalues : List ℚ) (deltas : List (ℚ × ℚ)) (d : ℚ) :
    Except SchemeErr (List ℕ × List (List ℚ)) :=
  buildShellsGo bvalues deltas d (uniqueRows deltas)
    (List.replicate bvalues.length 0) [] 0

/-- Line 65, `np.array(self.shell_bvalues).ravel()`: flattens the per-group
mean arrays when they all have one length; a ragged list is a construction
failure (see the header). -/
def ravelEq (ls : List (List ℚ)) : Except SchemeErr (List ℚ) :=
  if ls.all (fun l => l.length = (ls.headD []).length) then .ok ls.flatten
  else .error .raggedShellBvalues

/-- `np.argmax` of a boolean 1-D array: index of the first `true`, or 0 when
every entry is `false` (the first maximum of an all-equal array). -/
def npArgmaxBool (l : List Bool) : ℕ :=
  let j := l.findIdx id
  if j < l.length then j else 0

/-- The arguments the builder hands to
`real_sym_sh_mrtrix(order, theta_, phi_)` for one shell, the angles being
`utils.cart2sphere` of the shell's gradient subset (both functions are outside
`src/`, so the matrix is represented by these arguments). -/
structure ShMatrixArgs : Type where
  sh_order : ℚ
  bvecs : List Vec3
deriving DecidableEq, Repr

/-- The scheme object: every derived field `__init__` computes. -/
structure MipyAcquisitionScheme : Type where
  min_b_shell_distance : ℚ
  b0_threshold : ℚ
  bvalues : List ℚ
  b0_mask : List Bool
  number_of_b0s : ℕ
  number_of_measurements : ℕ
  gradient_directions : List Vec3
  qvalues : List ℚ
  gradient_strengths : List ℚ
  delta : List ℚ
  Delta : List ℚ
  tau : List ℚ
  shell_indices : List ℕ
  shell_bvalues : List ℚ
  shell_b0_mask : List Bool
  shell_qvalues : List ℚ
  shell_gradient_strengths : List ℚ
  shell_delta : List ℚ
  shell_Delta : List ℚ
  unique_dwi_indices : List ℕ
  shell_sh_orders : List ℚ
  shell_sh_matrices : List (ℕ × ShMatrixArgs)
  zero_b0_warning : Bool
deriving DecidableEq, Repr, Inhabited

/-- Lines 34-42 and 67-107 of `__init__`: all fields of the scheme object as
functions of the computed `shell_indices` / `shell_bvalues` (the two fields the
branch on the number of measurements produces).  The single-measurement branch
(lines 77-87) sets the per-shell representatives to the whole length-one
arrays; for a length-one index array `[0]` this coincides with the
`first_indices`-based selection of the multi-measurement branch
(`np.argmax([True]) = 0` and `self.shell_bvalues > b0_threshold` on one value
is the negation of `bvalue ≤ threshold`), so the representative fields are
assembled uniformly here. -/
def assembleScheme (bvalues : List ℚ) (gradient_directions : List Vec3)
    (qvalues gradient_strengths delta Delta : List ℚ)
    (min_b_shell_distance b0_threshold : ℚ)
    (shell_indices : List ℕ) (shell_bvalues : List ℚ) : MipyAcquisitionScheme :=
  let b0_mask := bvalues.map (fun b => decide (b ≤ b0_threshold))
  let number_of_b0s := b0_mask.count true
  let total := listMax shell_indices + 1
  let first_indices := (List.range total).map
    (fun ind => npArgmaxBool (shell_indices.map (fun x => decide (x = ind))))
  let unique_dwi_indices := uniqueNats (selectMask shell_indices (b0_mask.map not))
  { min_b_shell_distance := min_b_shell_distance
    b0_threshold := b0_threshold
    bvalues := bvalues
    b0_mask := b0_mask
    number_of_b0s := number_of_b0s
    number_of_measurements := bvalues.length
    gradient_directions := gradient_directions
    qvalues := qvalues
    gradient_strengths := gradient_strengths
    delta := delta
    Delta := Delta
    tau := List.zipWith (fun dl DL => DL - dl / 3) delta Delta
    shell_indices := shell_indices
    shell_bvalues := shell_bvalues
    shell_b0_mask := shell_bvalues.map (fun b => decide (b ≤ b0_threshold))
    shell_qvalues := first_indices.map (fun j => qvalues.getD j 0)
    shell_gradient_strengths := first_indices.map (fun j => gradient_strengths.getD j 0)
    shell_delta := first_indices.map (fun j => delta.getD j 0)
    shell_Delta := first_indices.map (fun j => Delta.getD j 0)
    unique_dwi_indices := unique_dwi_indices
    shell_sh_orders := unique_dwi_indices.foldl
      (fun acc s => acc.set s (get_sh_order_from_bval (shell_bvalues.getD s 0)))
      (List.replicate shell_bvalues.length 0)
    shell_sh_matrices := unique_dwi_indices.map
      (fun s => (s, ShMatrixArgs.mk (get_sh_order_from_bval (shell_bvalues.getD s 0))
        (selectMask gradient_directions
          (shell_indices.map (fun x => decide (x = s))))))
    zero_b0_warning := number_of_b0s = 0 }

/-- `MipyAcquisitionScheme.__init__` (lines 28-107): branch on the number of
measurements (more than one: per-timing-group clustering, lines 44-75; exactly
one: the clustering bypass, lines 77-87; zero measurements reaching the bypass
are modelled as an error, see `SchemeErr.emptyMeasurements`), then assemble
every derived field. -/
def MipyAcquisitionScheme.build (bvalues : List ℚ) (gradient_directions : List Vec3)
    (qvalues gradient_strengths delta Delta : List ℚ)
    (min_b_shell_distance b0_threshold : ℚ) :
    Except SchemeErr MipyAcquisitionScheme := do
  let (shell_indices, shell_bvalues) ←
    if 1 < bvalues.length then do
      let (si, acc) ← buildShells bvalues (delta.zip Delta) min_b_shell_distance
      let sb ← ravelEq acc
      Except.ok (si, sb)
    else
      match bvalues with
      | [] => Except.error SchemeErr.emptyMeasurements
      | _ => Except.ok ([0], bvalues)
  Except.ok (assembleScheme bvalues gradient_directions qvalues gradient_strengths
    delta Delta min_b_shell_distance b0_threshold shell_indices shell_bvalues)

/-! ## Factory entry points (lines 219-360) -/

/-- A Python argument that is either a float or an ndarray
(the `delta` / `Delta` parameters of the factories). -/
inductive PyArg : Type where
  | scalar (x : ℚ) : PyArg
  | arr (a : NDArr) : PyArg
deriving DecidableEq, Repr

/-- Everything a factory entry point can raise. -/
inductive BuildErr : Type where
  /-- raised inside `unify_length_reference_delta_Delta`
  (`len()` of an unsized reference array). -/
  | py (e : PyErr) : BuildErr
  /-- raised by `check_acquisition_scheme`. -/
  | validation (e : CheckErr) : BuildErr
  /-- raised while building the scheme object after validation. -/
  | scheme (e : SchemeErr) : BuildErr
deriving DecidableEq, Repr

/-- One branch of `unify_length_reference_delta_Delta` (lines 347-360): a float
is tiled to the reference length (`np.tile` evaluates `len(reference_array)`),
an array is copied (`.copy()`, value-identical). -/
def unify_one (reference_array : NDArr) : PyArg → Except PyErr NDArr
  | .scalar x => do
    let n ← npLen reference_array
    Except.ok ⟨[n], List.replicate n x⟩
  | .arr a => Except.ok a

/-- `unify_length_reference_delta_Delta` (lines 347-360). -/
def unify_length_reference_delta_Delta (reference_array : NDArr) (delta Delta : PyArg) :
    Except PyErr (NDArr × NDArr) := do
  let d ← unify_one reference_array delta
  let D ← unify_one reference_array Delta
  Except.ok (d, D)

/-- Elementwise application of a ternary numpy ufunc-style conversion. -/
def zipWith3 (f : ℚ → ℚ → ℚ → ℚ) : List ℚ → List ℚ → List ℚ → List ℚ
  | a :: as, b :: bs, c :: cs => f a b c :: zipWith3 f as bs cs
  | _, _, _ => []

/-- `acquisition_scheme_from_bvalues` (lines 219-258).  The unit conversions
`q_from_b` and `g_from_b` live in `microstruktur.core.gradient_conversions`,
which is not under `src/`; they are taken as elementwise function parameters.
Defaults of the source: `min_b_shell_distance=50e6`, `b0_threshold=10e6`. -/
def acquisition_scheme_from_bvalues (q_from_b g_from_b : ℚ → ℚ → ℚ → ℚ)
    (bvalues gradient_directions : NDArr) (delta Delta : PyArg)
    (min_b_shell_distance b0_threshold : ℚ) :
    Except BuildErr MipyAcquisitionScheme := do
  let (delta_, Delta_) ←
    (unify_length_reference_delta_Delta bvalues delta Delta).mapError BuildErr.py
  (check_acquisition_scheme bvalues gradient_directions delta_ Delta_).mapError
    BuildErr.validation
  let qvalues := zipWith3 q_from_b bvalues.data delta_.data Delta_.data
  let gradient_strengths := zipWith3 g_from_b bvalues.data delta_.data Delta_.data
  (MipyAcquisitionScheme.build bvalues.data (chunk3 gradient_directions.data)
    qvalues gradient_strengths delta_.data Delta_.data
    min_b_shell_distance b0_threshold).mapError BuildErr.scheme

/-- `acquisition_scheme_from_qvalues` (lines 261-300).  Line 296 passes the
raw `delta` / `Delta` arguments to `b_from_q`; elementwise broadcasting of a
scalar gives the same values as the unified arrays used here. -/
def acquisition_scheme_from_qvalues (b_from_q : ℚ → ℚ → ℚ → ℚ) (g_from_q : ℚ → ℚ → ℚ)
    (qvalues gradient_directions : NDArr) (delta Delta : PyArg)
    (min_b_shell_distance b0_threshold : ℚ) :
    Except BuildErr MipyAcquisitionScheme := do
  let (delta_, Delta_) ←
    (unify_length_reference_delta_Delta qvalues delta Delta).mapError BuildErr.py
  (check_acquisition_scheme qvalues gradient_directions delta_ Delta_).mapError
    BuildErr.validation
  let bvalues := zipWith3 b_from_q qvalues.data delta_.data Delta_.data
  let gradient_strengths := List.zipWith g_from_q qvalues.data delta_.data
  (MipyAcquisitionScheme.build bvalues (chunk3 gradient_directions.data)
    qvalues.data gradient_strengths delta_.data Delta_.data
    min_b_shell_distance b0_threshold).mapError BuildErr.scheme

/-- `acquisition_scheme_from_gradient_strengths` (lines 303-344). -/
def acquisition_scheme_from_gradient_strengths
    (b_from_g : ℚ → ℚ → ℚ → ℚ) (q_from_g : ℚ → ℚ → ℚ)
    (gradient_strengths gradient_directions : NDArr) (delta Delta : PyArg)
    (min_b_shell_distance b0_threshold : ℚ) :
    Except BuildErr MipyAcquisitionScheme := do
  let (delta_, Delta_) ←
    (unify_length_reference_delta_Delta gradient_strengths delta Delta).mapError BuildErr.py
  (check_acquisition_scheme gradient_strengths gradient_directions delta_ Delta_).mapError
    BuildErr.validation
  let bvalues := zipWith3 b_from_g gradient_strengths.data delta_.data Delta_.data
  let qvalues := List.zipWith q_from_g gradient_strengths.data delta_.data
  (MipyAcquisitionScheme.build bvalues (chunk3 gradient_directions.data)
    qvalues gradient_strengths.data delta_.data Delta_.data
    min_b_shell_distance b0_threshold).mapError BuildErr.scheme

/-! ## Scheme adapters (lines 452-477) -/

/-- The external dipy `GradientTable` as the adapters use it: `bvals` in
s/mm^2 (this system's SI b-values scaled by 1e-6), `bvecs`, and the
`small_delta` / `big_delta` fields, stored as given. -/
structure GradientTable : Type where
  bvals : List ℚ
  bvecs : List Vec3
  small_delta : List ℚ
  big_delta : List ℚ
deriving DecidableEq, Repr

/-- Flatten an `(N, 3)` list of rows back to a row-major buffer. -/
def flat3 (l : List Vec3) : List ℚ :=
  l.flatMap (fun v => [v.1, v.2.1, v.2.2])

/-- `gtab_mipy2dipy` (lines 466-477): `bvals = bvalues / 1e6`, `bvecs`,
`small_delta = delta`, `big_delta = Delta`.  The `isinstance` guard is the
Lean type of the argument.  dipy's `gradient_table` stores these fields as
given. -/
def gtab_mipy2dipy (mipy_gradient_table : MipyAcquisitionScheme) : GradientTable :=
  { bvals := mipy_gradient_table.bvalues.map (fun b => b / 1000000)
    bvecs := mipy_gradient_table.gradient_directions
    small_delta := mipy_gradient_table.delta
    big_delta := mipy_gradient_table.Delta }

/-- `gtab_dipy2mipy` (lines 452-463): `bvals * 1e6` and the table's fields are
fed to `acquisition_scheme_from_bvalues` with the source's default
`min_b_shell_distance = 50e6` and `b0_threshold = 10e6`. -/
def gtab_dipy2mipy (q_from_b g_from_b : ℚ → ℚ → ℚ → ℚ)
    (dipy_gradient_table : GradientTable) : Except BuildErr MipyAcquisitionScheme :=
  acquisition_scheme_from_bvalues q_from_b g_from_b
    ⟨[dipy_gradient_table.bvals.length],
      dipy_gradient_table.bvals.map (fun b => b * 1000000)⟩
    ⟨[dipy_gradient_table.bvecs.length, 3], flat3 dipy_gradient_table.bvecs⟩
    (.arr ⟨[dipy_gradient_table.small_delta.length], dipy_gradient_table.small_delta⟩)
    (.arr ⟨[dipy_gradient_table.big_delta.length], dipy_gradient_table.big_delta⟩)
    50000000 10000000

/-! ## Array-identity (aliasing) model for claim C10

The only aliasing question the claims raise is whether the scheme stores the
caller's `delta` / `Delta` array objects or fresh copies
(`unify_length_reference_delta_Delta` calls `.copy()` / `np.tile`).  This
small heap model tracks array identities: a store is a list of array cells,
an array object is an index into it, and mutation is cell update. -/

/-- A heap of 1-D float arrays. -/
structure Store : Type where
  arrays : List (List ℚ)
deriving DecidableEq, Repr

/-- A reference to an array cell. -/
abbrev ArrRef : Type := ℕ

/-- Allocate a fresh cell (every `np.tile` / `.copy()` result). -/
def Store.alloc (st : Store) (a : List ℚ) : Store × ArrRef :=
  (⟨st.arrays ++ [a]⟩, st.arrays.length)

/-- Read a cell. -/
def Store.read (st : Store) (r : ArrRef) : List ℚ := st.arrays.getD r []

/-- In-place mutation of a cell (`arr[...] = ...` by the caller). -/
def Store.write (st : Store) (r : ArrRef) (a : List ℚ) : Store :=
  ⟨st.arrays.set r a⟩

/-- `delta` / `Delta` factory argument in the heap model. -/
inductive PyArgRef : Type where
  | scalar (x : ℚ) : PyArgRef
  | ref (r : ArrRef) : PyArgRef
deriving DecidableEq, Repr

/-- `unify_length_reference_delta_Delta` on the heap: a float argument is
tiled into a fresh cell, an array argument is `.copy()`-ed into a fresh cell. -/
def unify_one_ref (st : Store) (n : ℕ) : PyArgRef → Store × ArrRef
  | .scalar x => st.alloc (List.replicate n x)
  | .ref r => st.alloc (st.read r)

/-- The `delta` / `Delta` / `tau` cells the constructed scheme holds
(`self.delta`, `self.Delta`, `self.tau = Delta - delta/3.`, lines 40-42); the
elementwise arithmetic for `tau` creates a fresh array. -/
structure SchemeTimingRefs : Type where
  deltaRef : ArrRef
  DeltaRef : ArrRef
  tauRef : ArrRef
deriving DecidableEq, Repr

/-- The construction pipeline restricted to the timing arrays: unify both
arguments, then compute `tau`, each into fresh cells. -/
def buildTimingRefs (st : Store) (n : ℕ) (delta Delta : PyArgRef) :
    Store × SchemeTimingRefs :=
  let (st1, rd) := unify_one_ref st n delta
  let (st2, rD) := unify_one_ref st1 n Delta
  let (st3, rt) := st2.alloc
    (List.zipWith (fun dl DL => DL - dl / 3) (st2.read rd) (st2.read rD))
  (st3, ⟨rd, rD, rt⟩)

/-! ## Definitions used by the theorem statements -/

/-- The b-values of the timing group `g` (in input order). -/
def groupBv (bvalues : List ℚ) (deltas : List (ℚ × ℚ)) (g : ℚ × ℚ) : List ℚ :=
  selectMask bvalues (groupMask deltas g)

/-- How many shells the classifier produces for the timing group `g`. -/
def groupShellCount (bvalues : List ℚ) (deltas : List (ℚ × ℚ)) (d : ℚ) (g : ℚ × ℚ) : ℕ :=
  numShellsOf (groupBv bvalues deltas g) d

/-- Sum of `f` over the part of `gs` before the first occurrence of `g`: the
global shell-index offset of group `g` when the groups are processed in the
order of `gs`. -/
def offsetIn (f : ℚ × ℚ → ℕ) : List (ℚ × ℚ) → (ℚ × ℚ) → ℕ
  | [], _ => 0
  | h :: tl, g => if h = g then 0 else f h + offsetIn f tl g

/-- The b-values of the measurements assigned to shell `s` of a scheme. -/
def shellMembersBv (S : MipyAcquisitionScheme) (s : ℕ) : List ℚ :=
  selectMask S.bvalues (S.shell_indices.map (fun x => decide (x = s)))

/-- Verdict predicted by claim C2's words: report the first failing listed
condition in the claim's order, succeed when none holds. -/
def validatorVerdict (bqg gd delta Delta : NDArr) : Except CheckErr Unit :=
  match firstFailing bqg gd delta Delta with
  | some c => .error (condErr c)
  | none => .ok ()

/-- The post-validation success condition of scheme construction for more than
one measurement: every timing group has at least two measurements (otherwise
`linkage` raises) and all groups yield the same number of shells (otherwise
the ragged `np.array(...).ravel()` bookkeeping fails). -/
def timingGroupsOK (bvalues : List ℚ) (deltas : List (ℚ × ℚ)) (d : ℚ) : Prop :=
  (∀ g ∈ uniqueRows deltas, 2 ≤ (groupBv bvalues deltas g).length) ∧
  (∀ g ∈ uniqueRows deltas, ∀ g' ∈ uniqueRows deltas,
    groupShellCount bvalues deltas d g = groupShellCount bvalues deltas d g')

instance (bvalues : List ℚ) (deltas : List (ℚ × ℚ)) (d : ℚ) :
    Decidable (timingGroupsOK bvalues deltas d) := by
  unfold timingGroupsOK; infer_instance

/-- Stand-in elementwise unit conversion for concrete witnesses (the theorems
hold for arbitrary conversion functions). -/
def exConv3 : ℚ → ℚ → ℚ → ℚ := fun b _ _ => b

/-- Stand-in binary conversion for concrete witnesses. -/
def exConv2 : ℚ → ℚ → ℚ := fun b _ => b

/-- A concrete scheme with one timing group and shells `{0}` and `{10, 12}`
(threshold 5, b0 threshold 1). -/
def exSchemeA : MipyAcquisitionScheme :=
  (acquisition_scheme_from_bvalues exConv3 exConv3
    ⟨[3], [0, 10, 12]⟩ ⟨[3, 3], [1, 0, 0, 1, 0, 0, 1, 0, 0]⟩
    (.scalar 1) (.scalar 3) 5 1).toOption.getD default

/-- A concrete scheme with two timing groups of two measurements each; the
lexicographically smaller group appears later in the input. -/
def exSchemeB : MipyAcquisitionScheme :=
  (acquisition_scheme_from_bvalues exConv3 exConv3
    ⟨[4], [10, 20, 30, 40]⟩ ⟨[4, 3], [1, 0, 0, 1, 0, 0, 1, 0, 0, 1, 0, 0]⟩
    (.arr ⟨[4], [2, 2, 1, 1]⟩) (.arr ⟨[4], [2, 2, 1, 1]⟩) 1 1).toOption.getD default

/-- A concrete scheme built with the source's default thresholds
(`min_b_shell_distance = 50e6`, `b0_threshold = 10e6`). -/
def exSchemeC : MipyAcquisitionScheme :=
  (acquisition_scheme_from_bvalues exConv3 exConv3
    ⟨[3], [0, 10, 12]⟩ ⟨[3, 3], [1, 0, 0, 1, 0, 0, 1, 0, 0]⟩
    (.scalar 1) (.scalar 3) 50000000 10000000).toOption.getD default

/-- A concrete scheme built with a large shell distance whose timing groups
re-cluster raggedly at the default threshold (round-trip counterexample). -/
def exSchemeD : MipyAcquisitionScheme :=
  (acquisition_scheme_from_bvalues exConv3 exConv3
    ⟨[5], [0, 100000000, 0, 100000000, 200000000]⟩
    ⟨[5, 3], [1, 0, 0, 1, 0, 0, 1, 0, 0, 1, 0, 0, 1, 0, 0]⟩
    (.arr ⟨[5], [1, 1, 2, 2, 2]⟩) (.arr ⟨[5], [3, 3, 4, 4, 4]⟩)
    1000000000 10000000).toOption.getD default

/-- A concrete single-measurement scheme (the clustering bypass). -/
def exSchemeE : MipyAcquisitionScheme :=
  (acquisition_scheme_from_bvalues exConv3 exConv3
    ⟨[1], [7]⟩ ⟨[1, 3], [1, 0, 0]⟩ (.scalar 1) (.scalar 3) 5 10).toOption.getD default

/-- Well-formedness of a float-or-array factory argument. -/
def PyArg.WF : PyArg → Prop
  | .scalar _ => True
  | .arr a => a.WF

instance (x : PyArg) : Decidable (PyArg.WF x) := by
  unfold PyArg.WF
  cases x <;> infer_instance

/-! ## Lemmas: boolean masking -/

theorem selectMask_cons_true {α : Type} (a : α) (as : List α) (ms : List Bool) :
    selectMask (a :: as) (true :: ms) = a :: selectMask as ms := rfl

theorem selectMask_cons_false {α : Type} (a : α) (as : List α) (ms : List Bool) :
    selectMask (a :: as) (false :: ms) = selectMask as ms := rfl

theorem scatterMask_cons_true {α : Type} (a : α) (as : List α) (ms : List Bool)
    (vs : List α) :
    scatterMask (a :: as) (true :: ms) vs = vs.headD a :: scatterMask as ms vs.tail := rfl

theorem scatterMask_cons_false {α : Type} (a : α) (as : List α) (ms : List Bool)
    (vs : List α) :
    scatterMask (a :: as) (false :: ms) vs = a :: scatterMask as ms vs := rfl

theorem selectMask_length {α : Type} (as : List α) (ms : List Bool)
    (h : ms.length = as.length) : (selectMask as ms).length = ms.count true := by
  induction as generalizing ms with
  | nil =>
    cases ms with
    | nil => simp [selectMask]
    | cons m ms => simp at h
  | cons a as ih =>
    cases ms with
    | nil => simp at h
    | cons m ms =>
      simp only [List.length_cons, Nat.succ.injEq] at h
      cases m
      · rw [selectMask_cons_false, List.count_cons]
        simp [ih ms h]
      · rw [selectMask_cons_true, List.count_cons]
        simp [ih ms h]

theorem selectMask_nil_of_false {α : Type} (as : List α) (ms : List Bool)
    (h : ∀ i, i < as.length → ms.getD i false = false) : selectMask as ms = [] := by
  induction as generalizing ms with
  | nil => cases ms <;> rfl
  | cons a as ih =>
    cases ms with
    | nil => rfl
    | cons m ms =>
      have h0 := h 0 (by simp)
      rw [List.getD_cons_zero] at h0
      subst h0
      rw [selectMask_cons_false]
      exact ih ms (fun i hi => h (i + 1) (by simp; omega))

theorem mem_selectMask {α : Type} (as : List α) (ms : List Bool) (x : α) :
    x ∈ selectMask as ms ↔ ∃ i, ms.getD i false = true ∧ as[i]? = some x := by
  induction as generalizing ms with
  | nil =>
    cases ms <;> simp [selectMask]
  | cons a as ih =>
    cases ms with
    | nil => simp [selectMask]
    | cons m ms =>
      cases m
      · rw [selectMask_cons_false, ih]
        constructor
        · rintro ⟨i, hm, hx⟩
          exact ⟨i + 1, by simpa using hm, by simpa using hx⟩
        · rintro ⟨i, hm, hx⟩
          cases i with
          | zero => rw [List.getD_cons_zero] at hm; exact absurd hm (by simp)
          | succ i => exact ⟨i, by simpa using hm, by simpa using hx⟩
      · rw [selectMask_cons_true, List.mem_cons, ih]
        constructor
        · rintro (rfl | ⟨i, hm, hx⟩)
          · exact ⟨0, by simp⟩
          · exact ⟨i + 1, by simpa using hm, by simpa using hx⟩
        · rintro ⟨i, hm, hx⟩
          cases i with
          | zero => simp only [List.getElem?_cons_zero, Option.some.injEq] at hx
                    exact Or.inl hx.symm
          | succ i => exact Or.inr ⟨i, by simpa using hm, by simpa using hx⟩

theorem selectMask_getD_rank {α : Type} (as : List α) (ms : List Bool) (i : ℕ) (x0 : α)
    (hm : ms.getD i false = true) (hi : i < as.length) :
    (selectMask as ms).getD ((ms.take i).count true) x0 = as.getD i x0 := by
  induction as generalizing ms i with
  | nil => simp at hi
  | cons a as ih =>
    cases ms with
    | nil => simp at hm
    | cons m ms =>
      cases i with
      | zero =>
        rw [List.getD_cons_zero] at hm
        subst hm
        rw [selectMask_cons_true]
        simp
      | succ i =>
        rw [List.getD_cons_succ] at hm
        have hi' : i < as.length := by simpa using Nat.lt_of_succ_lt_succ hi
        cases m
        · rw [selectMask_cons_false, List.take_succ_cons, List.count_cons,
            List.getD_cons_succ]
          simpa using ih ms i hm hi'
        · rw [selectMask_cons_true, List.take_succ_cons, List.count_cons,
            List.getD_cons_succ]
          have := ih ms i hm hi'
          simpa [Nat.add_comm] using this

theorem maskRank_lt_count (ms : List Bool) (i : ℕ) (hm : ms.getD i false = true) :
    (ms.take i).count true < ms.count true := by
  induction ms generalizing i with
  | nil => simp at hm
  | cons m ms ih =>
    cases i with
    | zero =>
      rw [List.getD_cons_zero] at hm
      subst hm
      simp only [List.take_zero, List.count_nil, List.count_cons]
      simp
    | succ i =>
      rw [List.getD_cons_succ] at hm
      have := ih i hm
      rw [List.take_succ_cons, List.count_cons, List.count_cons]
      omega

theorem scatterMask_length {α : Type} (as : List α) (ms : List Bool) (vs : List α) :
    (scatterMask as ms vs).length = as.length := by
  induction as generalizing ms vs with
  | nil => cases ms <;> rfl
  | cons a as ih =>
    cases ms with
    | nil => rfl
    | cons m ms =>
      cases m
      · rw [scatterMask_cons_false]; simp [ih]
      · rw [scatterMask_cons_true]; simp [ih]

theorem scatterMask_getD_false {α : Type} (as : List α) (ms : List Bool) (vs : List α)
    (i : ℕ) (x0 : α) (hm : ms.getD i false = false) :
    (scatterMask as ms vs).getD i x0 = as.getD i x0 := by
  induction as generalizing ms vs i with
  | nil => cases ms <;> rfl
  | cons a as ih =>
    cases ms with
    | nil => rfl
    | cons m ms =>
      cases i with
      | zero =>
        rw [List.getD_cons_zero] at hm
        subst hm
        rw [scatterMask_cons_false, List.getD_cons_zero, List.getD_cons_zero]
      | succ i =>
        rw [List.getD_cons_succ] at hm
        cases m
        · rw [scatterMask_cons_false, List.getD_cons_succ, List.getD_cons_succ]
          exact ih ms vs i hm
        · rw [scatterMask_cons_true, List.getD_cons_succ, List.getD_cons_succ]
          exact ih ms vs.tail i hm

theorem scatterMask_getD_true {α : Type} (as : List α) (ms : List Bool) (vs : List α)
    (i : ℕ) (x0 : α) (hm : ms.getD i false = true) (hlen : ms.length = as.length)
    (hv : ms.count true ≤ vs.length) :
    (scatterMask as ms vs).getD i x0 = vs.getD ((ms.take i).count true) x0 := by
  induction as generalizing ms vs i with
  | nil =>
    cases ms with
    | nil => simp at hm
    | cons m ms => simp at hlen
  | cons a as ih =>
    cases ms with
    | nil => simp at hm
    | cons m ms =>
      simp only [List.length_cons, Nat.succ.injEq] at hlen
      cases i with
      | zero =>
        rw [List.getD_cons_zero] at hm
        subst hm
        rw [List.count_cons] at hv
        simp at hv
        cases vs with
        | nil => simp at hv
        | cons v vs =>
          rw [scatterMask_cons_true, List.getD_cons_zero, List.take_zero]
          simp
      | succ i =>
        rw [List.getD_cons_succ] at hm
        rw [List.count_cons] at hv
        cases m
        · simp at hv
          rw [scatterMask_cons_false, List.getD_cons_succ, List.take_succ_cons,
            List.count_cons]
          simpa using ih ms vs i hm hlen (by omega)
        · simp at hv
          cases vs with
          | nil => simp at hv
          | cons v vs =>
            rw [scatterMask_cons_true, List.getD_cons_succ, List.take_succ_cons,
              List.count_cons]
            have := ih ms (v :: vs).tail i hm hlen (by simp at hv ⊢; omega)
            simpa [Nat.add_comm] using this

/-! ## Lemmas: list max and mean -/

theorem listMax_le (l : List ℕ) (B : ℕ) (h : ∀ x ∈ l, x ≤ B) : listMax l ≤ B := by
  induction l with
  | nil => exact Nat.zero_le B
  | cons a l ih =>
    have ha := h a (by simp)
    have hl := ih (fun x hx => h x (by simp [hx]))
    simp only [listMax, List.foldr_cons] at *
    omega

theorem le_listMax (l : List ℕ) (x : ℕ) (h : x ∈ l) : x ≤ listMax l := by
  induction l with
  | nil => simp at h
  | cons a l ih =>
    simp only [listMax, List.foldr_cons]
    rcases List.mem_cons.mp h with rfl | h'
    · omega
    · have := ih h'
      simp only [listMax] at this
      omega

theorem listMax_eq (l : List ℕ) (B : ℕ) (hmem : B ∈ l) (hub : ∀ x ∈ l, x ≤ B) :
    listMax l = B :=
  Nat.le_antisymm (listMax_le l B hub) (le_listMax l B hmem)

theorem sum_lt_length_mul (l : List ℚ) (B : ℚ) (hne : l ≠ [])
    (h : ∀ x ∈ l, x < B) : l.sum < l.length * B := by
  induction l with
  | nil => exact absurd rfl hne
  | cons a l ih =>
    cases l with
    | nil => simpa using h a (by simp)
    | cons b t =>
      have ha := h a (by simp)
      have hs := ih (by simp) (fun x hx => h x (by simp [List.mem_cons] at hx ⊢; tauto))
      simp only [List.sum_cons, List.length_cons] at *
      push_cast
      push_cast at hs
      nlinarith

theorem length_mul_lt_sum (l : List ℚ) (B : ℚ) (hne : l ≠ [])
    (h : ∀ x ∈ l, B < x) : l.length * B < l.sum := by
  induction l with
  | nil => exact absurd rfl hne
  | cons a l ih =>
    cases l with
    | nil => simpa using h a (by simp)
    | cons b t =>
      have ha := h a (by simp)
      have hs := ih (by simp) (fun x hx => h x (by simp [List.mem_cons] at hx ⊢; tauto))
      simp only [List.sum_cons, List.length_cons] at *
      push_cast
      push_cast at hs
      nlinarith

theorem listMean_lt (l : List ℚ) (B : ℚ) (hne : l ≠ []) (h : ∀ x ∈ l, x < B) :
    listMean l < B := by
  have hlen : (0 : ℚ) < l.length := by
    cases l with
    | nil => exact absurd rfl hne
    | cons a t =>
      have : (0:ℚ) < ((a :: t).length : ℚ) := by
        simp only [List.length_cons]
        push_cast
        positivity
      exact this
  have hs := sum_lt_length_mul l B hne h
  rw [listMean, div_lt_iff₀ hlen]
  linarith [hs]

theorem lt_listMean (l : List ℚ) (B : ℚ) (hne : l ≠ []) (h : ∀ x ∈ l, B < x) :
    B < listMean l := by
  have hlen : (0 : ℚ) < l.length := by
    cases l with
    | nil => exact absurd rfl hne
    | cons a t =>
      have : (0:ℚ) < ((a :: t).length : ℚ) := by
        simp only [List.length_cons]
        push_cast
        positivity
      exact this
  have hs := length_mul_lt_sum l B hne h
  rw [listMean, lt_div_iff₀ hlen]
  linarith [hs]

theorem exists_listMean_le (l : List ℚ) (hne : l ≠ []) : ∃ x ∈ l, listMean l ≤ x := by
  by_contra hcon
  push_neg at hcon
  exact absurd (listMean_lt l (listMean l) hne hcon) (lt_irrefl _)

/-! ## Lemmas: composing masks with filters -/

theorem selectMask_eq_of_getD_eq {α : Type} (as : List α) (ms ms' : List Bool)
    (hlm : ms.length = as.length) (hlm' : ms'.length = as.length)
    (h : ∀ i, i < as.length → ms.getD i false = ms'.getD i false) :
    selectMask as ms = selectMask as ms' := by
  induction as generalizing ms ms' with
  | nil =>
    cases ms with
    | nil => cases ms' with
      | nil => rfl
      | cons m' t' => simp at hlm'
    | cons m t => simp at hlm
  | cons a as ih =>
    cases ms with
    | nil => simp at hlm
    | cons m t =>
      cases ms' with
      | nil => simp at hlm'
      | cons m' t' =>
        have h0 := h 0 (by simp)
        rw [List.getD_cons_zero, List.getD_cons_zero] at h0
        subst h0
        simp only [List.length_cons, Nat.succ.injEq] at hlm hlm'
        have htail : selectMask as t = selectMask as t' :=
          ih t t' hlm hlm' (fun i hi => by
            have := h (i + 1) (by simp; omega)
            rwa [List.getD_cons_succ, List.getD_cons_succ] at this)
        cases m
        · rw [selectMask_cons_false, selectMask_cons_false, htail]
        · rw [selectMask_cons_true, selectMask_cons_true, htail]

theorem selectMask_zipWith_filter {β : Type} (bv : List ℚ) (deltas : List β)
    (q : β → Bool) (p : ℚ → Bool) (hl : deltas.length = bv.length) :
    selectMask bv (List.zipWith (fun pr v => q pr && p v) deltas bv) =
      (selectMask bv (deltas.map q)).filter p := by
  induction bv generalizing deltas with
  | nil => cases deltas <;> rfl
  | cons a as ih =>
    cases deltas with
    | nil => simp at hl
    | cons g gs =>
      simp only [List.length_cons, Nat.succ.injEq] at hl
      simp only [List.zipWith_cons_cons, List.map_cons]
      rcases hq : q g with _ | _
      · rw [Bool.false_and, selectMask_cons_false, selectMask_cons_false]
        exact ih gs hl
      · rw [Bool.true_and]
        rcases hp : p a with _ | _
        · rw [selectMask_cons_false, selectMask_cons_true, List.filter_cons,
            if_neg (by simp [hp])]
          exact ih gs hl
        · rw [selectMask_cons_true, selectMask_cons_true, List.filter_cons,
            if_pos (by simp [hp])]
          rw [ih gs hl]

/-! ## Lemmas: 1-D single-linkage clustering -/

theorem gapCutsBelow_cons_cons (d v a b : ℚ) (r : List ℚ) :
    gapCutsBelow d v (a :: b :: r) =
      (if d < b - a ∧ b ≤ v then 1 else 0) + gapCutsBelow d v (b :: r) := rfl

theorem gapCuts_cons_cons (d a b : ℚ) (r : List ℚ) :
    gapCuts d (a :: b :: r) = (if d < b - a then 1 else 0) + gapCuts d (b :: r) := rfl

theorem gapCutsBelow_le_gapCuts (d v : ℚ) (s : List ℚ) :
    gapCutsBelow d v s ≤ gapCuts d s := by
  induction s with
  | nil => exact Nat.le_refl 0
  | cons a t ih =>
    cases t with
    | nil => exact Nat.le_refl 0
    | cons b r =>
      rw [gapCutsBelow_cons_cons, gapCuts_cons_cons]
      have := ih
      split_ifs with h1 h2 <;> try omega
      exact absurd h1.1 h2

theorem gapCutsBelow_mono (d : ℚ) (s : List ℚ) {v w : ℚ} (h : v ≤ w) :
    gapCutsBelow d v s ≤ gapCutsBelow d w s := by
  induction s with
  | nil => exact Nat.le_refl 0
  | cons a t ih =>
    cases t with
    | nil => exact Nat.le_refl 0
    | cons b r =>
      rw [gapCutsBelow_cons_cons, gapCutsBelow_cons_cons]
      have := ih
      split_ifs with h1 h2 <;> try omega
      exact absurd ⟨h1.1, h1.2.trans h⟩ h2

theorem gapCutsBelow_eq_zero (d v : ℚ) (s : List ℚ) (hd : 0 ≤ d)
    (hv : ∀ x ∈ s, v ≤ x) : gapCutsBelow d v s = 0 := by
  induction s with
  | nil => rfl
  | cons a t ih =>
    cases t with
    | nil => rfl
    | cons b r =>
      rw [gapCutsBelow_cons_cons]
      have hna : ¬(d < b - a ∧ b ≤ v) := by
        rintro ⟨h1, h2⟩
        have ha : v ≤ a := hv a (by simp)
        linarith
      rw [if_neg hna, ih (fun x hx => hv x (List.mem_cons_of_mem a hx))]

theorem gapCutsBelow_eq_gapCuts (d v : ℚ) (s : List ℚ) (hv : ∀ x ∈ s, x ≤ v) :
    gapCutsBelow d v s = gapCuts d s := by
  induction s with
  | nil => rfl
  | cons a t ih =>
    cases t with
    | nil => rfl
    | cons b r =>
      rw [gapCutsBelow_cons_cons, gapCuts_cons_cons,
        ih (fun x hx => hv x (List.mem_cons_of_mem a hx))]
      have hb : b ≤ v := hv b (by simp)
      by_cases h1 : d < b - a
      · rw [if_pos ⟨h1, hb⟩, if_pos h1]
      · rw [if_neg (by tauto), if_neg h1]

theorem gapCuts_exists_label (d : ℚ) (s : List ℚ) (hd : 0 ≤ d) :
    List.Sorted (· ≤ ·) s → s ≠ [] → ∀ c, c ≤ gapCuts d s →
    ∃ v ∈ s, gapCutsBelow d v s = c := by
  induction s with
  | nil =>
    intro _ hne
    exact absurd rfl hne
  | cons a t ih =>
    intro hs _ c hc
    cases t with
    | nil =>
      refine ⟨a, by simp, ?_⟩
      have h0 : gapCuts d [a] = 0 := rfl
      rw [h0] at hc
      interval_cases c
      rfl
    | cons b r =>
      rw [gapCuts_cons_cons] at hc
      by_cases hcut : d < b - a
      · rw [if_pos hcut] at hc
        cases c with
        | zero =>
          refine ⟨a, by simp, ?_⟩
          exact gapCutsBelow_eq_zero d a (a :: b :: r) hd
            (fun x hx => by
              rcases List.mem_cons.mp hx with rfl | hx'
              · exact le_refl x
              · exact List.rel_of_sorted_cons hs x hx')
        | succ c' =>
          obtain ⟨v, hv, hlab⟩ := ih hs.of_cons (by simp) c' (by omega)
          refine ⟨v, List.mem_cons_of_mem a hv, ?_⟩
          have hbv : b ≤ v := by
            rcases List.mem_cons.mp hv with rfl | hv'
            · exact le_refl v
            · exact List.rel_of_sorted_cons hs.of_cons v hv'
          rw [gapCutsBelow_cons_cons, if_pos ⟨hcut, hbv⟩, hlab]
          omega
      · rw [if_neg hcut] at hc
        obtain ⟨v, hv, hlab⟩ := ih hs.of_cons (by simp) c (by omega)
        refine ⟨v, List.mem_cons_of_mem a hv, ?_⟩
        rw [gapCutsBelow_cons_cons, if_neg (by tauto), hlab]
        omega

/-! ## Lemmas: shell labels, members and means -/

theorem bvalSort_sorted (l : List ℚ) : List.Sorted (· ≤ ·) (bvalSort l) :=
  List.sorted_insertionSort _ l

theorem mem_bvalSort {l : List ℚ} {x : ℚ} : x ∈ bvalSort l ↔ x ∈ l :=
  List.mem_insertionSort _

theorem bvalSort_ne_nil {l : List ℚ} (h : l ≠ []) : bvalSort l ≠ [] := by
  intro hcon
  have : l.length = 0 := by
    have := List.length_insertionSort (· ≤ ·) l
    rw [bvalSort] at hcon
    rw [hcon] at this
    simpa using this.symm
  exact h (List.length_eq_zero.mp this)

theorem shellLabel_lt_numShells (l : List ℚ) (d v : ℚ) :
    shellLabel l d v < numShellsOf l d :=
  Nat.lt_succ_of_le (gapCutsBelow_le_gapCuts d v (bvalSort l))

theorem shellLabel_mono (l : List ℚ) (d : ℚ) {v w : ℚ} (h : v ≤ w) :
    shellLabel l d v ≤ shellLabel l d w :=
  gapCutsBelow_mono d (bvalSort l) h

theorem lt_of_shellLabel_lt (l : List ℚ) (d : ℚ) {v w : ℚ}
    (h : shellLabel l d v < shellLabel l d w) : v < w := by
  by_contra hcon
  push_neg at hcon
  exact absurd (shellLabel_mono l d hcon) (by omega)

theorem exists_shellLabel_eq (l : List ℚ) (d : ℚ) (hd : 0 ≤ d) (hl : l ≠ []) (c : ℕ)
    (hc : c < numShellsOf l d) : ∃ v ∈ l, shellLabel l d v = c := by
  obtain ⟨v, hv, hlab⟩ := gapCuts_exists_label d (bvalSort l) hd (bvalSort_sorted l)
    (bvalSort_ne_nil hl) c (by unfold numShellsOf at hc; omega)
  exact ⟨v, mem_bvalSort.mp hv, hlab⟩

theorem mem_shellMembers {l : List ℚ} {d : ℚ} {c : ℕ} {x : ℚ} :
    x ∈ shellMembers l d c ↔ x ∈ l ∧ shellLabel l d x = c := by
  simp [shellMembers, List.mem_filter]

theorem shellMembers_ne_nil (l : List ℚ) (d : ℚ) (hd : 0 ≤ d) (hl : l ≠ []) {c : ℕ}
    (hc : c < numShellsOf l d) : shellMembers l d c ≠ [] := by
  obtain ⟨v, hv, hlab⟩ := exists_shellLabel_eq l d hd hl _ hc
  intro hcon
  have : v ∈ shellMembers l d c := mem_shellMembers.mpr ⟨hv, hlab⟩
  rw [hcon] at this
  exact absurd this (List.not_mem_nil v)

theorem shellMembers_mean_lt (l : List ℚ) (d : ℚ) (hd : 0 ≤ d) (hl : l ≠ [])
    {c c' : ℕ} (hcc : c < c') (hc' : c' < numShellsOf l d) :
    listMean (shellMembers l d c) < listMean (shellMembers l d c') := by
  have hne := shellMembers_ne_nil l d hd hl (hcc.trans hc')
  have hne' := shellMembers_ne_nil l d hd hl hc'
  apply listMean_lt _ _ hne
  intro x hx
  obtain ⟨hxl, hxc⟩ := mem_shellMembers.mp hx
  apply lt_listMean _ _ hne'
  intro y hy
  obtain ⟨hyl, hyc⟩ := mem_shellMembers.mp hy
  exact lt_of_shellLabel_lt l d (by omega)

theorem shellBvaluesOf_length (l : List ℚ) (d : ℚ) :
    (shellBvaluesOf l d).length = numShellsOf l d := by
  simp [shellBvaluesOf]

theorem shellBvaluesOf_getD (l : List ℚ) (d : ℚ) {c : ℕ} (hc : c < numShellsOf l d) :
    (shellBvaluesOf l d).getD c 0 = listMean (shellMembers l d c) := by
  simp [shellBvaluesOf, List.getD_eq_getElem?_getD, List.getElem?_range, hc]

theorem shellBvaluesOf_sorted_lt (l : List ℚ) (d : ℚ) (hd : 0 ≤ d) (hl : l ≠ []) :
    List.Sorted (· < ·) (shellBvaluesOf l d) := by
  unfold shellBvaluesOf
  rw [List.Sorted, List.pairwise_map]
  have hrange : (List.range (numShellsOf l d)).Pairwise (· < ·) := List.pairwise_lt_range _
  apply hrange.imp_of_mem
  intro c c' hcm hcm' hlt
  exact shellMembers_mean_lt l d hd hl hlt (List.mem_range.mp hcm')

theorem listMax_shellIndicesOf (l : List ℚ) (d : ℚ) (hd : 0 ≤ d) (hl : l ≠ []) :
    listMax (shellIndicesOf l d) + 1 = numShellsOf l d := by
  have hmax : listMax (shellIndicesOf l d) = numShellsOf l d - 1 := by
    apply listMax_eq
    · obtain ⟨v, hv, hlab⟩ := exists_shellLabel_eq l d hd hl
        (numShellsOf l d - 1) (by unfold numShellsOf; omega)
      rw [← hlab]
      exact List.mem_map_of_mem _ hv
    · intro x hx
      obtain ⟨v, _, rfl⟩ := List.mem_map.mp hx
      have := shellLabel_lt_numShells l d v
      omega
  unfold numShellsOf at *
  omega

/-! ## Lemmas: unique rows and misc list access -/

theorem lexLe_antisymm {p q : ℚ × ℚ} (h1 : lexLe p q) (h2 : lexLe q p) : p = q := by
  unfold lexLe at h1 h2
  rcases h1 with h | ⟨e1, h1'⟩
  · rcases h2 with h' | ⟨e2, _⟩
    · exact absurd (h.trans h') (lt_irrefl _)
    · exact absurd h (by rw [e2]; exact lt_irrefl _)
  · rcases h2 with h' | ⟨e2, h2'⟩
    · exact absurd h' (by rw [e1]; exact lt_irrefl _)
    · exact Prod.ext e1 (le_antisymm h1' h2')

theorem lexLe_total' (p q : ℚ × ℚ) : lexLe p q ∨ lexLe q p := IsTotal.total p q

theorem lexLt_of_ne (p q : ℚ × ℚ) (h : p ≠ q) : lexLt p q ∨ lexLt q p := by
  rcases lexLe_total' p q with hle | hle
  · exact Or.inl ⟨hle, h⟩
  · exact Or.inr ⟨hle, h.symm⟩

theorem mem_uniqueRows {l : List (ℚ × ℚ)} {g : ℚ × ℚ} : g ∈ uniqueRows l ↔ g ∈ l := by
  unfold uniqueRows
  rw [List.mem_insertionSort, List.mem_dedup]

theorem uniqueRows_nodup (l : List (ℚ × ℚ)) : (uniqueRows l).Nodup :=
  ((List.perm_insertionSort lexLe l.dedup).nodup_iff).mpr (List.nodup_dedup l)

theorem uniqueRows_sorted (l : List (ℚ × ℚ)) : List.Sorted lexLe (uniqueRows l) :=
  List.sorted_insertionSort lexLe l.dedup

theorem mem_uniqueNats {l : List ℕ} {x : ℕ} : x ∈ uniqueNats l ↔ x ∈ l := by
  unfold uniqueNats
  rw [List.mem_insertionSort, List.mem_dedup]

theorem uniqueNats_nodup (l : List ℕ) : (uniqueNats l).Nodup :=
  ((List.perm_insertionSort (· ≤ ·) l.dedup).nodup_iff).mpr (List.nodup_dedup l)

theorem getD_map_of_lt {α β : Type} (f : α → β) (l : List α) (i : ℕ) (hd : β) (d0 : α)
    (hi : i < l.length) : (l.map f).getD i hd = f (l.getD i d0) := by
  rw [List.getD_eq_getElem?_getD, List.getElem?_map,
    List.getElem?_eq_getElem hi, List.getD_eq_getElem?_getD,
    List.getElem?_eq_getElem hi]
  rfl

theorem getD_map_of_ge {α β : Type} (f : α → β) (l : List α) (i : ℕ) (hd : β)
    (hi : l.length ≤ i) : (l.map f).getD i hd = hd := by
  rw [List.getD_eq_getElem?_getD, List.getElem?_map, List.getElem?_eq_none (by simpa)]
  rfl

theorem nat_mem_iff_getD (l : List ℕ) (x : ℕ) :
    x ∈ l ↔ ∃ i, i < l.length ∧ l.getD i 0 = x := by
  constructor
  · intro hx
    obtain ⟨i, hi, he⟩ := List.mem_iff_getElem.mp hx
    exact ⟨i, hi, by rw [List.getD_eq_getElem?_getD, List.getElem?_eq_getElem hi]; exact he⟩
  · rintro ⟨i, hi, he⟩
    rw [List.getD_eq_getElem?_getD, List.getElem?_eq_getElem hi] at he
    exact he ▸ List.getElem_mem hi

theorem getD_mem_of_lt (l : List ℕ) (i : ℕ) (hi : i < l.length) : l.getD i 0 ∈ l :=
  (nat_mem_iff_getD l _).mpr ⟨i, hi, rfl⟩

theorem groupMask_length (deltas : List (ℚ × ℚ)) (g : ℚ × ℚ) :
    (groupMask deltas g).length = deltas.length := by
  unfold groupMask; simp

theorem groupMask_getD (deltas : List (ℚ × ℚ)) (g : ℚ × ℚ) (i : ℕ)
    (hi : i < deltas.length) :
    (groupMask deltas g).getD i false = decide (deltas.getD i (0, 0) = g) := by
  unfold groupMask
  exact getD_map_of_lt _ deltas i false (0, 0) hi

/-! ## Lemmas: characterization of the per-group shell loop -/

theorem buildShellsGo_nil (bv : List ℚ) (deltas : List (ℚ × ℚ)) (d : ℚ)
    (si : List ℕ) (acc : List (List ℚ)) (m : ℕ) :
    buildShellsGo bv deltas d [] si acc m = .ok (si, acc) := rfl

theorem buildShellsGo_cons (bv : List ℚ) (deltas : List (ℚ × ℚ)) (d : ℚ)
    (g : ℚ × ℚ) (rest : List (ℚ × ℚ)) (si : List ℕ) (acc : List (List ℚ)) (m : ℕ) :
    buildShellsGo bv deltas d (g :: rest) si acc m =
      match calculate_shell_bvalues_and_indices (selectMask bv (groupMask deltas g)) d with
      | .error e => .error e
      | .ok (si_, sb_) =>
        buildShellsGo bv deltas d rest
          (scatterMask si (groupMask deltas g) (si_.map (· + m)))
          (acc ++ [sb_])
          (listMax (scatterMask si (groupMask deltas g) (si_.map (· + m))) + 1) := by
  cases hcl : calculate_shell_bvalues_and_indices (selectMask bv (groupMask deltas g)) d with
  | error e =>
    show Except.bind _ _ = _
    rw [hcl]
    rfl
  | ok p =>
    show Except.bind _ _ = _
    rw [hcl]
    cases p
    rfl

theorem offsetIn_nil (f : ℚ × ℚ → ℕ) (g : ℚ × ℚ) : offsetIn f [] g = 0 := rfl

theorem offsetIn_cons (f : ℚ × ℚ → ℕ) (h : ℚ × ℚ) (tl : List (ℚ × ℚ)) (g : ℚ × ℚ) :
    offsetIn f (h :: tl) g = if h = g then 0 else f h + offsetIn f tl g := rfl

theorem buildShellsGo_spec (bv : List ℚ) (deltas : List (ℚ × ℚ)) (d : ℚ)
    (hdl : deltas.length = bv.length) (hd : 0 ≤ d) :
    ∀ (gs : List (ℚ × ℚ)) (si0 : List ℕ) (acc0 : List (List ℚ)) (m0 : ℕ)
      (siF : List ℕ) (accF : List (List ℚ)),
      gs.Nodup →
      si0.length = bv.length →
      (∀ x ∈ si0, x ≤ m0) →
      buildShellsGo bv deltas d gs si0 acc0 m0 = .ok (siF, accF) →
      siF.length = bv.length ∧
      accF = acc0 ++ gs.map (fun g => shellBvaluesOf (groupBv bv deltas g) d) ∧
      (∀ g ∈ gs, 2 ≤ (groupBv bv deltas g).length) ∧
      (∀ i, i < bv.length → deltas.getD i (0, 0) ∉ gs →
        siF.getD i 0 = si0.getD i 0) ∧
      (∀ i, i < bv.length → deltas.getD i (0, 0) ∈ gs →
        siF.getD i 0 =
          m0 + offsetIn (groupShellCount bv deltas d) gs (deltas.getD i (0, 0)) +
            shellLabel (groupBv bv deltas (deltas.getD i (0, 0))) d (bv.getD i 0)) ∧
      (∀ x ∈ siF, x ≤ m0 + (gs.map (groupShellCount bv deltas d)).sum) ∧
      (gs ≠ [] →
        listMax siF + 1 = m0 + (gs.map (groupShellCount bv deltas d)).sum) := by
  intro gs
  induction gs with
  | nil =>
    intro si0 acc0 m0 siF accF _ hlen hball hok
    rw [buildShellsGo_nil] at hok
    simp only [Except.ok.injEq, Prod.mk.injEq] at hok
    obtain ⟨h1, h2⟩ := hok
    subst h1
    subst h2
    refine ⟨hlen, by simp, by simp, fun i _ _ => rfl, by simp, ?_, by simp⟩
    intro x hx
    simpa using hball x hx
  | cons g rest ih =>
    intro si0 acc0 m0 siF accF hnd hlen hball hok
    rw [buildShellsGo_cons] at hok
    cases hcl : calculate_shell_bvalues_and_indices (selectMask bv (groupMask deltas g)) d with
    | error e => rw [hcl] at hok; exact absurd hok (by simp)
    | ok p =>
      rw [hcl] at hok
      obtain ⟨si_, sb_⟩ := p
      rw [calculate_shell_bvalues_and_indices] at hcl
      have hsz : ¬(selectMask bv (groupMask deltas g)).length < 2 := by
        intro hcon
        rw [if_pos hcon] at hcl
        exact absurd hcl (by simp)
      rw [if_neg hsz] at hcl
      simp only [Except.ok.injEq, Prod.mk.injEq] at hcl
      obtain ⟨hsi_, hsb_⟩ := hcl
      subst hsi_
      subst hsb_
      simp only [] at hok
      -- notation
      set l := selectMask bv (groupMask deltas g) with hldef
      have hl2 : 2 ≤ l.length := by omega
      have hlne : l ≠ [] := by
        intro hcon
        rw [hcon] at hl2
        simp at hl2
      have hglb : groupBv bv deltas g = l := rfl
      have hcnt : groupShellCount bv deltas d g = numShellsOf l d := rfl
      have hmasklen : (groupMask deltas g).length = bv.length := by
        rw [groupMask_length, hdl]
      have hsellen : l.length = (groupMask deltas g).count true :=
        selectMask_length bv (groupMask deltas g) (by rw [hmasklen])
      have hvslen : (shellIndicesOf l d).length = l.length := by
        unfold shellIndicesOf
        simp
      -- the updated index array
      set siU := scatterMask si0 (groupMask deltas g) ((shellIndicesOf l d).map (· + m0))
        with hsiUdef
      have hsiUlen : siU.length = bv.length := by
        rw [hsiUdef, scatterMask_length, hlen]
      -- pointwise value of siU
      have hpt_in : ∀ i, i < bv.length → deltas.getD i (0, 0) = g →
          siU.getD i 0 = m0 + shellLabel l d (bv.getD i 0) := by
        intro i hi hg
        have hmaskT : (groupMask deltas g).getD i false = true := by
          rw [groupMask_getD deltas g i (by omega), hg]
          simp
        have hrank : ((groupMask deltas g).take i).count true <
            (groupMask deltas g).count true :=
          maskRank_lt_count _ i hmaskT
        rw [hsiUdef, scatterMask_getD_true _ _ _ _ _ hmaskT (by rw [hmasklen, hlen])
          (by rw [List.length_map, hvslen, hsellen])]
        rw [getD_map_of_lt _ _ _ _ 0 (by rw [hvslen, hsellen]; exact hrank)]
        unfold shellIndicesOf
        rw [getD_map_of_lt _ _ _ _ 0 (by rw [hsellen]; exact hrank)]
        have hsel : l.getD ((List.take i (groupMask deltas g)).count true) 0 =
            bv.getD i 0 :=
          selectMask_getD_rank bv (groupMask deltas g) i 0 hmaskT hi
        rw [hsel]
        omega
      have hpt_out : ∀ i, i < bv.length → deltas.getD i (0, 0) ≠ g →
          siU.getD i 0 = si0.getD i 0 := by
        intro i hi hg
        have hmaskF : (groupMask deltas g).getD i false = false := by
          rw [groupMask_getD deltas g i (by omega)]
          simpa using hg
        rw [hsiUdef, scatterMask_getD_false _ _ _ _ _ hmaskF]
      -- the maximum of siU
      have hnum_pos : 1 ≤ numShellsOf l d := by
        unfold numShellsOf
        omega
      have hmaxU : listMax siU = m0 + numShellsOf l d - 1 := by
        apply listMax_eq
        · obtain ⟨v, hvmem, hvlab⟩ := exists_shellLabel_eq l d hd hlne
            (numShellsOf l d - 1) (by omega)
          obtain ⟨i, hmi, hvi⟩ := (mem_selectMask bv (groupMask deltas g) v).mp
            (by rw [hldef] at hvmem; exact hvmem)
          have hilt : i < bv.length := by
            by_contra hcon
            rw [List.getElem?_eq_none (by omega)] at hvi
            exact absurd hvi (by simp)
          have hgi : deltas.getD i (0, 0) = g := by
            have := groupMask_getD deltas g i (by omega)
            rw [hmi] at this
            exact of_decide_eq_true this.symm
          have hbvi : bv.getD i 0 = v := by
            rw [List.getD_eq_getElem?_getD, hvi]
            rfl
          have hval := hpt_in i hilt hgi
          rw [hbvi, hvlab] at hval
          have h2 : m0 + numShellsOf l d - 1 = siU.getD i 0 := by omega
          rw [h2]
          apply getD_mem_of_lt
          omega
        · intro x hx
          obtain ⟨i, hi, hxi⟩ := (nat_mem_iff_getD siU x).mp hx
          rw [hsiUlen] at hi
          by_cases hg : deltas.getD i (0, 0) = g
          · rw [hpt_in i hi hg] at hxi
            have := shellLabel_lt_numShells l d (bv.getD i 0)
            omega
          · rw [hpt_out i hi hg] at hxi
            have : si0.getD i 0 ∈ si0 := getD_mem_of_lt si0 i (by omega)
            have := hball _ this
            omega
      have hm1 : listMax siU + 1 = m0 + numShellsOf l d := by
        rw [hmaxU]
        omega
      have hball' : ∀ x ∈ siU, x ≤ listMax siU + 1 := by
        intro x hx
        have := le_listMax siU x hx
        omega
      -- apply the induction hypothesis
      obtain ⟨ihlen, ihacc, ihsz, ihout, ihin, ihub, ihmax⟩ :=
        ih siU (acc0 ++ [shellBvaluesOf l d]) (listMax siU + 1) siF accF
          (List.Nodup.of_cons hnd) hsiUlen hball' hok
      have hgnotin : g ∉ rest := (List.nodup_cons.mp hnd).1
      refine ⟨ihlen, ?_, ?_, ?_, ?_, ?_, ?_⟩
      · rw [ihacc, List.map_cons, List.append_assoc]
        rfl
      · intro g' hg'
        rcases List.mem_cons.mp hg' with rfl | hg''
        · rw [hglb]
          omega
        · exact ihsz g' hg''
      · intro i hi hnotin
        have hne_g : deltas.getD i (0, 0) ≠ g := fun hcon => hnotin (hcon ▸ List.mem_cons_self g rest)
        have hnin_rest : deltas.getD i (0, 0) ∉ rest := fun hcon =>
          hnotin (List.mem_cons_of_mem g hcon)
        rw [ihout i hi hnin_rest, hpt_out i hi hne_g]
      · intro i hi hin
        rcases List.mem_cons.mp hin with hgeq | hinrest
        · have hnin_rest : deltas.getD i (0, 0) ∉ rest := by
            rw [hgeq]
            exact hgnotin
          rw [ihout i hi hnin_rest, hpt_in i hi hgeq, hgeq]
          rw [offsetIn_cons, if_pos rfl, hglb]
          omega
        · have hne_g : deltas.getD i (0, 0) ≠ g := fun hcon => hgnotin (hcon ▸ hinrest)
          rw [ihin i hi hinrest]
          rw [offsetIn_cons, if_neg (fun hcon => hne_g hcon.symm)]
          rw [hm1, hcnt]
          omega
      · intro x hx
        have hx2 := ihub x hx
        rw [hm1] at hx2
        have hsum : (List.map (groupShellCount bv deltas d) (g :: rest)).sum =
            groupShellCount bv deltas d g +
              (List.map (groupShellCount bv deltas d) rest).sum := by
          simp
        rw [hsum, hcnt]
        omega
      · intro _
        have hsum : (List.map (groupShellCount bv deltas d) (g :: rest)).sum =
            groupShellCount bv deltas d g +
              (List.map (groupShellCount bv deltas d) rest).sum := by
          simp
        by_cases hrest : rest = []
        · subst hrest
          rw [buildShellsGo_nil] at hok
          simp only [Except.ok.injEq, Prod.mk.injEq] at hok
          obtain ⟨h1, _⟩ := hok
          rw [← h1, hm1, hsum, hcnt]
          simp
        · have hmx := ihmax hrest
          rw [hm1] at hmx
          rw [hsum, hcnt]
          omega

/-! ## Lemmas: global shell-index offsets -/

theorem getD_mem {α : Type} (l : List α) (i : ℕ) (d0 : α) (hi : i < l.length) :
    l.getD i d0 ∈ l := by
  rw [List.getD_eq_getElem?_getD, List.getElem?_eq_getElem hi]
  exact List.getElem_mem hi

theorem offsetIn_add_le (cnt : ℚ × ℚ → ℕ) (gs : List (ℚ × ℚ))
    (hs : List.Sorted lexLe gs) (hnd : gs.Nodup) {g h : ℚ × ℚ}
    (hg : g ∈ gs) (hh : h ∈ gs) (hlt : lexLt g h) :
    offsetIn cnt gs g + cnt g ≤ offsetIn cnt gs h := by
  induction gs with
  | nil => simp at hg
  | cons k tl ih =>
    have hne : g ≠ h := hlt.2
    by_cases hkg : k = g
    · subst hkg
      have hkh : k ≠ h := hne
      have hhtl : h ∈ tl := by
        rcases List.mem_cons.mp hh with rfl | h'
        · exact absurd rfl hkh
        · exact h'
      rw [offsetIn_cons, if_pos rfl, offsetIn_cons, if_neg hkh]
      omega
    · have hgtl : g ∈ tl := by
        rcases List.mem_cons.mp hg with rfl | h'
        · exact absurd rfl hkg
        · exact h'
      have hkh : k ≠ h := by
        rintro rfl
        have : lexLe k g := List.rel_of_sorted_cons hs g hgtl
        exact hne (lexLe_antisymm hlt.1 this)
      have hhtl : h ∈ tl := by
        rcases List.mem_cons.mp hh with rfl | h'
        · exact absurd rfl hkh
        · exact h'
      rw [offsetIn_cons, if_neg hkg, offsetIn_cons, if_neg hkh]
      have := ih hs.of_cons (List.Nodup.of_cons hnd) hgtl hhtl
      omega

theorem offsetIn_add_le_sum (cnt : ℚ × ℚ → ℕ) (gs : List (ℚ × ℚ)) (hnd : gs.Nodup)
    {g : ℚ × ℚ} (hg : g ∈ gs) : offsetIn cnt gs g + cnt g ≤ (gs.map cnt).sum := by
  induction gs with
  | nil => simp at hg
  | cons k tl ih =>
    simp only [List.map_cons, List.sum_cons]
    by_cases hkg : k = g
    · subst hkg
      rw [offsetIn_cons, if_pos rfl]
      omega
    · have hgtl : g ∈ tl := by
        rcases List.mem_cons.mp hg with rfl | h'
        · exact absurd rfl hkg
        · exact h'
      rw [offsetIn_cons, if_neg hkg]
      have := ih (List.Nodup.of_cons hnd) hgtl
      omega

theorem exists_decompose (cnt : ℚ × ℚ → ℕ) :
    ∀ (gs : List (ℚ × ℚ)), gs.Nodup → ∀ c, c < (gs.map cnt).sum →
    ∃ g ∈ gs, ∃ c', c' < cnt g ∧ c = offsetIn cnt gs g + c' := by
  intro gs
  induction gs with
  | nil =>
    intro _ c hc
    simp at hc
  | cons k tl ih =>
    intro hnd c hc
    simp only [List.map_cons, List.sum_cons] at hc
    by_cases hck : c < cnt k
    · exact ⟨k, by simp, c, hck, by rw [offsetIn_cons, if_pos rfl]; omega⟩
    · obtain ⟨g, hg, c', hc', he⟩ := ih (List.Nodup.of_cons hnd) (c - cnt k) (by omega)
      have hkg : k ≠ g := by
        rintro rfl
        exact (List.nodup_cons.mp hnd).1 hg
      refine ⟨g, List.mem_cons_of_mem k hg, c', hc', ?_⟩
      rw [offsetIn_cons, if_neg hkg]
      omega

theorem decompose_unique (cnt : ℚ × ℚ → ℕ) (gs : List (ℚ × ℚ))
    (hs : List.Sorted lexLe gs) (hnd : gs.Nodup) {g g' : ℚ × ℚ} {c c' : ℕ}
    (hg : g ∈ gs) (hg' : g' ∈ gs) (hc : c < cnt g) (hc' : c' < cnt g')
    (he : offsetIn cnt gs g + c = offsetIn cnt gs g' + c') : g = g' ∧ c = c' := by
  by_cases hgg : g = g'
  · subst hgg
    exact ⟨rfl, by omega⟩
  · rcases lexLt_of_ne g g' hgg with hlt | hlt
    · have := offsetIn_add_le cnt gs hs hnd hg hg' hlt
      omega
    · have := offsetIn_add_le cnt gs hs hnd hg' hg hlt
      omega

/-! ## Lemmas: flattening the per-group mean arrays -/

theorem flatten_map_length (gs : List (ℚ × ℚ)) (f : ℚ × ℚ → List ℚ)
    (cnt : ℚ × ℚ → ℕ) (hf : ∀ g ∈ gs, (f g).length = cnt g) :
    (gs.map f).flatten.length = (gs.map cnt).sum := by
  induction gs with
  | nil => rfl
  | cons k tl ih =>
    simp only [List.map_cons, List.flatten_cons, List.length_append, List.sum_cons]
    rw [hf k (by simp), ih (fun g hg => hf g (List.mem_cons_of_mem k hg))]

theorem flatten_map_getD (gs : List (ℚ × ℚ)) (f : ℚ × ℚ → List ℚ)
    (cnt : ℚ × ℚ → ℕ) (hf : ∀ g ∈ gs, (f g).length = cnt g) {g : ℚ × ℚ}
    (hg : g ∈ gs) {c : ℕ} (hc : c < cnt g) (x0 : ℚ) :
    (gs.map f).flatten.getD (offsetIn cnt gs g + c) x0 = (f g).getD c x0 := by
  induction gs with
  | nil => simp at hg
  | cons k tl ih =>
    simp only [List.map_cons, List.flatten_cons]
    by_cases hkg : k = g
    · subst hkg
      rw [offsetIn_cons, if_pos rfl]
      have hck : c < (f k).length := by rw [hf k (by simp)]; exact hc
      rw [Nat.zero_add, List.getD_append _ _ _ _ hck]
    · have hgtl : g ∈ tl := by
        rcases List.mem_cons.mp hg with rfl | h'
        · exact absurd rfl hkg
        · exact h'
      rw [offsetIn_cons, if_neg hkg]
      have hlenk : (f k).length = cnt k := hf k (by simp)
      have harith : cnt k + offsetIn cnt tl g + c =
          (f k).length + (offsetIn cnt tl g + c) := by omega
      rw [harith, List.getD_append_right _ _ _ _ (by omega), Nat.add_sub_cancel_left]
      exact ih (fun g' hg' => hf g' (List.mem_cons_of_mem k hg')) hgtl

theorem ravelEq_ok_elim {ls : List (List ℚ)} {sb : List ℚ} (h : ravelEq ls = .ok sb) :
    sb = ls.flatten ∧ ∀ l ∈ ls, l.length = (ls.headD []).length := by
  unfold ravelEq at h
  rcases hall : ls.all (fun l => decide (l.length = (ls.headD []).length)) with _ | _
  · rw [hall] at h
    simp at h
  · rw [hall] at h
    simp only [if_pos] at h
    simp only [Except.ok.injEq] at h
    refine ⟨h.symm, ?_⟩
    intro l hl
    exact of_decide_eq_true (List.all_eq_true.mp hall l hl)

theorem ravelEq_ok_intro (ls : List (List ℚ))
    (h : ∀ l ∈ ls, l.length = (ls.headD []).length) : ravelEq ls = .ok ls.flatten := by
  unfold ravelEq
  rw [if_pos]
  exact List.all_eq_true.mpr (fun l hl => decide_eq_true (h l hl))

/-! ## Lemmas: numpy min -/

theorem foldl_min_le_init (xs : List ℚ) (x : ℚ) : xs.foldl min x ≤ x := by
  induction xs generalizing x with
  | nil => exact le_refl x
  | cons y ys ih =>
    rw [List.foldl_cons]
    exact (ih (min x y)).trans (min_le_left x y)

theorem foldl_min_le_mem (xs : List ℚ) (x : ℚ) : ∀ y ∈ xs, xs.foldl min x ≤ y := by
  induction xs generalizing x with
  | nil => intro y hy; simp at hy
  | cons z zs ih =>
    intro y hy
    rcases List.mem_cons.mp hy with rfl | hy'
    · rw [List.foldl_cons]
      exact (foldl_min_le_init zs (min x y)).trans (min_le_right x y)
    · rw [List.foldl_cons]
      exact ih (min x z) y hy'

theorem foldl_min_mem (xs : List ℚ) (x : ℚ) : xs.foldl min x = x ∨ xs.foldl min x ∈ xs := by
  induction xs generalizing x with
  | nil => exact Or.inl rfl
  | cons y ys ih =>
    rw [List.foldl_cons]
    rcases ih (min x y) with he | hm
    · rw [he]
      rcases le_total x y with hxy | hyx
      · rw [min_eq_left hxy]
        exact Or.inl rfl
      · rw [min_eq_right hyx]
        exact Or.inr (List.mem_cons_self y ys)
    · exact Or.inr (List.mem_cons_of_mem y hm)

theorem npMin_ok_le {a : NDArr} {m : ℚ} (h : npMin a = .ok m) : ∀ x ∈ a.data, m ≤ x := by
  unfold npMin at h
  cases hdat : a.data with
  | nil =>
    rw [hdat] at h
    exact absurd h (by simp)
  | cons x xs =>
    rw [hdat] at h
    simp only [Except.ok.injEq] at h
    subst h
    intro y hy
    rcases List.mem_cons.mp hy with rfl | hy'
    · exact foldl_min_le_init xs y
    · exact foldl_min_le_mem xs x y hy'

theorem npMin_ok_mem {a : NDArr} {m : ℚ} (h : npMin a = .ok m) : m ∈ a.data := by
  unfold npMin at h
  cases hdat : a.data with
  | nil =>
    rw [hdat] at h
    exact absurd h (by simp)
  | cons x xs =>
    rw [hdat] at h
    simp only [Except.ok.injEq] at h
    subst h
    rcases foldl_min_mem xs x with he | hm
    · rw [he]
      exact List.mem_cons_self x xs
    · exact List.mem_cons_of_mem x hm

theorem npMin_ok_of_ne_nil {a : NDArr} (h : a.data ≠ []) : ∃ m, npMin a = .ok m := by
  unfold npMin
  cases hdat : a.data with
  | nil => exact absurd hdat h
  | cons x xs => exact ⟨xs.foldl min x, rfl⟩

theorem npMin_neg_iff {a : NDArr} {m : ℚ} (h : npMin a = .ok m) :
    m < 0 ↔ ∃ x ∈ a.data, x < 0 := by
  constructor
  · intro hm
    exact ⟨m, npMin_ok_mem h, hm⟩
  · rintro ⟨x, hx, hxneg⟩
    exact lt_of_le_of_lt (npMin_ok_le h x hx) hxneg

/-! ## Lemmas: top-level characterization of the shell computation -/

theorem buildShells_spec (bv : List ℚ) (deltas : List (ℚ × ℚ)) (d : ℚ)
    (hdl : deltas.length = bv.length) (hd : 0 ≤ d) {si : List ℕ}
    {acc : List (List ℚ)} (hok : buildShells bv deltas d = .ok (si, acc)) :
    si.length = bv.length ∧
    acc = (uniqueRows deltas).map (fun g => shellBvaluesOf (groupBv bv deltas g) d) ∧
    (∀ g ∈ uniqueRows deltas, 2 ≤ (groupBv bv deltas g).length) ∧
    (∀ i, i < bv.length →
      si.getD i 0 =
        offsetIn (groupShellCount bv deltas d) (uniqueRows deltas) (deltas.getD i (0, 0)) +
          shellLabel (groupBv bv deltas (deltas.getD i (0, 0))) d (bv.getD i 0)) ∧
    (∀ x ∈ si, x ≤ ((uniqueRows deltas).map (groupShellCount bv deltas d)).sum) ∧
    (deltas ≠ [] →
      listMax si + 1 = ((uniqueRows deltas).map (groupShellCount bv deltas d)).sum) := by
  obtain ⟨hlen, hacc, hsz, hout, hin, hub, hmax⟩ :=
    buildShellsGo_spec bv deltas d hdl hd (uniqueRows deltas)
      (List.replicate bv.length 0) [] 0 si acc (uniqueRows_nodup deltas)
      (by simp) (by simp) hok
  have hmem : ∀ i, i < bv.length → deltas.getD i (0, 0) ∈ uniqueRows deltas := by
    intro i hi
    exact mem_uniqueRows.mpr (getD_mem deltas i (0, 0) (by omega))
  refine ⟨hlen, by simpa using hacc, hsz, ?_, ?_, ?_⟩
  · intro i hi
    have := hin i hi (hmem i hi)
    simpa using this
  · intro x hx
    simpa using hub x hx
  · intro hdne
    have hne : uniqueRows deltas ≠ [] := by
      intro hcon
      have h0 : deltas.getD 0 (0, 0) ∈ uniqueRows deltas := by
        apply hmem 0
        have : deltas.length ≠ 0 := fun hz => hdne (List.length_eq_zero.mp hz)
        omega
      rw [hcon] at h0
      exact absurd h0 (List.not_mem_nil _)
    simpa using hmax hne

/-! ## Lemmas: unfolding the builder and the factories -/

theorem except_bind_ok {ε α β : Type} (a : α) (f : α → Except ε β) :
    (Except.ok a : Except ε α) >>= f = f a := rfl

theorem except_bind_error {ε α β : Type} (e : ε) (f : α → Except ε β) :
    (Except.error e : Except ε α) >>= f = .error e := rfl

theorem build_ok_multi_elim (bv : List ℚ) (gd : List Vec3) (q gr δ Δ : List ℚ) (d t : ℚ)
    (S : MipyAcquisitionScheme) (h1 : 1 < bv.length)
    (hok : MipyAcquisitionScheme.build bv gd q gr δ Δ d t = .ok S) :
    ∃ si acc sb, buildShells bv (δ.zip Δ) d = .ok (si, acc) ∧ ravelEq acc = .ok sb ∧
      S = assembleScheme bv gd q gr δ Δ d t si sb := by
  unfold MipyAcquisitionScheme.build at hok
  rw [if_pos h1] at hok
  cases hbs : buildShells bv (δ.zip Δ) d with
  | error e =>
    rw [hbs, except_bind_error] at hok
    exact absurd hok (by simp)
  | ok p =>
    obtain ⟨si, acc⟩ := p
    rw [hbs, except_bind_ok] at hok
    simp only [] at hok
    cases hrv : ravelEq acc with
    | error e =>
      rw [hrv, except_bind_error] at hok
      exact absurd hok (by simp)
    | ok sb =>
      rw [hrv, except_bind_ok, except_bind_ok] at hok
      simp only [Except.ok.injEq] at hok
      exact ⟨si, acc, sb, hbs ▸ rfl, hrv, hok.symm⟩

theorem build_ok_multi_intro (bv : List ℚ) (gd : List Vec3) (q gr δ Δ : List ℚ)
    (d t : ℚ) (si : List ℕ) (acc : List (List ℚ)) (sb : List ℚ) (h1 : 1 < bv.length)
    (hbs : buildShells bv (δ.zip Δ) d = .ok (si, acc)) (hrv : ravelEq acc = .ok sb) :
    MipyAcquisitionScheme.build bv gd q gr δ Δ d t =
      .ok (assembleScheme bv gd q gr δ Δ d t si sb) := by
  unfold MipyAcquisitionScheme.build
  rw [if_pos h1, hbs, except_bind_ok]
  simp only []
  rw [hrv, except_bind_ok, except_bind_ok]

theorem except_mapError_ok {ε ε' α : Type} (f : ε → ε') (a : α) :
    Except.mapError f (Except.ok a : Except ε α) = .ok a := rfl

theorem except_mapError_error {ε ε' α : Type} (f : ε → ε') (e : ε) :
    Except.mapError f (Except.error e : Except ε α) = (.error (f e) : Except ε' α) := rfl

theorem build_ok_single_elim (bv : List ℚ) (gd : List Vec3) (q gr δ Δ : List ℚ)
    (d t : ℚ) (S : MipyAcquisitionScheme) (h1 : bv.length = 1)
    (hok : MipyAcquisitionScheme.build bv gd q gr δ Δ d t = .ok S) :
    S = assembleScheme bv gd q gr δ Δ d t [0] bv := by
  unfold MipyAcquisitionScheme.build at hok
  rw [if_neg (by omega)] at hok
  cases bv with
  | nil => simp at h1
  | cons x xs =>
    cases xs with
    | nil =>
      simp only [] at hok
      rw [except_bind_ok] at hok
      simp only [] at hok
      simp only [Except.ok.injEq] at hok
      exact hok.symm
    | cons y ys => simp at h1

theorem from_bvalues_ok_elim (qfb gfb : ℚ → ℚ → ℚ → ℚ) (bv gd : NDArr) (δ Δ : PyArg)
    (d t : ℚ) (S : MipyAcquisitionScheme)
    (hok : acquisition_scheme_from_bvalues qfb gfb bv gd δ Δ d t = .ok S) :
    ∃ δ' Δ', unify_length_reference_delta_Delta bv δ Δ = .ok (δ', Δ') ∧
      check_acquisition_scheme bv gd δ' Δ' = .ok () ∧
      MipyAcquisitionScheme.build bv.data (chunk3 gd.data)
        (zipWith3 qfb bv.data δ'.data Δ'.data) (zipWith3 gfb bv.data δ'.data Δ'.data)
        δ'.data Δ'.data d t = .ok S := by
  unfold acquisition_scheme_from_bvalues at hok
  cases hu : unify_length_reference_delta_Delta bv δ Δ with
  | error e =>
    rw [hu, except_mapError_error, except_bind_error] at hok
    exact absurd hok (by simp)
  | ok p =>
    obtain ⟨δ', Δ'⟩ := p
    rw [hu, except_mapError_ok, except_bind_ok] at hok
    simp only [] at hok
    refine ⟨δ', Δ', hu ▸ rfl, ?_⟩
    cases hc : check_acquisition_scheme bv gd δ' Δ' with
    | error e =>
      rw [hc, except_mapError_error, except_bind_error] at hok
      exact absurd hok (by simp)
    | ok u =>
      cases u
      rw [hc, except_mapError_ok, except_bind_ok] at hok
      refine ⟨rfl, ?_⟩
      cases hb : MipyAcquisitionScheme.build bv.data (chunk3 gd.data)
          (zipWith3 qfb bv.data δ'.data Δ'.data) (zipWith3 gfb bv.data δ'.data Δ'.data)
          δ'.data Δ'.data d t with
      | error e =>
        rw [hb, except_mapError_error] at hok
        exact absurd hok (by simp)
      | ok S' =>
        rw [hb, except_mapError_ok] at hok
        simp only [Except.ok.injEq] at hok
        rw [hok]

theorem from_bvalues_ok_intro (qfb gfb : ℚ → ℚ → ℚ → ℚ) (bv gd : NDArr) (δ Δ : PyArg)
    (d t : ℚ) (δ' Δ' : NDArr) (S : MipyAcquisitionScheme)
    (hu : unify_length_reference_delta_Delta bv δ Δ = .ok (δ', Δ'))
    (hc : check_acquisition_scheme bv gd δ' Δ' = .ok ())
    (hb : MipyAcquisitionScheme.build bv.data (chunk3 gd.data)
        (zipWith3 qfb bv.data δ'.data Δ'.data) (zipWith3 gfb bv.data δ'.data Δ'.data)
        δ'.data Δ'.data d t = .ok S) :
    acquisition_scheme_from_bvalues qfb gfb bv gd δ Δ d t = .ok S := by
  unfold acquisition_scheme_from_bvalues
  rw [hu, except_mapError_ok, except_bind_ok]
  simp only []
  rw [hc, except_mapError_ok, except_bind_ok, hb, except_mapError_ok]

theorem from_bvalues_validation_error (qfb gfb : ℚ → ℚ → ℚ → ℚ) (bv gd : NDArr)
    (δ Δ : PyArg) (d t : ℚ) (δ' Δ' : NDArr) (e : CheckErr)
    (hu : unify_length_reference_delta_Delta bv δ Δ = .ok (δ', Δ'))
    (hc : check_acquisition_scheme bv gd δ' Δ' = .error e) :
    acquisition_scheme_from_bvalues qfb gfb bv gd δ Δ d t = .error (.validation e) := by
  unfold acquisition_scheme_from_bvalues
  rw [hu, except_mapError_ok, except_bind_ok]
  simp only []
  rw [hc, except_mapError_error, except_bind_error]

theorem from_qvalues_ok_intro (bfq : ℚ → ℚ → ℚ → ℚ) (gfq : ℚ → ℚ → ℚ) (qv gd : NDArr)
    (δ Δ : PyArg) (d t : ℚ) (δ' Δ' : NDArr) (S : MipyAcquisitionScheme)
    (hu : unify_length_reference_delta_Delta qv δ Δ = .ok (δ', Δ'))
    (hc : check_acquisition_scheme qv gd δ' Δ' = .ok ())
    (hb : MipyAcquisitionScheme.build (zipWith3 bfq qv.data δ'.data Δ'.data)
        (chunk3 gd.data) qv.data (List.zipWith gfq qv.data δ'.data)
        δ'.data Δ'.data d t = .ok S) :
    acquisition_scheme_from_qvalues bfq gfq qv gd δ Δ d t = .ok S := by
  unfold acquisition_scheme_from_qvalues
  rw [hu, except_mapError_ok, except_bind_ok]
  simp only []
  rw [hc, except_mapError_ok, except_bind_ok, hb, except_mapError_ok]

theorem from_qvalues_validation_error (bfq : ℚ → ℚ → ℚ → ℚ) (gfq : ℚ → ℚ → ℚ)
    (qv gd : NDArr) (δ Δ : PyArg) (d t : ℚ) (δ' Δ' : NDArr) (e : CheckErr)
    (hu : unify_length_reference_delta_Delta qv δ Δ = .ok (δ', Δ'))
    (hc : check_acquisition_scheme qv gd δ' Δ' = .error e) :
    acquisition_scheme_from_qvalues bfq gfq qv gd δ Δ d t = .error (.validation e) := by
  unfold acquisition_scheme_from_qvalues
  rw [hu, except_mapError_ok, except_bind_ok]
  simp only []
  rw [hc, except_mapError_error, except_bind_error]

theorem from_gradient_strengths_ok_intro (bfg : ℚ → ℚ → ℚ → ℚ) (qfg : ℚ → ℚ → ℚ)
    (gs gd : NDArr) (δ Δ : PyArg) (d t : ℚ) (δ' Δ' : NDArr) (S : MipyAcquisitionScheme)
    (hu : unify_length_reference_delta_Delta gs δ Δ = .ok (δ', Δ'))
    (hc : check_acquisition_scheme gs gd δ' Δ' = .ok ())
    (hb : MipyAcquisitionScheme.build (zipWith3 bfg gs.data δ'.data Δ'.data)
        (chunk3 gd.data) (List.zipWith qfg gs.data δ'.data) gs.data
        δ'.data Δ'.data d t = .ok S) :
    acquisition_scheme_from_gradient_strengths bfg qfg gs gd δ Δ d t = .ok S := by
  unfold acquisition_scheme_from_gradient_strengths
  rw [hu, except_mapError_ok, except_bind_ok]
  simp only []
  rw [hc, except_mapError_ok, except_bind_ok, hb, except_mapError_ok]

theorem from_gradient_strengths_validation_error (bfg : ℚ → ℚ → ℚ → ℚ)
    (qfg : ℚ → ℚ → ℚ) (gs gd : NDArr) (δ Δ : PyArg) (d t : ℚ) (δ' Δ' : NDArr)
    (e : CheckErr)
    (hu : unify_length_reference_delta_Delta gs δ Δ = .ok (δ', Δ'))
    (hc : check_acquisition_scheme gs gd δ' Δ' = .error e) :
    acquisition_scheme_from_gradient_strengths bfg qfg gs gd δ Δ d t =
      .error (.validation e) := by
  unfold acquisition_scheme_from_gradient_strengths
  rw [hu, except_mapError_ok, except_bind_ok]
  simp only []
  rw [hc, except_mapError_error, except_bind_error]

/-! ## Lemmas: inverting a successful validation -/

theorem npLen_ok_elim {a : NDArr} {n : ℕ} (h : npLen a = .ok n) :
    1 ≤ a.ndim ∧ a.len = n := by
  unfold npLen at h
  cases hs : a.shape with
  | nil =>
    rw [hs] at h
    exact absurd h (by simp)
  | cons k tl =>
    rw [hs] at h
    simp only [Except.ok.injEq] at h
    subst h
    unfold NDArr.ndim NDArr.len
    rw [hs]
    simp

theorem check_ok_elim {bqg gd δ Δ : NDArr}
    (h : check_acquisition_scheme bqg gd δ Δ = .ok ()) :
    bqg.ndim = 1 ∧ gd.ndim = 2 ∧ δ.ndim = 1 ∧ Δ.ndim = 1 ∧
    bqg.len = gd.len ∧ bqg.len = δ.len ∧ bqg.len = Δ.len ∧
    gd.shape.getD 1 0 = 3 ∧
    (∀ x ∈ δ.data, 0 ≤ x) ∧ (∀ x ∈ Δ.data, 0 ≤ x) ∧ (∀ x ∈ bqg.data, 0 ≤ x) ∧
    (∀ v ∈ chunk3 gd.data, unitNormWithin v) ∧ δ.data ≠ [] ∧ Δ.data ≠ [] := by
  unfold check_acquisition_scheme at h
  by_cases h1 : 1 < bqg.ndim
  · rw [if_pos h1] at h
    exact absurd h (by simp)
  rw [if_neg h1] at h
  cases hnb : npLen bqg with
  | error e => rw [hnb] at h; exact absurd h (by simp)
  | ok nb =>
  rw [hnb] at h
  simp only [] at h
  cases hng : npLen gd with
  | error e => rw [hng] at h; exact absurd h (by simp)
  | ok ng =>
  rw [hng] at h
  simp only [] at h
  by_cases h2 : nb ≠ ng
  · rw [if_pos h2] at h
    exact absurd h (by simp)
  rw [if_neg h2] at h
  cases hnd : npLen δ with
  | error e => rw [hnd] at h; exact absurd h (by simp)
  | ok nd =>
  rw [hnd] at h
  simp only [] at h
  by_cases h3 : nb ≠ nd
  · rw [if_pos h3] at h
    exact absurd h (by simp)
  rw [if_neg h3] at h
  cases hnD : npLen Δ with
  | error e => rw [hnD] at h; exact absurd h (by simp)
  | ok nD =>
  rw [hnD] at h
  simp only [] at h
  by_cases h4 : nb ≠ nD
  · rw [if_pos h4] at h
    exact absurd h (by simp)
  rw [if_neg h4] at h
  by_cases h5 : 1 < δ.ndim ∨ 1 < Δ.ndim
  · rw [if_pos h5] at h
    exact absurd h (by simp)
  rw [if_neg h5] at h
  cases hmd : npMin δ with
  | error e => rw [hmd] at h; exact absurd h (by simp)
  | ok md =>
  rw [hmd] at h
  simp only [] at h
  by_cases h6 : md < 0
  · rw [if_pos h6] at h
    exact absurd h (by simp)
  rw [if_neg h6] at h
  cases hmD : npMin Δ with
  | error e => rw [hmD] at h; exact absurd h (by simp)
  | ok mD =>
  rw [hmD] at h
  simp only [] at h
  by_cases h7 : mD < 0
  · rw [if_pos h7] at h
    exact absurd h (by simp)
  rw [if_neg h7] at h
  by_cases h8 : gd.ndim ≠ 2 ∨ gd.shape.getD 1 0 ≠ 3
  · rw [if_pos h8] at h
    exact absurd h (by simp)
  rw [if_neg h8] at h
  cases hmb : npMin bqg with
  | error e => rw [hmb] at h; exact absurd h (by simp)
  | ok mb =>
  rw [hmb] at h
  simp only [] at h
  by_cases h9 : mb < 0
  · rw [if_pos h9] at h
    exact absurd h (by simp)
  rw [if_neg h9] at h
  by_cases h10 : ¬ (chunk3 gd.data).all (fun v => decide (unitNormWithin v))
  · rw [if_pos h10] at h
    exact absurd h (by simp)
  push_neg at h10
  obtain ⟨hbnd, hblen⟩ := npLen_ok_elim hnb
  obtain ⟨hgnd, hglen⟩ := npLen_ok_elim hng
  obtain ⟨hdnd, hdlen⟩ := npLen_ok_elim hnd
  obtain ⟨hDnd, hDlen⟩ := npLen_ok_elim hnD
  push_neg at h2 h3 h4 h5 h8
  refine ⟨by omega, h8.1, by omega, by omega, by omega, by omega, by omega, h8.2, ?_, ?_, ?_, ?_, ?_, ?_⟩
  · intro x hx
    have := npMin_ok_le hmd x hx
    have h6' := not_lt.mp h6
    linarith
  · intro x hx
    have := npMin_ok_le hmD x hx
    have h7' := not_lt.mp h7
    linarith
  · intro x hx
    have := npMin_ok_le hmb x hx
    have h9' := not_lt.mp h9
    linarith
  · intro v hv
    exact of_decide_eq_true (List.all_eq_true.mp h10 v hv)
  · intro hcon
    have := npMin_ok_mem hmd
    rw [hcon] at this
    exact absurd this (List.not_mem_nil _)
  · intro hcon
    have := npMin_ok_mem hmD
    rw [hcon] at this
    exact absurd this (List.not_mem_nil _)

theorem ndarr_data_length {a : NDArr} (hwf : a.WF) (hnd : a.ndim = 1) :
    a.data.length = a.len := by
  unfold NDArr.WF at hwf
  unfold NDArr.ndim at hnd
  unfold NDArr.len
  cases hs : a.shape with
  | nil => rw [hs] at hnd; simp at hnd
  | cons k tl =>
    rw [hs] at hnd hwf
    simp only [List.length_cons] at hnd
    have : tl = [] := by
      cases tl with
      | nil => rfl
      | cons u us => simp at hnd
    subst this
    rw [hwf]
    simp

theorem unify_ok_elim {ref : NDArr} {δ Δ : PyArg} {δ' Δ' : NDArr}
    (h : unify_length_reference_delta_Delta ref δ Δ = .ok (δ', Δ')) :
    unify_one ref δ = .ok δ' ∧ unify_one ref Δ = .ok Δ' := by
  unfold unify_length_reference_delta_Delta at h
  cases hu1 : unify_one ref δ with
  | error e =>
    rw [hu1, except_bind_error] at h
    exact absurd h (by simp)
  | ok a =>
    rw [hu1, except_bind_ok] at h
    cases hu2 : unify_one ref Δ with
    | error e =>
      rw [hu2, except_bind_error] at h
      exact absurd h (by simp)
    | ok b =>
      rw [hu2, except_bind_ok] at h
      simp only [Except.ok.injEq, Prod.mk.injEq] at h
      obtain ⟨h1, h2⟩ := h
      subst h1
      subst h2
      exact ⟨rfl, rfl⟩

theorem unify_one_ok_wf {ref : NDArr} {x : PyArg} {a : NDArr}
    (h : unify_one ref x = .ok a) (hwf : PyArg.WF x) : a.WF := by
  cases x with
  | scalar v =>
    unfold unify_one at h
    simp only [] at h
    cases hn : npLen ref with
    | error e =>
      rw [hn, except_bind_error] at h
      exact absurd h (by simp)
    | ok n =>
      rw [hn, except_bind_ok] at h
      simp only [Except.ok.injEq] at h
      subst h
      unfold NDArr.WF
      simp
  | arr b =>
    unfold unify_one at h
    simp only [] at h
    simp only [Except.ok.injEq] at h
    subst h
    exact hwf

theorem build_nil (gd : List Vec3) (q gr δ Δ : List ℚ) (d t : ℚ) :
    MipyAcquisitionScheme.build [] gd q gr δ Δ d t =
      .error SchemeErr.emptyMeasurements := rfl

theorem build_single_eq (x : ℚ) (gd : List Vec3) (q gr δ Δ : List ℚ) (d t : ℚ) :
    MipyAcquisitionScheme.build [x] gd q gr δ Δ d t =
      .ok (assembleScheme [x] gd q gr δ Δ d t [0] [x]) := rfl

/-! ## Lemmas: projections of the assembled scheme -/

theorem assemble_min_b (bv : List ℚ) (gd : List Vec3) (q gr δ Δ : List ℚ) (d t : ℚ)
    (si : List ℕ) (sb : List ℚ) :
    (assembleScheme bv gd q gr δ Δ d t si sb).min_b_shell_distance = d := rfl

theorem assemble_b0_threshold (bv : List ℚ) (gd : List Vec3) (q gr δ Δ : List ℚ)
    (d t : ℚ) (si : List ℕ) (sb : List ℚ) :
    (assembleScheme bv gd q gr δ Δ d t si sb).b0_threshold = t := rfl

theorem assemble_bvalues (bv : List ℚ) (gd : List Vec3) (q gr δ Δ : List ℚ) (d t : ℚ)
    (si : List ℕ) (sb : List ℚ) :
    (assembleScheme bv gd q gr δ Δ d t si sb).bvalues = bv := rfl

theorem assemble_b0_mask (bv : List ℚ) (gd : List Vec3) (q gr δ Δ : List ℚ) (d t : ℚ)
    (si : List ℕ) (sb : List ℚ) :
    (assembleScheme bv gd q gr δ Δ d t si sb).b0_mask =
      bv.map (fun b => decide (b ≤ t)) := rfl

theorem assemble_number_of_b0s (bv : List ℚ) (gd : List Vec3) (q gr δ Δ : List ℚ)
    (d t : ℚ) (si : List ℕ) (sb : List ℚ) :
    (assembleScheme bv gd q gr δ Δ d t si sb).number_of_b0s =
      (bv.map (fun b => decide (b ≤ t))).count true := rfl

theorem assemble_number_of_measurements (bv : List ℚ) (gd : List Vec3)
    (q gr δ Δ : List ℚ) (d t : ℚ) (si : List ℕ) (sb : List ℚ) :
    (assembleScheme bv gd q gr δ Δ d t si sb).number_of_measurements = bv.length := rfl

theorem assemble_gradient_directions (bv : List ℚ) (gd : List Vec3) (q gr δ Δ : List ℚ)
    (d t : ℚ) (si : List ℕ) (sb : List ℚ) :
    (assembleScheme bv gd q gr δ Δ d t si sb).gradient_directions = gd := rfl

theorem assemble_qvalues (bv : List ℚ) (gd : List Vec3) (q gr δ Δ : List ℚ) (d t : ℚ)
    (si : List ℕ) (sb : List ℚ) :
    (assembleScheme bv gd q gr δ Δ d t si sb).qvalues = q := rfl

theorem assemble_gradient_strengths (bv : List ℚ) (gd : List Vec3) (q gr δ Δ : List ℚ)
    (d t : ℚ) (si : List ℕ) (sb : List ℚ) :
    (assembleScheme bv gd q gr δ Δ d t si sb).gradient_strengths = gr := rfl

theorem assemble_delta (bv : List ℚ) (gd : List Vec3) (q gr δ Δ : List ℚ) (d t : ℚ)
    (si : List ℕ) (sb : List ℚ) :
    (assembleScheme bv gd q gr δ Δ d t si sb).delta = δ := rfl

theorem assemble_Delta (bv : List ℚ) (gd : List Vec3) (q gr δ Δ : List ℚ) (d t : ℚ)
    (si : List ℕ) (sb : List ℚ) :
    (assembleScheme bv gd q gr δ Δ d t si sb).Delta = Δ := rfl

theorem assemble_tau (bv : List ℚ) (gd : List Vec3) (q gr δ Δ : List ℚ) (d t : ℚ)
    (si : List ℕ) (sb : List ℚ) :
    (assembleScheme bv gd q gr δ Δ d t si sb).tau =
      List.zipWith (fun dl DL => DL - dl / 3) δ Δ := rfl

theorem assemble_shell_indices (bv : List ℚ) (gd : List Vec3) (q gr δ Δ : List ℚ)
    (d t : ℚ) (si : List ℕ) (sb : List ℚ) :
    (assembleScheme bv gd q gr δ Δ d t si sb).shell_indices = si := rfl

theorem assemble_shell_bvalues (bv : List ℚ) (gd : List Vec3) (q gr δ Δ : List ℚ)
    (d t : ℚ) (si : List ℕ) (sb : List ℚ) :
    (assembleScheme bv gd q gr δ Δ d t si sb).shell_bvalues = sb := rfl

theorem assemble_shell_b0_mask (bv : List ℚ) (gd : List Vec3) (q gr δ Δ : List ℚ)
    (d t : ℚ) (si : List ℕ) (sb : List ℚ) :
    (assembleScheme bv gd q gr δ Δ d t si sb).shell_b0_mask =
      sb.map (fun b => decide (b ≤ t)) := rfl

theorem assemble_shell_qvalues (bv : List ℚ) (gd : List Vec3) (q gr δ Δ : List ℚ)
    (d t : ℚ) (si : List ℕ) (sb : List ℚ) :
    (assembleScheme bv gd q gr δ Δ d t si sb).shell_qvalues =
      ((List.range (listMax si + 1)).map
        (fun ind => npArgmaxBool (si.map (fun x => decide (x = ind))))).map
        (fun j => q.getD j 0) := rfl

theorem assemble_shell_gradient_strengths (bv : List ℚ) (gd : List Vec3)
    (q gr δ Δ : List ℚ) (d t : ℚ) (si : List ℕ) (sb : List ℚ) :
    (assembleScheme bv gd q gr δ Δ d t si sb).shell_gradient_strengths =
      ((List.range (listMax si + 1)).map
        (fun ind => npArgmaxBool (si.map (fun x => decide (x = ind))))).map
        (fun j => gr.getD j 0) := rfl

theorem assemble_shell_delta (bv : List ℚ) (gd : List Vec3) (q gr δ Δ : List ℚ)
    (d t : ℚ) (si : List ℕ) (sb : List ℚ) :
    (assembleScheme bv gd q gr δ Δ d t si sb).shell_delta =
      ((List.range (listMax si + 1)).map
        (fun ind => npArgmaxBool (si.map (fun x => decide (x = ind))))).map
        (fun j => δ.getD j 0) := rfl

theorem assemble_shell_Delta (bv : List ℚ) (gd : List Vec3) (q gr δ Δ : List ℚ)
    (d t : ℚ) (si : List ℕ) (sb : List ℚ) :
    (assembleScheme bv gd q gr δ Δ d t si sb).shell_Delta =
      ((List.range (listMax si + 1)).map
        (fun ind => npArgmaxBool (si.map (fun x => decide (x = ind))))).map
        (fun j => Δ.getD j 0) := rfl

theorem assemble_unique_dwi_indices (bv : List ℚ) (gd : List Vec3) (q gr δ Δ : List ℚ)
    (d t : ℚ) (si : List ℕ) (sb : List ℚ) :
    (assembleScheme bv gd q gr δ Δ d t si sb).unique_dwi_indices =
      uniqueNats (selectMask si ((bv.map (fun b => decide (b ≤ t))).map not)) := rfl

theorem assemble_shell_sh_orders (bv : List ℚ) (gd : List Vec3) (q gr δ Δ : List ℚ)
    (d t : ℚ) (si : List ℕ) (sb : List ℚ) :
    (assembleScheme bv gd q gr δ Δ d t si sb).shell_sh_orders =
      (uniqueNats (selectMask si ((bv.map (fun b => decide (b ≤ t))).map not))).foldl
        (fun acc s => acc.set s (get_sh_order_from_bval (sb.getD s 0)))
        (List.replicate sb.length 0) := rfl

theorem assemble_shell_sh_matrices (bv : List ℚ) (gd : List Vec3) (q gr δ Δ : List ℚ)
    (d t : ℚ) (si : List ℕ) (sb : List ℚ) :
    (assembleScheme bv gd q gr δ Δ d t si sb).shell_sh_matrices =
      (uniqueNats (selectMask si ((bv.map (fun b => decide (b ≤ t))).map not))).map
        (fun s => (s, ShMatrixArgs.mk (get_sh_order_from_bval (sb.getD s 0))
          (selectMask gd (si.map (fun x => decide (x = s)))))) := rfl

theorem assemble_zero_b0_warning (bv : List ℚ) (gd : List Vec3) (q gr δ Δ : List ℚ)
    (d t : ℚ) (si : List ℕ) (sb : List ℚ) :
    (assembleScheme bv gd q gr δ Δ d t si sb).zero_b0_warning =
      decide ((bv.map (fun b => decide (b ≤ t))).count true = 0) := rfl

/-! ## Lemmas: full analysis of a multi-measurement scheme built from b-values -/

theorem scheme_multi_analysis (qfb gfb : ℚ → ℚ → ℚ → ℚ) (bv gd : NDArr) (δ Δ : PyArg)
    (d t : ℚ) (S : MipyAcquisitionScheme)
    (hok : acquisition_scheme_from_bvalues qfb gfb bv gd δ Δ d t = .ok S)
    (hd : 0 ≤ d) (hwfb : bv.WF) (hwfδ : PyArg.WF δ) (hwfΔ : PyArg.WF Δ)
    (h1 : 1 < S.number_of_measurements) :
    S.min_b_shell_distance = d ∧
    S.b0_threshold = t ∧
    S.number_of_measurements = S.bvalues.length ∧
    (S.delta.zip S.Delta).length = S.bvalues.length ∧
    S.shell_indices.length = S.bvalues.length ∧
    S.shell_bvalues =
      ((uniqueRows (S.delta.zip S.Delta)).map
        (fun g => shellBvaluesOf (groupBv S.bvalues (S.delta.zip S.Delta) g) d)).flatten ∧
    (∀ g ∈ uniqueRows (S.delta.zip S.Delta),
        2 ≤ (groupBv S.bvalues (S.delta.zip S.Delta) g).length) ∧
    (∀ g ∈ uniqueRows (S.delta.zip S.Delta), ∀ g' ∈ uniqueRows (S.delta.zip S.Delta),
        groupShellCount S.bvalues (S.delta.zip S.Delta) d g =
          groupShellCount S.bvalues (S.delta.zip S.Delta) d g') ∧
    (∀ i, i < S.bvalues.length →
      S.shell_indices.getD i 0 =
        offsetIn (groupShellCount S.bvalues (S.delta.zip S.Delta) d)
            (uniqueRows (S.delta.zip S.Delta)) ((S.delta.zip S.Delta).getD i (0, 0)) +
          shellLabel (groupBv S.bvalues (S.delta.zip S.Delta)
              ((S.delta.zip S.Delta).getD i (0, 0))) d (S.bvalues.getD i 0)) ∧
    S.shell_bvalues.length =
      ((uniqueRows (S.delta.zip S.Delta)).map
        (groupShellCount S.bvalues (S.delta.zip S.Delta) d)).sum ∧
    listMax S.shell_indices + 1 = S.shell_bvalues.length := by
  obtain ⟨δ', Δ', hu, hc, hb⟩ := from_bvalues_ok_elim qfb gfb bv gd δ Δ d t S hok
  obtain ⟨hu1, hu2⟩ := unify_ok_elim hu
  have hwfδ' := unify_one_ok_wf hu1 hwfδ
  have hwfΔ' := unify_one_ok_wf hu2 hwfΔ
  obtain ⟨hbnd, hgnd, hdnd, hDnd, hlg, hld, hlD, hg3, hdpos, hDpos, hbpos, hnorm,
    hdne, hDne⟩ := check_ok_elim hc
  have hbl : bv.data.length = bv.len := ndarr_data_length hwfb hbnd
  have hδl : δ'.data.length = bv.len := by
    rw [ndarr_data_length hwfδ' hdnd]
    omega
  have hΔl : Δ'.data.length = bv.len := by
    rw [ndarr_data_length hwfΔ' hDnd]
    omega
  have hziplen : (δ'.data.zip Δ'.data).length = bv.data.length := by
    rw [List.length_zip, hδl, hΔl, hbl]
    omega
  -- dispose of the degenerate branches
  have hlen1 : 1 < bv.data.length := by
    by_contra hcon
    push_neg at hcon
    cases hdat : bv.data with
    | nil =>
      rw [hdat, build_nil] at hb
      exact absurd hb (by simp)
    | cons x xs =>
      cases xs with
      | nil =>
        rw [hdat, build_single_eq] at hb
        simp only [Except.ok.injEq] at hb
        rw [← hb, assemble_number_of_measurements] at h1
        simp at h1
      | cons y ys =>
        rw [hdat] at hcon
        simp at hcon
  obtain ⟨si, acc, sb, hbs, hrv, hS⟩ :=
    build_ok_multi_elim bv.data (chunk3 gd.data)
      (zipWith3 qfb bv.data δ'.data Δ'.data) (zipWith3 gfb bv.data δ'.data Δ'.data)
      δ'.data Δ'.data d t S hlen1 hb
  obtain ⟨hsb, haccl⟩ := ravelEq_ok_elim hrv
  obtain ⟨hsilen, hacc, hsz, hchar, hub, hmaxsi⟩ :=
    buildShells_spec bv.data (δ'.data.zip Δ'.data) d hziplen hd hbs
  have hdeltane : δ'.data.zip Δ'.data ≠ [] := by
    intro hcon
    rw [hcon] at hziplen
    simp at hziplen
    omega
  have hcnts : ∀ g ∈ uniqueRows (δ'.data.zip Δ'.data),
      groupShellCount bv.data (δ'.data.zip Δ'.data) d g = (acc.headD []).length := by
    intro g hg
    have hmem : shellBvaluesOf (groupBv bv.data (δ'.data.zip Δ'.data) g) d ∈ acc := by
      rw [hacc]
      exact List.mem_map_of_mem _ hg
    have := haccl _ hmem
    rw [shellBvaluesOf_length] at this
    exact this
  have hflatlen : sb.length =
      ((uniqueRows (δ'.data.zip Δ'.data)).map
        (groupShellCount bv.data (δ'.data.zip Δ'.data) d)).sum := by
    rw [hsb, hacc]
    exact flatten_map_length _ _ _ (fun g _ => shellBvaluesOf_length _ _)
  subst hS
  simp only [assemble_min_b, assemble_b0_threshold, assemble_number_of_measurements,
    assemble_bvalues, assemble_delta, assemble_Delta, assemble_shell_indices,
    assemble_shell_bvalues]
  refine ⟨trivial, trivial, trivial, hziplen, hsilen, ?_, hsz, ?_, ?_, ?_, ?_⟩
  · rw [hsb, hacc]
  · intro g hg g' hg'
    rw [hcnts g hg, hcnts g' hg']
  · intro i hi
    exact hchar i hi
  · exact hflatlen
  · rw [hmaxsi hdeltane, hflatlen]

theorem getD_zipWith_of_lt {α β γ : Type} (f : α → β → γ) (l1 : List α) (l2 : List β)
    (i : ℕ) (df : γ) (d1 : α) (d2 : β) (h1 : i < l1.length) (h2 : i < l2.length) :
    (List.zipWith f l1 l2).getD i df = f (l1.getD i d1) (l2.getD i d2) := by
  induction l1 generalizing l2 i with
  | nil => simp at h1
  | cons a as ih =>
    cases l2 with
    | nil => simp at h2
    | cons b bs =>
      cases i with
      | zero => rfl
      | succ i =>
        rw [List.zipWith_cons_cons, List.getD_cons_succ, List.getD_cons_succ,
          List.getD_cons_succ]
        exact ih bs i (by simpa using h1) (by simpa using h2)

theorem scheme_multi_shells (qfb gfb : ℚ → ℚ → ℚ → ℚ) (bv gd : NDArr) (δ Δ : PyArg)
    (d t : ℚ) (S : MipyAcquisitionScheme)
    (hok : acquisition_scheme_from_bvalues qfb gfb bv gd δ Δ d t = .ok S)
    (hd : 0 ≤ d) (hwfb : bv.WF) (hwfδ : PyArg.WF δ) (hwfΔ : PyArg.WF Δ)
    (h1 : 1 < S.number_of_measurements) :
    (∀ i, i < S.bvalues.length →
      S.shell_indices.getD i 0 < S.shell_bvalues.length) ∧
    (∀ s, s < S.shell_bvalues.length →
      ∃ i, i < S.bvalues.length ∧ S.shell_indices.getD i 0 = s) ∧
    (∀ s, s < S.shell_bvalues.length →
      shellMembersBv S s ≠ [] ∧
        S.shell_bvalues.getD s 0 = listMean (shellMembersBv S s)) ∧
    (∀ i j, i < S.bvalues.length → j < S.bvalues.length →
      lexLt ((S.delta.zip S.Delta).getD i (0, 0)) ((S.delta.zip S.Delta).getD j (0, 0)) →
      S.shell_indices.getD i 0 < S.shell_indices.getD j 0) ∧
    (∀ i j, i < S.bvalues.length → j < S.bvalues.length →
      (S.delta.zip S.Delta).getD i (0, 0) = (S.delta.zip S.Delta).getD j (0, 0) →
      (S.shell_indices.getD i 0 < S.shell_indices.getD j 0 ↔
        listMean (shellMembersBv S (S.shell_indices.getD i 0)) <
          listMean (shellMembersBv S (S.shell_indices.getD j 0)))) := by
  obtain ⟨_, _, hnm, hziplen, hsilen, hsbflat, hsz, hcnts, hchar, hsblen, hmaxsi⟩ :=
    scheme_multi_analysis qfb gfb bv gd δ Δ d t S hok hd hwfb hwfδ hwfΔ h1
  have hURs : List.Sorted lexLe (uniqueRows (S.delta.zip S.Delta)) :=
    uniqueRows_sorted _
  have hURn : (uniqueRows (S.delta.zip S.Delta)).Nodup := uniqueRows_nodup _
  have hgmem : ∀ i, i < S.bvalues.length →
      (S.delta.zip S.Delta).getD i (0, 0) ∈ uniqueRows (S.delta.zip S.Delta) := by
    intro i hi
    exact mem_uniqueRows.mpr (getD_mem _ i (0, 0) (by omega))
  have hgne : ∀ g ∈ uniqueRows (S.delta.zip S.Delta),
      groupBv S.bvalues (S.delta.zip S.Delta) g ≠ [] := by
    intro g hg hcon
    have := hsz g hg
    rw [hcon] at this
    simp at this
  -- membership of a shell as a (group, local label) pair
  have hlabel_lt : ∀ i, i < S.bvalues.length →
      shellLabel (groupBv S.bvalues (S.delta.zip S.Delta)
        ((S.delta.zip S.Delta).getD i (0, 0))) d (S.bvalues.getD i 0) <
      groupShellCount S.bvalues (S.delta.zip S.Delta) d
        ((S.delta.zip S.Delta).getD i (0, 0)) := by
    intro i hi
    exact shellLabel_lt_numShells _ d _
  have hbound : ∀ i, i < S.bvalues.length →
      S.shell_indices.getD i 0 < S.shell_bvalues.length := by
    intro i hi
    rw [hchar i hi, hsblen]
    have h1' := hlabel_lt i hi
    have h2' := offsetIn_add_le_sum (groupShellCount S.bvalues (S.delta.zip S.Delta) d)
      _ hURn (hgmem i hi)
    omega
  -- the mask of shell (offset g + c) is the (group, label) mask
  have hmask : ∀ g ∈ uniqueRows (S.delta.zip S.Delta),
      ∀ c, c < groupShellCount S.bvalues (S.delta.zip S.Delta) d g →
      shellMembersBv S (offsetIn (groupShellCount S.bvalues (S.delta.zip S.Delta) d)
          (uniqueRows (S.delta.zip S.Delta)) g + c) =
        shellMembers (groupBv S.bvalues (S.delta.zip S.Delta) g) d c := by
    intro g hg c hc
    unfold shellMembersBv
    have hmeq : selectMask S.bvalues (S.shell_indices.map (fun x =>
        decide (x = offsetIn (groupShellCount S.bvalues (S.delta.zip S.Delta) d)
          (uniqueRows (S.delta.zip S.Delta)) g + c))) =
        selectMask S.bvalues (List.zipWith
          (fun pr v => decide (pr = g) &&
            decide (shellLabel (groupBv S.bvalues (S.delta.zip S.Delta) g) d v = c))
          (S.delta.zip S.Delta) S.bvalues) := by
      apply selectMask_eq_of_getD_eq
      · rw [List.length_map, hsilen]
      · rw [List.length_zipWith, hziplen]
        omega
      · intro i hi
        rw [getD_map_of_lt _ _ _ _ 0 (by omega : i < S.shell_indices.length)]
        have hzw : (List.zipWith (fun pr v => decide (pr = g) &&
            decide (shellLabel (groupBv S.bvalues (S.delta.zip S.Delta) g) d v = c))
            (S.delta.zip S.Delta) S.bvalues).getD i false =
            (decide ((S.delta.zip S.Delta).getD i (0, 0) = g) &&
             decide (shellLabel (groupBv S.bvalues (S.delta.zip S.Delta) g) d
               (S.bvalues.getD i 0) = c)) :=
          getD_zipWith_of_lt _ _ _ i false (0, 0) 0 (by omega) (by omega)
        rw [hzw]
        by_cases hig : (S.delta.zip S.Delta).getD i (0, 0) = g
        · by_cases hilab : shellLabel (groupBv S.bvalues (S.delta.zip S.Delta) g) d
              (S.bvalues.getD i 0) = c
          · have hsi : S.shell_indices.getD i 0 =
                offsetIn (groupShellCount S.bvalues (S.delta.zip S.Delta) d)
                  (uniqueRows (S.delta.zip S.Delta)) g + c := by
              rw [hchar i hi, hig, hilab]
            rw [decide_eq_true hig, decide_eq_true hilab, decide_eq_true hsi]
            rfl
          · have hsi : ¬ S.shell_indices.getD i 0 =
                offsetIn (groupShellCount S.bvalues (S.delta.zip S.Delta) d)
                  (uniqueRows (S.delta.zip S.Delta)) g + c := by
              rw [hchar i hi, hig]
              intro hcon
              have hlt := hlabel_lt i hi
              rw [hig] at hlt
              omega
            rw [decide_eq_true hig, decide_eq_false hilab, decide_eq_false hsi]
            rfl
        · have hsi : ¬ S.shell_indices.getD i 0 =
              offsetIn (groupShellCount S.bvalues (S.delta.zip S.Delta) d)
                (uniqueRows (S.delta.zip S.Delta)) g + c := by
            rw [hchar i hi]
            intro hcon
            obtain ⟨hgeq, _⟩ := decompose_unique
              (groupShellCount S.bvalues (S.delta.zip S.Delta) d) _ hURs hURn
              (hgmem i hi) hg (hlabel_lt i hi) hc hcon
            exact hig hgeq
          rw [decide_eq_false hig, decide_eq_false hsi]
          rfl
    rw [hmeq, selectMask_zipWith_filter _ _ _ _ (by omega)]
    rfl
  refine ⟨hbound, ?_, ?_, ?_, ?_⟩
  · -- surjectivity
    intro s hs
    rw [hsblen] at hs
    obtain ⟨g, hg, c, hc, hdec⟩ := exists_decompose _ _ hURn s hs
    obtain ⟨v, hv, hvlab⟩ := exists_shellLabel_eq _ d hd (hgne g hg) c hc
    obtain ⟨i, hmi, hvi⟩ := (mem_selectMask _ _ v).mp hv
    have hilt : i < S.bvalues.length := by
      by_contra hcon
      rw [List.getElem?_eq_none (by omega)] at hvi
      exact absurd hvi (by simp)
    have hgi : (S.delta.zip S.Delta).getD i (0, 0) = g := by
      have := groupMask_getD (S.delta.zip S.Delta) g i (by omega)
      rw [hmi] at this
      exact of_decide_eq_true this.symm
    have hbvi : S.bvalues.getD i 0 = v := by
      rw [List.getD_eq_getElem?_getD, hvi]
      rfl
    refine ⟨i, hilt, ?_⟩
    rw [hchar i hilt, hgi, hbvi, hvlab, hdec]
  · -- per-shell members and mean
    intro s hs
    have hs' := hs
    rw [hsblen] at hs'
    obtain ⟨g, hg, c, hc, hdec⟩ := exists_decompose _ _ hURn s hs'
    subst hdec
    constructor
    · rw [hmask g hg c hc]
      exact shellMembers_ne_nil _ d hd (hgne g hg) hc
    · rw [hmask g hg c hc, hsbflat]
      rw [flatten_map_getD (uniqueRows (S.delta.zip S.Delta))
        (fun g' => shellBvaluesOf (groupBv S.bvalues (S.delta.zip S.Delta) g') d)
        (groupShellCount S.bvalues (S.delta.zip S.Delta) d)
        (fun g' _ => shellBvaluesOf_length _ _) hg hc 0]
      rw [shellBvaluesOf_getD _ _ hc]
  · -- cross-group ordering
    intro i j hi hj hlt
    rw [hchar i hi, hchar j hj]
    have h2' := offsetIn_add_le (groupShellCount S.bvalues (S.delta.zip S.Delta) d)
      _ hURs hURn (hgmem i hi) (hgmem j hj) hlt
    have := hlabel_lt i hi
    omega
  · -- within-group ordering by mean
    intro i j hi hj heq
    rw [hchar i hi, hchar j hj, heq]
    have hci := hlabel_lt i hi
    have hcj := hlabel_lt j hj
    rw [heq] at hci
    set g := (S.delta.zip S.Delta).getD j (0, 0) with hgdef
    set li := shellLabel (groupBv S.bvalues (S.delta.zip S.Delta) g) d
      (S.bvalues.getD i 0) with hlidef
    set lj := shellLabel (groupBv S.bvalues (S.delta.zip S.Delta) g) d
      (S.bvalues.getD j 0) with hljdef
    have hmi := hmask g (hgmem j hj) li hci
    have hmj := hmask g (hgmem j hj) lj hcj
    rw [hmi, hmj]
    constructor
    · intro hlt
      have hlab : li < lj := by omega
      exact shellMembers_mean_lt _ d hd (hgne g (hgmem j hj)) hlab hcj
    · intro hmean
      rcases lt_trichotomy li lj with hl | hl | hl
      · omega
      · rw [hl] at hmean
        exact absurd hmean (lt_irrefl _)
      · have := shellMembers_mean_lt _ d hd (hgne g (hgmem j hj)) hl hci
        exact absurd hmean (by linarith)

/-! ## Lemmas: the heap model of the timing arrays -/

theorem getD_set_ne {α : Type} (l : List α) (i j : ℕ) (a d0 : α) (hij : i ≠ j) :
    (l.set i a).getD j d0 = l.getD j d0 := by
  induction l generalizing i j with
  | nil => simp
  | cons x xs ih =>
    cases i with
    | zero =>
      cases j with
      | zero => exact absurd rfl hij
      | succ j => rfl
    | succ i =>
      cases j with
      | zero => rfl
      | succ j =>
        rw [List.set_cons_succ, List.getD_cons_succ, List.getD_cons_succ]
        exact ih i j (by omega)

theorem buildTimingRefs_refs (st : Store) (n : ℕ) (delta Delta : PyArgRef) :
    ∃ A B C : List ℚ,
      buildTimingRefs st n delta Delta =
        (⟨((st.arrays ++ [A]) ++ [B]) ++ [C]⟩,
          ⟨st.arrays.length, (st.arrays ++ [A]).length,
            ((st.arrays ++ [A]) ++ [B]).length⟩) := by
  cases delta <;> cases Delta <;> exact ⟨_, _, _, rfl⟩

/-! ## Lemmas: the first measurement of a shell (`np.argmax` on the mask) -/

theorem findIdx_map_eq {α β : Type} (f : α → β) (p : β → Bool) (l : List α) :
    (l.map f).findIdx p = l.findIdx (fun x => p (f x)) := by
  induction l with
  | nil => rfl
  | cons x xs ih =>
    rw [List.map_cons, List.findIdx_cons, List.findIdx_cons, ih]

theorem npArgmaxBool_eq_findIdx (si : List ℕ) (s : ℕ)
    (hex : ∃ i, i < si.length ∧ si.getD i 0 = s) :
    npArgmaxBool (si.map (fun x => decide (x = s))) =
      si.findIdx (fun x => decide (x = s)) := by
  obtain ⟨i, hi, his⟩ := hex
  have hmem : s ∈ si := his ▸ getD_mem_of_lt si i hi
  have hlt : si.findIdx (fun x => decide (x = s)) < si.length :=
    List.findIdx_lt_length.mpr ⟨s, hmem, by simp⟩
  unfold npArgmaxBool
  rw [findIdx_map_eq]
  simp only [id_eq, List.length_map]
  rw [if_pos hlt]

theorem findIdx_getD_self (si : List ℕ) (s : ℕ)
    (h : si.findIdx (fun x => decide (x = s)) < si.length) :
    si.getD (si.findIdx (fun x => decide (x = s))) 0 = s := by
  have hp := @List.findIdx_getElem _ (fun x => decide (x = s)) si h
  rw [List.getD_eq_getElem?_getD, List.getElem?_eq_getElem h]
  simpa using hp

theorem shell_first_getD (si : List ℕ) (vals : List ℚ) (s : ℕ)
    (hs : s < listMax si + 1)
    (hex : ∃ i, i < si.length ∧ si.getD i 0 = s) :
    (((List.range (listMax si + 1)).map
        (fun ind => npArgmaxBool (si.map (fun x => decide (x = ind))))).map
      (fun j => vals.getD j 0)).getD s 0 =
      vals.getD (si.findIdx (fun x => decide (x = s))) 0 := by
  rw [getD_map_of_lt _ _ _ _ 0 (by simpa using hs)]
  have hrange : (List.range (listMax si + 1)).getD s 0 = s := by
    rw [List.getD_eq_getElem?_getD, List.getElem?_eq_getElem (by simpa using hs)]
    simp
  rw [getD_map_of_lt _ _ _ _ 0 (by simpa using hs), hrange,
    npArgmaxBool_eq_findIdx si s hex]

/-! ## Lemmas: the b0 bookkeeping of a constructed scheme -/

theorem count_true_map_decide_eq_length (l : List ℚ) (t : ℚ)
    (h : ∀ b ∈ l, b ≤ t) :
    (l.map (fun b => decide (b ≤ t))).count true = l.length := by
  rw [show l.length = (l.map (fun b => decide (b ≤ t))).length from
    (List.length_map _ _).symm, List.count_eq_length]
  intro b hb
  obtain ⟨x, hx, hxe⟩ := List.mem_map.mp hb
  rw [← hxe]
  exact (decide_eq_true (h x hx)).symm

theorem count_true_map_decide_eq_zero (l : List ℚ) (t : ℚ)
    (h : ∀ b ∈ l, t < b) :
    (l.map (fun b => decide (b ≤ t))).count true = 0 := by
  rw [List.count_eq_zero]
  intro hcon
  obtain ⟨x, hx, hxe⟩ := List.mem_map.mp hcon
  exact absurd (of_decide_eq_true hxe) (not_le.mpr (h x hx))

theorem scheme_b0_fields (qfb gfb : ℚ → ℚ → ℚ → ℚ) (bv gd : NDArr) (δ Δ : PyArg)
    (d t : ℚ) (S : MipyAcquisitionScheme)
    (hok : acquisition_scheme_from_bvalues qfb gfb bv gd δ Δ d t = .ok S) :
    S.b0_threshold = t ∧
    S.number_of_measurements = S.bvalues.length ∧
    S.bvalues ≠ [] ∧
    S.number_of_b0s =
      (S.bvalues.map (fun b => decide (b ≤ S.b0_threshold))).count true ∧
    S.zero_b0_warning = decide (S.number_of_b0s = 0) := by
  obtain ⟨δ2, Δ2, hu, hc, hb⟩ := from_bvalues_ok_elim qfb gfb bv gd δ Δ d t S hok
  cases hdat : bv.data with
  | nil =>
    rw [hdat, build_nil] at hb
    exact absurd hb (by simp)
  | cons x xs =>
    cases xs with
    | nil =>
      rw [hdat] at hb
      have hS := build_ok_single_elim _ _ _ _ _ _ _ _ _ (by simp) hb
      subst hS
      exact ⟨rfl, rfl, by rw [assemble_bvalues]; simp, rfl, rfl⟩
    | cons y ys =>
      rw [hdat] at hb
      obtain ⟨si, acc, sb, -, -, hS⟩ :=
        build_ok_multi_elim _ _ _ _ _ _ _ _ _ (by simp) hb
      subst hS
      exact ⟨rfl, rfl, by rw [assemble_bvalues]; simp, rfl, rfl⟩

/-! ## Lemmas: scattered writes (`shell_sh_orders`) and the SH order table -/

theorem getElem?_eq_some_getD {α : Type} (l : List α) (i : ℕ) (d0 : α)
    (hi : i < l.length) : l[i]? = some (l.getD i d0) := by
  rw [List.getElem?_eq_getElem hi, List.getD_eq_getElem?_getD,
    List.getElem?_eq_getElem hi]
  rfl

theorem getElem?_some_lt_and_getD {α : Type} {l : List α} {i : ℕ} {x : α} (d0 : α)
    (h : l[i]? = some x) : i < l.length ∧ l.getD i d0 = x := by
  have hi : i < l.length := by
    by_contra hcon
    rw [List.getElem?_eq_none (by omega)] at h
    exact absurd h (by simp)
  refine ⟨hi, ?_⟩
  rw [List.getD_eq_getElem?_getD, h]
  rfl

theorem getD_set_self (l : List ℚ) (i : ℕ) (a : ℚ) (hi : i < l.length) :
    (l.set i a).getD i 0 = a := by
  induction l generalizing i with
  | nil => simp at hi
  | cons x xs ih =>
    cases i with
    | zero => rfl
    | succ i =>
      rw [List.set_cons_succ, List.getD_cons_succ]
      exact ih i (by simpa using hi)

theorem foldl_set_not_mem (f : ℕ → ℚ) (us : List ℕ) (l : List ℚ) (u : ℕ)
    (hu : u ∉ us) :
    (us.foldl (fun acc s => acc.set s (f s)) l).getD u 0 = l.getD u 0 := by
  induction us generalizing l with
  | nil => rfl
  | cons v rest ih =>
    rw [List.foldl_cons, ih _ (fun h => hu (List.mem_cons_of_mem v h)),
      getD_set_ne _ _ _ _ _
        (fun h => hu (by rw [← h]; exact List.mem_cons_self v rest))]

theorem foldl_set_getD (f : ℕ → ℚ) (us : List ℕ) (hnd : us.Nodup) :
    ∀ (l : List ℚ) (s : ℕ), s ∈ us → s < l.length →
      (us.foldl (fun acc s2 => acc.set s2 (f s2)) l).getD s 0 = f s := by
  induction us with
  | nil =>
    intro l s hs hlen
    simp at hs
  | cons u rest ih =>
    intro l s hs hlen
    rw [List.foldl_cons]
    rcases List.mem_cons.mp hs with rfl | hs2
    · have hnot : s ∉ rest := (List.nodup_cons.mp hnd).1
      rw [foldl_set_not_mem f rest _ s hnot]
      exact getD_set_self l s (f s) hlen
    · exact ih (List.nodup_cons.mp hnd).2 (l.set u (f u)) s hs2
        (by rw [List.length_set]; exact hlen)

theorem get_sh_order_mono {b1 b2 : ℚ} (h : b1 ≤ b2) :
    get_sh_order_from_bval b1 ≤ get_sh_order_from_bval b2 := by
  unfold get_sh_order_from_bval
  split_ifs <;> linarith

theorem get_sh_order_mem (b : ℚ) :
    get_sh_order_from_bval b ∈ ([2, 4, 6, 8, 10, 12, 14] : List ℚ) := by
  unfold get_sh_order_from_bval
  split_ifs <;> simp

/-! ## Lemmas: running the validator forwards -/

theorem npLen_ok_intro {a : NDArr} (h : 1 ≤ a.ndim) : npLen a = .ok a.len := by
  unfold npLen NDArr.len
  cases hs : a.shape with
  | nil =>
    exfalso
    unfold NDArr.ndim at h
    rw [hs] at h
    simp at h
  | cons n tl =>
    rfl

/-! ## Lemmas: when the post-validation build succeeds -/

theorem calculate_ok_of_two_le (l : List ℚ) (d : ℚ) (h2 : 2 ≤ l.length) :
    calculate_shell_bvalues_and_indices l d =
      .ok (shellIndicesOf l d, shellBvaluesOf l d) := by
  unfold calculate_shell_bvalues_and_indices
  rw [if_neg (by omega)]

theorem buildShellsGo_total (bv : List ℚ) (deltas : List (ℚ × ℚ)) (d : ℚ) :
    ∀ (gs : List (ℚ × ℚ)), (∀ g ∈ gs, 2 ≤ (groupBv bv deltas g).length) →
      ∀ (si : List ℕ) (acc : List (List ℚ)) (m : ℕ),
        ∃ r, buildShellsGo bv deltas d gs si acc m = .ok r := by
  intro gs
  induction gs with
  | nil =>
    intro hg si acc m
    exact ⟨(si, acc), rfl⟩
  | cons g rest ih =>
    intro hg si acc m
    have h2 : 2 ≤ (groupBv bv deltas g).length := hg g (List.mem_cons_self g rest)
    obtain ⟨r, hr⟩ := ih (fun g2 hg2 => hg g2 (List.mem_cons_of_mem g hg2))
      (scatterMask si (groupMask deltas g)
        ((shellIndicesOf (selectMask bv (groupMask deltas g)) d).map (· + m)))
      (acc ++ [shellBvaluesOf (selectMask bv (groupMask deltas g)) d])
      (listMax (scatterMask si (groupMask deltas g)
        ((shellIndicesOf (selectMask bv (groupMask deltas g)) d).map (· + m))) + 1)
    refine ⟨r, ?_⟩
    rw [buildShellsGo_cons,
      calculate_ok_of_two_le (selectMask bv (groupMask deltas g)) d h2]
    exact hr

theorem buildShells_total (bv : List ℚ) (deltas : List (ℚ × ℚ)) (d : ℚ)
    (hg : ∀ g ∈ uniqueRows deltas, 2 ≤ (groupBv bv deltas g).length) :
    ∃ si acc, buildShells bv deltas d = .ok (si, acc) := by
  obtain ⟨⟨si, acc⟩, hr⟩ := buildShellsGo_total bv deltas d (uniqueRows deltas) hg
    (List.replicate bv.length 0) [] 0
  exact ⟨si, acc, hr⟩

theorem build_total (bv : List ℚ) (gd : List Vec3) (q gr δ Δ : List ℚ) (d t : ℚ)
    (hne : bv ≠ []) (hdl : (δ.zip Δ).length = bv.length) (hd : 0 ≤ d)
    (htg : 1 < bv.length → timingGroupsOK bv (δ.zip Δ) d) :
    ∃ S, MipyAcquisitionScheme.build bv gd q gr δ Δ d t = .ok S := by
  by_cases h1 : 1 < bv.length
  · obtain ⟨hsz, hcnt⟩ := htg h1
    obtain ⟨si, acc, hbs⟩ := buildShells_total bv (δ.zip Δ) d hsz
    obtain ⟨-, hacc, -, -, -, -⟩ := buildShells_spec bv (δ.zip Δ) d hdl hd hbs
    have hne2 : uniqueRows (δ.zip Δ) ≠ [] := by
      have hmem0 : (δ.zip Δ).getD 0 (0, 0) ∈ uniqueRows (δ.zip Δ) :=
        mem_uniqueRows.mpr (getD_mem _ 0 (0, 0) (by omega))
      intro hcon
      rw [hcon] at hmem0
      exact absurd hmem0 (List.not_mem_nil _)
    have hrv : ravelEq acc = .ok acc.flatten := by
      apply ravelEq_ok_intro
      intro l hl
      rw [hacc] at hl
      obtain ⟨g, hgmem, hge⟩ := List.mem_map.mp hl
      rw [hacc]
      cases hur : uniqueRows (δ.zip Δ) with
      | nil => exact absurd hur hne2
      | cons g0 rest =>
        rw [List.map_cons, List.headD_cons, ← hge, shellBvaluesOf_length,
          shellBvaluesOf_length]
        exact hcnt g hgmem g0 (by rw [hur]; exact List.mem_cons_self g0 rest)
    exact ⟨_, build_ok_multi_intro bv gd q gr δ Δ d t si acc acc.flatten h1 hbs hrv⟩
  · cases bv with
    | nil => exact absurd rfl hne
    | cons x xs =>
      cases xs with
      | nil => exact ⟨_, build_single_eq x gd q gr δ Δ d t⟩
      | cons y ys => exact absurd (by simp) h1

theorem zipWith3_length_eq (f : ℚ → ℚ → ℚ → ℚ) :
    ∀ (a b c : List ℚ), b.length = a.length → c.length = a.length →
      (zipWith3 f a b c).length = a.length := by
  intro a
  induction a with
  | nil =>
    intro b c hb hc
    rw [List.length_eq_zero.mp hb, List.length_eq_zero.mp hc]
    rfl
  | cons x xs ih =>
    intro b c hb hc
    cases b with
    | nil => simp at hb
    | cons y ys =>
      cases c with
      | nil => simp at hc
      | cons z zs =>
        have := ih ys zs (by simpa using hb) (by simpa using hc)
        simp only [zipWith3, List.length_cons]
        omega

/-! ## Lemmas: gradient-table round trips -/

theorem chunk3_length : ∀ l : List ℚ, (chunk3 l).length = l.length / 3
  | [] => by decide
  | [x] => by
    show (chunk3 [x]).length = 1 / 3
    rw [show chunk3 [x] = [] from rfl]
    rfl
  | [x, y] => by
    show (chunk3 [x, y]).length = 2 / 3
    rw [show chunk3 [x, y] = [] from rfl]
    rfl
  | x :: y :: z :: rest => by
    rw [show chunk3 (x :: y :: z :: rest) = (x, y, z) :: chunk3 rest from rfl,
      List.length_cons, chunk3_length rest]
    simp only [List.length_cons]
    omega

theorem flat3_chunk3 : ∀ l : List ℚ, l.length % 3 = 0 → flat3 (chunk3 l) = l
  | [], _ => rfl
  | [_], h => by simp at h
  | [_, _], h => by simp at h
  | x :: y :: z :: rest, h => by
    rw [show chunk3 (x :: y :: z :: rest) = (x, y, z) :: chunk3 rest from rfl,
      show flat3 ((x, y, z) :: chunk3 rest) = x :: y :: z :: flat3 (chunk3 rest)
        from rfl,
      flat3_chunk3 rest (by simp only [List.length_cons] at h; omega)]

theorem map_div_mul_roundtrip (l : List ℚ) :
    (l.map (fun b => b / 1000000)).map (fun b => b * 1000000) = l := by
  rw [List.map_map]
  have hcomp : ((fun b => b * 1000000) ∘ fun b : ℚ => b / 1000000) = id := by
    funext b
    simp only [Function.comp_apply, id_eq]
    rw [div_mul_cancel₀ _ (by norm_num : (1000000 : ℚ) ≠ 0)]
  rw [hcomp, List.map_id]

theorem ndarr_data_length2 {a : NDArr} (hwf : a.WF) (hnd : a.ndim = 2) :
    a.data.length = a.len * a.shape.getD 1 0 := by
  unfold NDArr.WF at hwf
  unfold NDArr.ndim at hnd
  unfold NDArr.len
  cases hs : a.shape with
  | nil =>
    rw [hs] at hnd
    simp at hnd
  | cons s0 tl =>
    cases tl with
    | nil =>
      rw [hs] at hnd
      simp at hnd
    | cons s1 tl2 =>
      cases tl2 with
      | nil =>
        rw [hs] at hwf
        rw [hwf]
        simp
      | cons s2 tl3 =>
        rw [hs] at hnd
        simp at hnd

theorem check_ok_intro (bqg gd δ Δ : NDArr)
    (hbn : bqg.ndim = 1) (hdn : δ.ndim = 1) (hDn : Δ.ndim = 1)
    (hgn : gd.ndim = 2) (hg3 : gd.shape.getD 1 0 = 3)
    (hlg : bqg.len = gd.len) (hld : bqg.len = δ.len) (hlD : bqg.len = Δ.len)
    (hdneg : ∀ v ∈ δ.data, 0 ≤ v) (hDneg : ∀ v ∈ Δ.data, 0 ≤ v)
    (hbneg : ∀ v ∈ bqg.data, 0 ≤ v)
    (hnorm : ∀ v ∈ chunk3 gd.data, unitNormWithin v)
    (hbne : bqg.data ≠ []) (hdne : δ.data ≠ []) (hDne : Δ.data ≠ []) :
    check_acquisition_scheme bqg gd δ Δ = .ok () := by
  unfold check_acquisition_scheme
  rw [if_neg (by omega), npLen_ok_intro (by omega), npLen_ok_intro (by omega)]
  simp only []
  rw [if_neg (by omega), npLen_ok_intro (by omega)]
  simp only []
  rw [if_neg (by omega), npLen_ok_intro (by omega)]
  simp only []
  rw [if_neg (by omega), if_neg (by omega)]
  obtain ⟨md, hmd⟩ := npMin_ok_of_ne_nil hdne
  rw [hmd]
  simp only []
  rw [if_neg (not_lt.mpr (hdneg md (npMin_ok_mem hmd)))]
  obtain ⟨mD, hmD⟩ := npMin_ok_of_ne_nil hDne
  rw [hmD]
  simp only []
  rw [if_neg (not_lt.mpr (hDneg mD (npMin_ok_mem hmD))), if_neg (by omega)]
  obtain ⟨mb, hmb⟩ := npMin_ok_of_ne_nil hbne
  rw [hmb]
  simp only []
  rw [if_neg (not_lt.mpr (hbneg mb (npMin_ok_mem hmb))),
    if_neg (not_not_intro
      (List.all_eq_true.mpr (fun v hv => decide_eq_true (hnorm v hv))))]

/-! ## Claim C4: the shell classifier -/

/-- C4 (amended): for every 1-D b-value array with at least two entries and a
nonnegative max_distance, the Shell Classifier returns 0-based shell indices
re-labelled by ascending cluster mean — the per-shell mean array is strictly
ascending, the labels are contiguous from 0, and the mean array matches the
labels (entry at a measurement's label is the mean of that measurement's
cluster); in particular, for bvalues [1, 2, 4, 5] with max_distance 1 it
produces exactly 2 shells, and with any max_distance ≥ 4 exactly 1 shell.
(The claim's original universal over every 1-D array fails: on an array with
fewer than two entries the classifier raises instead of returning, see the
counterexample.) -/
theorem C4_classifier_relabels_by_ascending_mean (bvalues : List ℚ) (d : ℚ)
    (hd : 0 ≤ d) (h2 : 2 ≤ bvalues.length) :
    calculate_shell_bvalues_and_indices bvalues d =
      .ok (shellIndicesOf bvalues d, shellBvaluesOf bvalues d) ∧
    List.Sorted (· < ·) (shellBvaluesOf bvalues d) ∧
    (shellBvaluesOf bvalues d).length = numShellsOf bvalues d ∧
    (∀ i, i < bvalues.length →
      (shellIndicesOf bvalues d).getD i 0 < numShellsOf bvalues d) ∧
    (∀ c, c < numShellsOf bvalues d →
      ∃ i, i < bvalues.length ∧ (shellIndicesOf bvalues d).getD i 0 = c) ∧
    (∀ i, i < bvalues.length →
      (shellBvaluesOf bvalues d).getD ((shellIndicesOf bvalues d).getD i 0) 0 =
        listMean (shellMembers bvalues d ((shellIndicesOf bvalues d).getD i 0))) ∧
    calculate_shell_bvalues_and_indices [1, 2, 4, 5] 1 =
      .ok ([0, 0, 1, 1], [3 / 2, 9 / 2]) ∧
    (∀ d', 4 ≤ d' → numShellsOf [1, 2, 4, 5] d' = 1) := by
  have hne : bvalues ≠ [] := by
    intro hcon
    rw [hcon] at h2
    simp at h2
  refine ⟨?_, shellBvaluesOf_sorted_lt bvalues d hd hne, shellBvaluesOf_length bvalues d,
    ?_, ?_, ?_, by with_unfolding_all rfl, ?_⟩
  · unfold calculate_shell_bvalues_and_indices
    rw [if_neg (by omega)]
  · intro i hi
    unfold shellIndicesOf
    rw [getD_map_of_lt _ _ _ _ 0 hi]
    exact shellLabel_lt_numShells bvalues d _
  · intro c hc
    obtain ⟨v, hv, hvlab⟩ := exists_shellLabel_eq bvalues d hd hne c hc
    obtain ⟨i, hil, hie⟩ := List.mem_iff_getElem.mp hv
    refine ⟨i, hil, ?_⟩
    unfold shellIndicesOf
    rw [getD_map_of_lt _ _ _ _ 0 hil]
    rw [List.getD_eq_getElem?_getD, List.getElem?_eq_getElem hil]
    simpa [hie] using hvlab
  · intro i hi
    unfold shellIndicesOf
    rw [getD_map_of_lt _ _ _ _ 0 hi]
    exact shellBvaluesOf_getD bvalues d (shellLabel_lt_numShells bvalues d _)
  · intro d' hd'
    have hsort : bvalSort [1, 2, 4, 5] = [1, 2, 4, 5] := by
      with_unfolding_all rfl
    unfold numShellsOf
    rw [hsort, gapCuts_cons_cons, gapCuts_cons_cons, gapCuts_cons_cons]
    rw [if_neg (by intro hcon; linarith), if_neg (by intro hcon; linarith),
      if_neg (by intro hcon; linarith)]
    rfl

/-- C4 (counterexample to the claim as stated): the classifier does not return
a labelling for every 1-D b-value array — on the one-element array [5] it
raises (scipy's `linkage` cannot form a condensed distance matrix from a
single observation). -/
theorem C4_counterexample_singleton_array_raises :
    calculate_shell_bvalues_and_indices [5] 1 = .error .linkageEmptyDistance ∧
    ∀ r : List ℕ × List ℚ, calculate_shell_bvalues_and_indices [5] 1 ≠ .ok r := by
  refine ⟨by with_unfolding_all rfl, ?_⟩
  intro r hcon
  rw [show calculate_shell_bvalues_and_indices [5] 1 =
    .error .linkageEmptyDistance from by with_unfolding_all rfl] at hcon
  exact absurd hcon (by simp)

/-- C4 (witness): the amended theorem applied to the concrete array
[1, 2, 4, 5] at max_distance 1. -/
theorem C4_witness :
    (0 : ℚ) ≤ 1 ∧ 2 ≤ ([1, 2, 4, 5] : List ℚ).length ∧
    (calculate_shell_bvalues_and_indices [1, 2, 4, 5] 1 =
      .ok (shellIndicesOf [1, 2, 4, 5] 1, shellBvaluesOf [1, 2, 4, 5] 1) ∧
    List.Sorted (· < ·) (shellBvaluesOf [1, 2, 4, 5] 1) ∧
    (shellBvaluesOf [1, 2, 4, 5] 1).length = numShellsOf [1, 2, 4, 5] 1 ∧
    (∀ i, i < ([1, 2, 4, 5] : List ℚ).length →
      (shellIndicesOf [1, 2, 4, 5] 1).getD i 0 < numShellsOf [1, 2, 4, 5] 1) ∧
    (∀ c, c < numShellsOf [1, 2, 4, 5] 1 →
      ∃ i, i < ([1, 2, 4, 5] : List ℚ).length ∧
        (shellIndicesOf [1, 2, 4, 5] 1).getD i 0 = c) ∧
    (∀ i, i < ([1, 2, 4, 5] : List ℚ).length →
      (shellBvaluesOf [1, 2, 4, 5] 1).getD ((shellIndicesOf [1, 2, 4, 5] 1).getD i 0) 0 =
        listMean (shellMembers [1, 2, 4, 5] 1 ((shellIndicesOf [1, 2, 4, 5] 1).getD i 0))) ∧
    calculate_shell_bvalues_and_indices [1, 2, 4, 5] 1 =
      .ok ([0, 0, 1, 1], [3 / 2, 9 / 2]) ∧
    (∀ d', 4 ≤ d' → numShellsOf [1, 2, 4, 5] d' = 1)) :=
  ⟨by norm_num, by decide,
    C4_classifier_relabels_by_ascending_mean [1, 2, 4, 5] 1 (by norm_num) (by decide)⟩

/-! ## Claim C1: the global shell numbering -/

/-- C1 (amended): for every scheme constructed from more than one measurement,
`shell_indices` assigns every measurement exactly one shell index, the used
indices are contiguous from 0 with no gaps (every index below the number of
shells is hit, and the maximum plus one equals the number of shells),
measurements are partitioned by unique `(delta, Delta)` timing group, and the
numbering is globally increasing: a measurement of a lexicographically
smaller timing group gets a strictly smaller index, and within one group the
order is by increasing cluster mean b-value.  The claim's words fail in one
place: the groups are processed in ascending lexicographic row order — the
order `np.unique(axis=0)` returns — not in the order their unique
combinations first appear in the input (see the counterexample). -/
theorem C1_shell_indices_partition_lex_groups (qfb gfb : ℚ → ℚ → ℚ → ℚ)
    (bv gd : NDArr) (δ Δ : PyArg) (d t : ℚ) (S : MipyAcquisitionScheme)
    (hok : acquisition_scheme_from_bvalues qfb gfb bv gd δ Δ d t = .ok S)
    (hd : 0 ≤ d) (hwfb : bv.WF) (hwfδ : PyArg.WF δ) (hwfΔ : PyArg.WF Δ)
    (h1 : 1 < S.number_of_measurements) :
    S.shell_indices.length = S.number_of_measurements ∧
    listMax S.shell_indices + 1 = S.shell_bvalues.length ∧
    (∀ i, i < S.number_of_measurements →
      S.shell_indices.getD i 0 < S.shell_bvalues.length) ∧
    (∀ s, s < S.shell_bvalues.length →
      ∃ i, i < S.number_of_measurements ∧ S.shell_indices.getD i 0 = s) ∧
    (∀ i j, i < S.number_of_measurements → j < S.number_of_measurements →
      lexLt ((S.delta.zip S.Delta).getD i (0, 0)) ((S.delta.zip S.Delta).getD j (0, 0)) →
      S.shell_indices.getD i 0 < S.shell_indices.getD j 0) ∧
    (∀ i j, i < S.number_of_measurements → j < S.number_of_measurements →
      (S.delta.zip S.Delta).getD i (0, 0) = (S.delta.zip S.Delta).getD j (0, 0) →
      (S.shell_indices.getD i 0 < S.shell_indices.getD j 0 ↔
        listMean (shellMembersBv S (S.shell_indices.getD i 0)) <
          listMean (shellMembersBv S (S.shell_indices.getD j 0)))) := by
  obtain ⟨-, -, hnm, -, hsilen, -, -, -, -, -, hmax⟩ :=
    scheme_multi_analysis qfb gfb bv gd δ Δ d t S hok hd hwfb hwfδ hwfΔ h1
  obtain ⟨hb, hsurj, -, hcross, hwithin⟩ :=
    scheme_multi_shells qfb gfb bv gd δ Δ d t S hok hd hwfb hwfδ hwfΔ h1
  rw [hnm]
  exact ⟨by rw [hsilen], hmax, hb, hsurj, hcross, hwithin⟩

/-- C1 (counterexample to the claim as stated): with timing groups
`(2, 2), (2, 2), (1, 1), (1, 1)` the first-appearing group `(2, 2)` receives
the higher shell indices 2 and 3, and the later-appearing but
lexicographically smaller group `(1, 1)` receives 0 and 1 — the groups are
processed in sorted row order, not in order of first appearance. -/
theorem C1_counterexample_group_order_is_lexicographic :
    acquisition_scheme_from_bvalues exConv3 exConv3 ⟨[4], [10, 20, 30, 40]⟩
        ⟨[4, 3], [1, 0, 0, 1, 0, 0, 1, 0, 0, 1, 0, 0]⟩
        (.arr ⟨[4], [2, 2, 1, 1]⟩) (.arr ⟨[4], [2, 2, 1, 1]⟩) 1 1 = .ok exSchemeB ∧
    exSchemeB.delta = [2, 2, 1, 1] ∧
    exSchemeB.shell_indices = [2, 3, 0, 1] ∧
    exSchemeB.shell_indices.getD 2 0 < exSchemeB.shell_indices.getD 0 0 :=
  ⟨by with_unfolding_all rfl, by with_unfolding_all rfl,
   by with_unfolding_all rfl, by with_unfolding_all decide⟩

/-- C1 (witness): the amended theorem applied to the concrete two-group
scheme `exSchemeB`. -/
theorem C1_witness :
    acquisition_scheme_from_bvalues exConv3 exConv3 ⟨[4], [10, 20, 30, 40]⟩
        ⟨[4, 3], [1, 0, 0, 1, 0, 0, 1, 0, 0, 1, 0, 0]⟩
        (.arr ⟨[4], [2, 2, 1, 1]⟩) (.arr ⟨[4], [2, 2, 1, 1]⟩) 1 1 = .ok exSchemeB ∧
    1 < exSchemeB.number_of_measurements ∧
    (exSchemeB.shell_indices.length = exSchemeB.number_of_measurements ∧
     listMax exSchemeB.shell_indices + 1 = exSchemeB.shell_bvalues.length ∧
     (∀ i, i < exSchemeB.number_of_measurements →
       exSchemeB.shell_indices.getD i 0 < exSchemeB.shell_bvalues.length) ∧
     (∀ s, s < exSchemeB.shell_bvalues.length →
       ∃ i, i < exSchemeB.number_of_measurements ∧
         exSchemeB.shell_indices.getD i 0 = s) ∧
     (∀ i j, i < exSchemeB.number_of_measurements →
       j < exSchemeB.number_of_measurements →
       lexLt ((exSchemeB.delta.zip exSchemeB.Delta).getD i (0, 0))
         ((exSchemeB.delta.zip exSchemeB.Delta).getD j (0, 0)) →
       exSchemeB.shell_indices.getD i 0 < exSchemeB.shell_indices.getD j 0) ∧
     (∀ i j, i < exSchemeB.number_of_measurements →
       j < exSchemeB.number_of_measurements →
       (exSchemeB.delta.zip exSchemeB.Delta).getD i (0, 0) =
         (exSchemeB.delta.zip exSchemeB.Delta).getD j (0, 0) →
       (exSchemeB.shell_indices.getD i 0 < exSchemeB.shell_indices.getD j 0 ↔
         listMean (shellMembersBv exSchemeB (exSchemeB.shell_indices.getD i 0)) <
           listMean (shellMembersBv exSchemeB (exSchemeB.shell_indices.getD j 0))))) :=
  ⟨by with_unfolding_all rfl, by with_unfolding_all decide,
    C1_shell_indices_partition_lex_groups exConv3 exConv3 ⟨[4], [10, 20, 30, 40]⟩
      ⟨[4, 3], [1, 0, 0, 1, 0, 0, 1, 0, 0, 1, 0, 0]⟩
      (.arr ⟨[4], [2, 2, 1, 1]⟩) (.arr ⟨[4], [2, 2, 1, 1]⟩) 1 1 exSchemeB
      (by with_unfolding_all rfl) (by norm_num) (by decide) (by decide) (by decide)
      (by with_unfolding_all decide)⟩

/-! ## Claim C9: the single-measurement bypass -/

/-- C9 (confirmed): a scheme constructed from exactly one measurement gets
shell index 0, its shell b-value is its b-value, and its shell b0 flag is
exactly the comparison of its b-value against the b0 threshold; and the
builder's single-measurement branch succeeds unconditionally, without ever
invoking the clustering path. -/
theorem C9_single_measurement_bypass (qfb gfb : ℚ → ℚ → ℚ → ℚ) (bv gd : NDArr)
    (δ Δ : PyArg) (d t : ℚ) (S : MipyAcquisitionScheme)
    (hok : acquisition_scheme_from_bvalues qfb gfb bv gd δ Δ d t = .ok S)
    (h1 : S.number_of_measurements = 1) :
    S.shell_indices = [0] ∧
    S.shell_bvalues = S.bvalues ∧
    S.shell_b0_mask = [decide (S.bvalues.getD 0 0 ≤ S.b0_threshold)] ∧
    (∀ (x : ℚ) (gd2 : List Vec3) (q gr δl Δl : List ℚ) (d2 t2 : ℚ),
      MipyAcquisitionScheme.build [x] gd2 q gr δl Δl d2 t2 =
        .ok (assembleScheme [x] gd2 q gr δl Δl d2 t2 [0] [x])) := by
  obtain ⟨δ2, Δ2, hu, hc, hb⟩ := from_bvalues_ok_elim qfb gfb bv gd δ Δ d t S hok
  cases hdat : bv.data with
  | nil =>
    rw [hdat, build_nil] at hb
    exact absurd hb (by simp)
  | cons x xs =>
    cases xs with
    | cons y ys =>
      rw [hdat] at hb
      obtain ⟨si, acc, sb, -, -, hS⟩ :=
        build_ok_multi_elim _ _ _ _ _ _ _ _ _ (by simp) hb
      rw [hS, assemble_number_of_measurements] at h1
      simp at h1
    | nil =>
      rw [hdat] at hb
      have hS := build_ok_single_elim _ _ _ _ _ _ _ _ _ (by simp) hb
      subst hS
      refine ⟨rfl, rfl, ?_,
        fun x2 gd2 q gr δl Δl d2 t2 => build_single_eq x2 gd2 q gr δl Δl d2 t2⟩
      rw [assemble_shell_b0_mask, assemble_bvalues, assemble_b0_threshold]
      rfl

/-- C9 (witness): the bypass on the concrete one-measurement scheme
`exSchemeE`. -/
theorem C9_witness :
    acquisition_scheme_from_bvalues exConv3 exConv3 ⟨[1], [7]⟩ ⟨[1, 3], [1, 0, 0]⟩
        (.scalar 1) (.scalar 3) 5 10 = .ok exSchemeE ∧
    exSchemeE.number_of_measurements = 1 ∧
    (exSchemeE.shell_indices = [0] ∧
     exSchemeE.shell_bvalues = exSchemeE.bvalues ∧
     exSchemeE.shell_b0_mask =
       [decide (exSchemeE.bvalues.getD 0 0 ≤ exSchemeE.b0_threshold)] ∧
     (∀ (x : ℚ) (gd2 : List Vec3) (q gr δl Δl : List ℚ) (d2 t2 : ℚ),
       MipyAcquisitionScheme.build [x] gd2 q gr δl Δl d2 t2 =
         .ok (assembleScheme [x] gd2 q gr δl Δl d2 t2 [0] [x]))) :=
  ⟨by with_unfolding_all rfl, by with_unfolding_all rfl,
    C9_single_measurement_bypass exConv3 exConv3 ⟨[1], [7]⟩ ⟨[1, 3], [1, 0, 0]⟩
      (.scalar 1) (.scalar 3) 5 10 exSchemeE (by with_unfolding_all rfl)
      (by with_unfolding_all rfl)⟩

/-! ## Claim C10: the scheme stores independent timing arrays -/

/-- C10 (confirmed, in the heap model): whichever way `delta` and `Delta` are
supplied (float or array reference), the construction pipeline stores the
scheme's `delta`, `Delta` and `tau` in freshly allocated cells, so mutating
any array the caller could reference before construction leaves all three
stored arrays unchanged. -/
theorem C10_timing_arrays_are_independent_copies (st : Store) (n : ℕ)
    (delta Delta : PyArgRef) :
    st.arrays.length ≤ (buildTimingRefs st n delta Delta).2.deltaRef ∧
    st.arrays.length ≤ (buildTimingRefs st n delta Delta).2.DeltaRef ∧
    st.arrays.length ≤ (buildTimingRefs st n delta Delta).2.tauRef ∧
    (∀ r, r < st.arrays.length → ∀ a,
      ((buildTimingRefs st n delta Delta).1.write r a).read
          (buildTimingRefs st n delta Delta).2.deltaRef =
        (buildTimingRefs st n delta Delta).1.read
          (buildTimingRefs st n delta Delta).2.deltaRef ∧
      ((buildTimingRefs st n delta Delta).1.write r a).read
          (buildTimingRefs st n delta Delta).2.DeltaRef =
        (buildTimingRefs st n delta Delta).1.read
          (buildTimingRefs st n delta Delta).2.DeltaRef ∧
      ((buildTimingRefs st n delta Delta).1.write r a).read
          (buildTimingRefs st n delta Delta).2.tauRef =
        (buildTimingRefs st n delta Delta).1.read
          (buildTimingRefs st n delta Delta).2.tauRef) := by
  obtain ⟨A, B, C, heq⟩ := buildTimingRefs_refs st n delta Delta
  rw [heq]
  refine ⟨by simp, by simp, by simp, ?_⟩
  intro r hr a
  refine ⟨?_, ?_, ?_⟩ <;>
    · show Store.read (Store.write _ _ _) _ = Store.read _ _
      unfold Store.write Store.read
      exact getD_set_ne _ _ _ _ _ (by simp; omega)

/-- C10 (witness): the frame property on a concrete two-cell store, mutating
the caller's first array after construction. -/
theorem C10_witness :
    (0 < (Store.mk [[5], [6]]).arrays.length) ∧
    (((buildTimingRefs ⟨[[5], [6]]⟩ 2 (.ref 0) (.ref 1)).1.write 0 [9]).read
        (buildTimingRefs ⟨[[5], [6]]⟩ 2 (.ref 0) (.ref 1)).2.deltaRef =
      (buildTimingRefs ⟨[[5], [6]]⟩ 2 (.ref 0) (.ref 1)).1.read
        (buildTimingRefs ⟨[[5], [6]]⟩ 2 (.ref 0) (.ref 1)).2.deltaRef ∧
     ((buildTimingRefs ⟨[[5], [6]]⟩ 2 (.ref 0) (.ref 1)).1.write 0 [9]).read
        (buildTimingRefs ⟨[[5], [6]]⟩ 2 (.ref 0) (.ref 1)).2.DeltaRef =
      (buildTimingRefs ⟨[[5], [6]]⟩ 2 (.ref 0) (.ref 1)).1.read
        (buildTimingRefs ⟨[[5], [6]]⟩ 2 (.ref 0) (.ref 1)).2.DeltaRef ∧
     ((buildTimingRefs ⟨[[5], [6]]⟩ 2 (.ref 0) (.ref 1)).1.write 0 [9]).read
        (buildTimingRefs ⟨[[5], [6]]⟩ 2 (.ref 0) (.ref 1)).2.tauRef =
      (buildTimingRefs ⟨[[5], [6]]⟩ 2 (.ref 0) (.ref 1)).1.read
        (buildTimingRefs ⟨[[5], [6]]⟩ 2 (.ref 0) (.ref 1)).2.tauRef) :=
  ⟨by decide,
    (C10_timing_arrays_are_independent_copies ⟨[[5], [6]]⟩ 2 (.ref 0) (.ref 1)).2.2.2
      0 (by decide) [9]⟩

/-! ## Claim C6: per-shell representative values -/

/-- C6 (amended): for every shell of a constructed multi-measurement scheme,
the recorded representative delta, Delta, q-value and gradient strength equal
the corresponding values of the first measurement (in input order) belonging
to that shell — but the recorded representative b-value is the mean of the
shell's b-values, not the first member's b-value (see the counterexample). -/
theorem C6_shell_representatives_first_member_except_bvalue (qfb gfb : ℚ → ℚ → ℚ → ℚ)
    (bv gd : NDArr) (δ Δ : PyArg) (d t : ℚ) (S : MipyAcquisitionScheme)
    (hok : acquisition_scheme_from_bvalues qfb gfb bv gd δ Δ d t = .ok S)
    (hd : 0 ≤ d) (hwfb : bv.WF) (hwfδ : PyArg.WF δ) (hwfΔ : PyArg.WF Δ)
    (h1 : 1 < S.number_of_measurements) :
    ∀ s, s < S.shell_bvalues.length →
      (S.shell_indices.findIdx (fun x => decide (x = s)) < S.number_of_measurements ∧
       S.shell_indices.getD (S.shell_indices.findIdx (fun x => decide (x = s))) 0 = s) ∧
      S.shell_delta.getD s 0 =
        S.delta.getD (S.shell_indices.findIdx (fun x => decide (x = s))) 0 ∧
      S.shell_Delta.getD s 0 =
        S.Delta.getD (S.shell_indices.findIdx (fun x => decide (x = s))) 0 ∧
      S.shell_qvalues.getD s 0 =
        S.qvalues.getD (S.shell_indices.findIdx (fun x => decide (x = s))) 0 ∧
      S.shell_gradient_strengths.getD s 0 =
        S.gradient_strengths.getD (S.shell_indices.findIdx (fun x => decide (x = s))) 0 ∧
      S.shell_bvalues.getD s 0 = listMean (shellMembersBv S s) := by
  obtain ⟨-, -, hnm, -, hsilen, -, -, -, -, -, hmax⟩ :=
    scheme_multi_analysis qfb gfb bv gd δ Δ d t S hok hd hwfb hwfδ hwfΔ h1
  obtain ⟨-, hsurj, hmean, -, -⟩ :=
    scheme_multi_shells qfb gfb bv gd δ Δ d t S hok hd hwfb hwfδ hwfΔ h1
  obtain ⟨δ2, Δ2, hu, hc, hb⟩ := from_bvalues_ok_elim qfb gfb bv gd δ Δ d t S hok
  have hlen1 : 1 < bv.data.length := by
    by_contra hcon
    push_neg at hcon
    cases hdat : bv.data with
    | nil =>
      rw [hdat, build_nil] at hb
      exact absurd hb (by simp)
    | cons x xs =>
      cases xs with
      | nil =>
        rw [hdat] at hb
        have hS := build_ok_single_elim _ _ _ _ _ _ _ _ _ (by simp) hb
        rw [hS, assemble_number_of_measurements] at h1
        simp at h1
      | cons y ys =>
        rw [hdat] at hcon
        simp at hcon
  obtain ⟨si, acc, sb, hbs, hrv, hS⟩ :=
    build_ok_multi_elim _ _ _ _ _ _ _ _ _ hlen1 hb
  have hsi : S.shell_indices = si := by rw [hS, assemble_shell_indices]
  have hsb : S.shell_bvalues = sb := by rw [hS, assemble_shell_bvalues]
  have hδe : S.delta = δ2.data := by rw [hS, assemble_delta]
  have hΔe : S.Delta = Δ2.data := by rw [hS, assemble_Delta]
  have hqe : S.qvalues = zipWith3 qfb bv.data δ2.data Δ2.data := by
    rw [hS, assemble_qvalues]
  have hge : S.gradient_strengths = zipWith3 gfb bv.data δ2.data Δ2.data := by
    rw [hS, assemble_gradient_strengths]
  have hsd : S.shell_delta =
      ((List.range (listMax si + 1)).map
        (fun ind => npArgmaxBool (si.map (fun x => decide (x = ind))))).map
        (fun j => δ2.data.getD j 0) := by
    rw [hS, assemble_shell_delta]
  have hsD : S.shell_Delta =
      ((List.range (listMax si + 1)).map
        (fun ind => npArgmaxBool (si.map (fun x => decide (x = ind))))).map
        (fun j => Δ2.data.getD j 0) := by
    rw [hS, assemble_shell_Delta]
  have hsq : S.shell_qvalues =
      ((List.range (listMax si + 1)).map
        (fun ind => npArgmaxBool (si.map (fun x => decide (x = ind))))).map
        (fun j => (zipWith3 qfb bv.data δ2.data Δ2.data).getD j 0) := by
    rw [hS, assemble_shell_qvalues]
  have hsg : S.shell_gradient_strengths =
      ((List.range (listMax si + 1)).map
        (fun ind => npArgmaxBool (si.map (fun x => decide (x = ind))))).map
        (fun j => (zipWith3 gfb bv.data δ2.data Δ2.data).getD j 0) := by
    rw [hS, assemble_shell_gradient_strengths]
  have hsilen2 : si.length = S.bvalues.length := by
    rw [← hsi]
    exact hsilen
  rw [hsi, hsb] at hmax
  intro s hs0
  have hs2 : s < listMax si + 1 := by
    have := hs0
    rw [hsb] at this
    omega
  have hex : ∃ i, i < si.length ∧ si.getD i 0 = s := by
    obtain ⟨i, hi, he⟩ := hsurj s hs0
    rw [hsi] at he
    exact ⟨i, by omega, he⟩
  have hfind : si.findIdx (fun x => decide (x = s)) < si.length := by
    obtain ⟨i, hi, he⟩ := hex
    exact List.findIdx_lt_length.mpr ⟨s, he ▸ getD_mem_of_lt si i hi, by simp⟩
  refine ⟨⟨?_, ?_⟩, ?_, ?_, ?_, ?_, (hmean s hs0).2⟩
  · rw [hnm, hsi]
    omega
  · rw [hsi]
    exact findIdx_getD_self si s hfind
  · rw [hsd, hδe, hsi]
    exact shell_first_getD si δ2.data s hs2 hex
  · rw [hsD, hΔe, hsi]
    exact shell_first_getD si Δ2.data s hs2 hex
  · rw [hsq, hqe, hsi]
    exact shell_first_getD si (zipWith3 qfb bv.data δ2.data Δ2.data) s hs2 hex
  · rw [hsg, hge, hsi]
    exact shell_first_getD si (zipWith3 gfb bv.data δ2.data Δ2.data) s hs2 hex

/-- C6 (counterexample to the claim as stated): in the concrete scheme with
b-values `[0, 10, 12]` and shells `{0}` and `{10, 12}`, the recorded
representative b-value of shell 1 is 11 — the cluster mean — while the first
measurement of shell 1 (measurement 1, in input order) has b-value 10. -/
theorem C6_counterexample_representative_b_is_mean :
    acquisition_scheme_from_bvalues exConv3 exConv3 ⟨[3], [0, 10, 12]⟩
        ⟨[3, 3], [1, 0, 0, 1, 0, 0, 1, 0, 0]⟩ (.scalar 1) (.scalar 3) 5 1 =
      .ok exSchemeA ∧
    exSchemeA.shell_indices = [0, 1, 1] ∧
    exSchemeA.bvalues = [0, 10, 12] ∧
    exSchemeA.shell_bvalues = [0, 11] ∧
    exSchemeA.shell_bvalues.getD 1 0 ≠ exSchemeA.bvalues.getD 1 0 :=
  ⟨by with_unfolding_all rfl, by with_unfolding_all rfl, by with_unfolding_all rfl,
   by with_unfolding_all rfl, by with_unfolding_all decide⟩

/-- C6 (witness): the amended theorem applied to shell 1 of the concrete
scheme `exSchemeA`. -/
theorem C6_witness :
    acquisition_scheme_from_bvalues exConv3 exConv3 ⟨[3], [0, 10, 12]⟩
        ⟨[3, 3], [1, 0, 0, 1, 0, 0, 1, 0, 0]⟩ (.scalar 1) (.scalar 3) 5 1 =
      .ok exSchemeA ∧
    1 < exSchemeA.shell_bvalues.length ∧
    ((exSchemeA.shell_indices.findIdx (fun x => decide (x = 1)) <
        exSchemeA.number_of_measurements ∧
      exSchemeA.shell_indices.getD
        (exSchemeA.shell_indices.findIdx (fun x => decide (x = 1))) 0 = 1) ∧
     exSchemeA.shell_delta.getD 1 0 =
       exSchemeA.delta.getD
         (exSchemeA.shell_indices.findIdx (fun x => decide (x = 1))) 0 ∧
     exSchemeA.shell_Delta.getD 1 0 =
       exSchemeA.Delta.getD
         (exSchemeA.shell_indices.findIdx (fun x => decide (x = 1))) 0 ∧
     exSchemeA.shell_qvalues.getD 1 0 =
       exSchemeA.qvalues.getD
         (exSchemeA.shell_indices.findIdx (fun x => decide (x = 1))) 0 ∧
     exSchemeA.shell_gradient_strengths.getD 1 0 =
       exSchemeA.gradient_strengths.getD
         (exSchemeA.shell_indices.findIdx (fun x => decide (x = 1))) 0 ∧
     exSchemeA.shell_bvalues.getD 1 0 = listMean (shellMembersBv exSchemeA 1)) :=
  ⟨by with_unfolding_all rfl, by with_unfolding_all decide,
    C6_shell_representatives_first_member_except_bvalue exConv3 exConv3
      ⟨[3], [0, 10, 12]⟩ ⟨[3, 3], [1, 0, 0, 1, 0, 0, 1, 0, 0]⟩ (.scalar 1) (.scalar 3)
      5 1 exSchemeA (by with_unfolding_all rfl) (by norm_num) (by decide) (by decide)
      (by decide) (by with_unfolding_all decide) 1 (by with_unfolding_all decide)⟩

/-! ## Claim C7: b0 counting and the zero-b0 warning -/

/-- C7 (amended): for every successfully constructed scheme, if every
measurement has b-value at most the b0 threshold then `number_of_b0s` equals
`number_of_measurements`, and if no measurement does then the b0 set is empty
and the non-fatal zero-b0 warning flag is set.  The claim's further promise
that every valid zero-b0 input yields a fully constructed scheme fails:
validation can pass and construction still raise (see the counterexample). -/
theorem C7_b0_counting_and_zero_b0_warning (qfb gfb : ℚ → ℚ → ℚ → ℚ)
    (bv gd : NDArr) (δ Δ : PyArg) (d t : ℚ) (S : MipyAcquisitionScheme)
    (hok : acquisition_scheme_from_bvalues qfb gfb bv gd δ Δ d t = .ok S) :
    ((∀ b ∈ S.bvalues, b ≤ S.b0_threshold) →
      S.number_of_b0s = S.number_of_measurements) ∧
    ((∀ b ∈ S.bvalues, S.b0_threshold < b) →
      S.number_of_b0s = 0 ∧ S.zero_b0_warning = true) := by
  obtain ⟨ht, hnm, hne, hcount, hwarn⟩ := scheme_b0_fields qfb gfb bv gd δ Δ d t S hok
  constructor
  · intro hall
    rw [hcount, hnm, count_true_map_decide_eq_length _ _ hall]
  · intro hnone
    have h0 : S.number_of_b0s = 0 := by
      rw [hcount, count_true_map_decide_eq_zero _ _ hnone]
    refine ⟨h0, ?_⟩
    rw [hwarn, h0]
    rfl

/-- C7 (counterexample to the claim as stated): a validator-approved input
whose measurements all exceed the b0 threshold (a zero-b0 input) on which
construction raises instead of returning a scheme: its two timing groups are
singletons, so the clustering step fails. -/
theorem C7_counterexample_zero_b0_valid_input_raises :
    check_acquisition_scheme ⟨[2], [10, 20]⟩ ⟨[2, 3], [1, 0, 0, 1, 0, 0]⟩
        ⟨[2], [1, 2]⟩ ⟨[2], [3, 5]⟩ = .ok () ∧
    (∀ b ∈ ([10, 20] : List ℚ), (1 : ℚ) < b) ∧
    acquisition_scheme_from_bvalues exConv3 exConv3 ⟨[2], [10, 20]⟩
        ⟨[2, 3], [1, 0, 0, 1, 0, 0]⟩ (.arr ⟨[2], [1, 2]⟩) (.arr ⟨[2], [3, 5]⟩) 1 1 =
      .error (.scheme .linkageEmptyDistance) :=
  ⟨by with_unfolding_all rfl, by with_unfolding_all decide, by with_unfolding_all rfl⟩

/-- C7 (witness): the all-b0 half of the amended theorem on the concrete
scheme `exSchemeC`, built with the source's default thresholds. -/
theorem C7_witness :
    acquisition_scheme_from_bvalues exConv3 exConv3 ⟨[3], [0, 10, 12]⟩
        ⟨[3, 3], [1, 0, 0, 1, 0, 0, 1, 0, 0]⟩ (.scalar 1) (.scalar 3)
        50000000 10000000 = .ok exSchemeC ∧
    (∀ b ∈ exSchemeC.bvalues, b ≤ exSchemeC.b0_threshold) ∧
    exSchemeC.number_of_b0s = exSchemeC.number_of_measurements :=
  ⟨by with_unfolding_all rfl, by with_unfolding_all decide,
    (C7_b0_counting_and_zero_b0_warning exConv3 exConv3 ⟨[3], [0, 10, 12]⟩
        ⟨[3, 3], [1, 0, 0, 1, 0, 0, 1, 0, 0]⟩ (.scalar 1) (.scalar 3) 50000000 10000000
        exSchemeC (by with_unfolding_all rfl)).1
      (by with_unfolding_all decide)⟩

/-! ## Claim C5: SH orders and observation matrices of the non-b0 shells -/

/-- C2 (amended): on well-formed inputs whose four arrays are at least
one-dimensional and whose primary array is nonempty, the validator raises
exactly when one of the claim's listed conditions holds and reports the first
failing condition in the claim's fixed order (shape, length consistency,
delta/Delta shape, delta/Delta sign, gradient_directions shape, primary sign,
unit norm).  The claim's unrestricted universal fails: outside this region
the validator can also raise numpy/`len` errors that correspond to no listed
condition — `len()` of a 0-dimensional array raises `TypeError` and `np.min`
of an empty array raises `ValueError` (see the counterexample). -/
theorem C2_validator_first_failing_condition (bqg gd δ Δ : NDArr)
    (h1b : 1 ≤ bqg.ndim) (h1g : 1 ≤ gd.ndim) (h1d : 1 ≤ δ.ndim) (h1D : 1 ≤ Δ.ndim)
    (hwfb : bqg.WF) (hwfd : δ.WF) (hwfD : Δ.WF) (hlen : 0 < bqg.len) :
    check_acquisition_scheme bqg gd δ Δ = validatorVerdict bqg gd δ Δ := by
  unfold check_acquisition_scheme validatorVerdict firstFailing acqCondOrder
  by_cases hc1 : bqg.ndim = 1
  case neg =>
    rw [if_pos (by omega), List.find?_cons_of_pos _ (by simp [condHolds, hc1])]
    rfl
  case pos =>
  rw [if_neg (by omega), List.find?_cons_of_neg _ (by simp [condHolds, hc1]),
    npLen_ok_intro h1b, npLen_ok_intro h1g]
  simp only []
  by_cases hc2 : bqg.len = gd.len
  case neg =>
    rw [if_pos (by omega), List.find?_cons_of_pos _ (by simp [condHolds, hc2])]
    rfl
  case pos =>
  rw [if_neg (by omega), List.find?_cons_of_neg _ (by simp [condHolds, hc2]),
    npLen_ok_intro h1d]
  simp only []
  by_cases hc3a : bqg.len = δ.len
  case neg =>
    rw [if_pos (by omega), List.find?_cons_of_pos _
      (by simp only [condHolds, decide_eq_true_eq]; omega)]
    rfl
  case pos =>
  rw [if_neg (by omega), npLen_ok_intro h1D]
  simp only []
  by_cases hc3b : bqg.len = Δ.len
  case neg =>
    rw [if_pos (by omega), List.find?_cons_of_pos _
      (by simp only [condHolds, decide_eq_true_eq]; omega)]
    rfl
  case pos =>
  rw [if_neg (by omega), List.find?_cons_of_neg _
    (by simp only [condHolds, decide_eq_true_eq]; omega)]
  by_cases hc4 : δ.ndim = 1 ∧ Δ.ndim = 1
  case neg =>
    rw [if_pos ?hecond, List.find?_cons_of_pos _
      (by simp only [condHolds, decide_eq_true_eq]; omega)]
    rfl
    case hecond =>
      rcases not_and_or.mp hc4 with h | h
      · exact Or.inl (by omega)
      · exact Or.inr (by omega)
  case pos =>
  obtain ⟨hc4d, hc4D⟩ := hc4
  rw [if_neg (by rw [hc4d, hc4D]; simp),
    List.find?_cons_of_neg _ (by simp [condHolds, hc4d, hc4D])]
  have hdne : δ.data ≠ [] := by
    have hlend := ndarr_data_length hwfd hc4d
    intro hcon
    rw [hcon] at hlend
    simp at hlend
    omega
  have hDne : Δ.data ≠ [] := by
    have hlenD := ndarr_data_length hwfD hc4D
    intro hcon
    rw [hcon] at hlenD
    simp at hlenD
    omega
  obtain ⟨md, hmd⟩ := npMin_ok_of_ne_nil hdne
  rw [hmd]
  simp only []
  by_cases hc5a : md < 0
  case pos =>
    obtain ⟨x, hx, hxneg⟩ := (npMin_neg_iff hmd).mp hc5a
    rw [if_pos hc5a, List.find?_cons_of_pos _ (by
      simp only [condHolds, decide_eq_true_eq]
      exact Or.inl (List.any_eq_true.mpr ⟨x, hx, decide_eq_true hxneg⟩))]
    rfl
  case neg =>
  rw [if_neg hc5a]
  obtain ⟨mD, hmD⟩ := npMin_ok_of_ne_nil hDne
  rw [hmD]
  simp only []
  by_cases hc5b : mD < 0
  case pos =>
    obtain ⟨x, hx, hxneg⟩ := (npMin_neg_iff hmD).mp hc5b
    rw [if_pos hc5b, List.find?_cons_of_pos _ (by
      simp only [condHolds, decide_eq_true_eq]
      exact Or.inr (List.any_eq_true.mpr ⟨x, hx, decide_eq_true hxneg⟩))]
    rfl
  case neg =>
  have hda : δ.data.any (fun x => decide (x < 0)) = false := by
    rw [List.any_eq_false]
    intro x hx
    simp only [decide_eq_true_eq]
    exact fun hneg => hc5a ((npMin_neg_iff hmd).mpr ⟨x, hx, hneg⟩)
  have hDa : Δ.data.any (fun x => decide (x < 0)) = false := by
    rw [List.any_eq_false]
    intro x hx
    simp only [decide_eq_true_eq]
    exact fun hneg => hc5b ((npMin_neg_iff hmD).mpr ⟨x, hx, hneg⟩)
  rw [if_neg hc5b, List.find?_cons_of_neg _ (by simp [condHolds, hda, hDa])]
  by_cases hc6 : gd.ndim = 2 ∧ gd.shape.getD 1 0 = 3
  case neg =>
    rw [if_pos (not_and_or.mp hc6), List.find?_cons_of_pos _ (by
      simp only [condHolds, decide_eq_true_eq]
      exact hc6)]
    rfl
  case pos =>
  rw [if_neg (by rw [not_or]; exact ⟨not_not_intro hc6.1, not_not_intro hc6.2⟩),
    List.find?_cons_of_neg _
      (by simp only [condHolds, decide_eq_true_eq, not_not]; exact hc6)]
  have hbne : bqg.data ≠ [] := by
    have hlenb := ndarr_data_length hwfb hc1
    intro hcon
    rw [hcon] at hlenb
    simp at hlenb
    omega
  obtain ⟨mb, hmb⟩ := npMin_ok_of_ne_nil hbne
  rw [hmb]
  simp only []
  by_cases hc7 : mb < 0
  case pos =>
    obtain ⟨x, hx, hxneg⟩ := (npMin_neg_iff hmb).mp hc7
    rw [if_pos hc7, List.find?_cons_of_pos _ (by
      simp only [condHolds, decide_eq_true_eq]
      exact List.any_eq_true.mpr ⟨x, hx, decide_eq_true hxneg⟩)]
    rfl
  case neg =>
  have hba : bqg.data.any (fun x => decide (x < 0)) = false := by
    rw [List.any_eq_false]
    intro x hx
    simp only [decide_eq_true_eq]
    exact fun hneg => hc7 ((npMin_neg_iff hmb).mpr ⟨x, hx, hneg⟩)
  rw [if_neg hc7, List.find?_cons_of_neg _ (by simp [condHolds, hba])]
  by_cases hc8 : (chunk3 gd.data).all (fun v => decide (unitNormWithin v)) = true
  case pos =>
    have hnotany : (chunk3 gd.data).any (fun v => decide (¬ unitNormWithin v)) = false := by
      rw [List.any_eq_false]
      intro v hv
      simp only [decide_eq_true_eq, not_not]
      exact of_decide_eq_true (List.all_eq_true.mp hc8 v hv)
    rw [if_neg (by simp [hc8]), List.find?_cons_of_neg _
      (by simp only [condHolds]; rw [hnotany]; simp)]
    rfl
  case neg =>
    have hany : (chunk3 gd.data).any (fun v => decide (¬ unitNormWithin v)) = true := by
      rw [List.any_eq_true]
      obtain ⟨v, hv, hnp⟩ := List.all_eq_false.mp (Bool.eq_false_iff.mpr hc8)
      exact ⟨v, hv, decide_eq_true (fun hcon => hnp (decide_eq_true hcon))⟩
    rw [if_pos (by simp [hc8]), List.find?_cons_of_pos _
      (by simp only [condHolds]; exact hany)]
    rfl

/-- C2 (counterexample to the claim as stated): on the empty (but well-shaped)
input none of the claim's listed conditions holds, yet the validator does not
run to completion — `np.min` of the empty delta array raises a numpy
reduction `ValueError` that is none of the listed `InvalidAcquisitionError`
conditions. -/
theorem C2_counterexample_validator_crashes_outside_listed_conditions :
    firstFailing ⟨[0], []⟩ ⟨[0, 3], []⟩ ⟨[0], []⟩ ⟨[0], []⟩ = none ∧
    check_acquisition_scheme ⟨[0], []⟩ ⟨[0, 3], []⟩ ⟨[0], []⟩ ⟨[0], []⟩ =
      .error (.py .emptyReduction) :=
  ⟨by with_unfolding_all rfl, by with_unfolding_all rfl⟩

/-- C2 (witness): the amended theorem on a concrete well-formed input whose
first failing condition is the length mismatch with gradient_directions. -/
theorem C2_witness :
    (1 ≤ (⟨[2], [1, 2]⟩ : NDArr).ndim ∧ 0 < (⟨[2], [1, 2]⟩ : NDArr).len ∧
     (⟨[2], [1, 2]⟩ : NDArr).WF) ∧
    check_acquisition_scheme ⟨[2], [1, 2]⟩ ⟨[1, 3], [1, 0, 0]⟩ ⟨[2], [1, 1]⟩
        ⟨[2], [1, 1]⟩ =
      validatorVerdict ⟨[2], [1, 2]⟩ ⟨[1, 3], [1, 0, 0]⟩ ⟨[2], [1, 1]⟩ ⟨[2], [1, 1]⟩ ∧
    validatorVerdict ⟨[2], [1, 2]⟩ ⟨[1, 3], [1, 0, 0]⟩ ⟨[2], [1, 1]⟩ ⟨[2], [1, 1]⟩ =
      .error .lenGrad :=
  ⟨⟨by decide, by decide, by decide⟩,
    C2_validator_first_failing_condition ⟨[2], [1, 2]⟩ ⟨[1, 3], [1, 0, 0]⟩
      ⟨[2], [1, 1]⟩ ⟨[2], [1, 1]⟩ (by decide) (by decide) (by decide) (by decide)
      (by decide) (by decide) (by decide) (by decide),
    by with_unfolding_all rfl⟩

/-! ## Claim C3: fail-fast construction through the factory entry points -/

/-- C8 (amended): for every scheme constructed through the b-value factory at
the source's default `min_b_shell_distance` (50e6, the value the importer
hard-codes), exporting to the external gradient-table representation and
importing back succeeds and reproduces `bvalues`, `gradient_directions`,
`delta` and `Delta` exactly (the unit-scale conversion `b / 1e6 * 1e6` is the
identity over exact rationals, which subsumes the claim's 1e-3 relative
tolerance), and even the shell structure is reproduced.  The claim's
unrestricted "for every constructed scheme" fails: a scheme built at another
shell distance can re-cluster raggedly at the importer's hard-coded default
and the import then raises (see the counterexample). -/
theorem C8_roundtrip_reproduces_scheme_at_default_distance
    (qfb gfb : ℚ → ℚ → ℚ → ℚ) (bv gd : NDArr) (δ Δ : PyArg) (t : ℚ)
    (S : MipyAcquisitionScheme)
    (hok : acquisition_scheme_from_bvalues qfb gfb bv gd δ Δ 50000000 t = .ok S)
    (hwfb : bv.WF) (hwfg : gd.WF) (hwfδ : PyArg.WF δ) (hwfΔ : PyArg.WF Δ) :
    ∃ S2, gtab_dipy2mipy qfb gfb (gtab_mipy2dipy S) = .ok S2 ∧
      S2.bvalues = S.bvalues ∧
      S2.gradient_directions = S.gradient_directions ∧
      S2.delta = S.delta ∧ S2.Delta = S.Delta ∧
      S2.qvalues = S.qvalues ∧ S2.gradient_strengths = S.gradient_strengths ∧
      S2.shell_indices = S.shell_indices ∧ S2.shell_bvalues = S.shell_bvalues := by
  obtain ⟨δ2, Δ2, hu, hc, hb⟩ :=
    from_bvalues_ok_elim qfb gfb bv gd δ Δ 50000000 t S hok
  obtain ⟨hu1, hu2⟩ := unify_ok_elim hu
  have hwfδ2 := unify_one_ok_wf hu1 hwfδ
  have hwfΔ2 := unify_one_ok_wf hu2 hwfΔ
  obtain ⟨hbnd, hgnd, hdnd, hDnd, hlg, hld, hlD, hg3, hdpos, hDpos, hbpos, hnorm,
    hdne2, hDne2⟩ := check_ok_elim hc
  have hbl : bv.data.length = bv.len := ndarr_data_length hwfb hbnd
  have hδl : δ2.data.length = bv.len := by
    rw [ndarr_data_length hwfδ2 hdnd]
    omega
  have hΔl : Δ2.data.length = bv.len := by
    rw [ndarr_data_length hwfΔ2 hDnd]
    omega
  have hgl : gd.data.length = bv.len * 3 := by
    rw [ndarr_data_length2 hwfg hgnd, hg3, hlg]
  have hxne : bv.data ≠ [] := by
    intro hcon
    rw [hcon, build_nil] at hb
    exact absurd hb (by simp)
  have key : ∃ si0 sb0,
      S = assembleScheme bv.data (chunk3 gd.data)
        (zipWith3 qfb bv.data δ2.data Δ2.data) (zipWith3 gfb bv.data δ2.data Δ2.data)
        δ2.data Δ2.data 50000000 t si0 sb0 ∧
      ∀ t2 : ℚ, MipyAcquisitionScheme.build bv.data (chunk3 gd.data)
        (zipWith3 qfb bv.data δ2.data Δ2.data) (zipWith3 gfb bv.data δ2.data Δ2.data)
        δ2.data Δ2.data 50000000 t2 =
        .ok (assembleScheme bv.data (chunk3 gd.data)
          (zipWith3 qfb bv.data δ2.data Δ2.data)
          (zipWith3 gfb bv.data δ2.data Δ2.data)
          δ2.data Δ2.data 50000000 t2 si0 sb0) := by
    cases hdat : bv.data with
    | nil => exact absurd hdat hxne
    | cons x xs =>
      cases xs with
      | nil =>
        rw [hdat] at hb
        have hS := build_ok_single_elim _ _ _ _ _ _ _ _ _ (by simp) hb
        exact ⟨[0], [x], hS, fun t2 => build_single_eq x _ _ _ _ _ _ t2⟩
      | cons y ys =>
        rw [← hdat]
        have hlen1 : 1 < bv.data.length := by
          rw [hdat]
          simp
        obtain ⟨si, acc, sb, hbs, hrv, hS⟩ :=
          build_ok_multi_elim _ _ _ _ _ _ _ _ _ hlen1 hb
        refine ⟨si, sb, hS, fun t2 => ?_⟩
        exact build_ok_multi_intro bv.data (chunk3 gd.data)
          (zipWith3 qfb bv.data δ2.data Δ2.data)
          (zipWith3 gfb bv.data δ2.data Δ2.data)
          δ2.data Δ2.data 50000000 t2 si acc sb hlen1 hbs hrv
  obtain ⟨si0, sb0, hSdec, hbuild⟩ := key
  have htab : gtab_mipy2dipy S =
      ⟨bv.data.map (fun b => b / 1000000), chunk3 gd.data, δ2.data, Δ2.data⟩ := by
    unfold gtab_mipy2dipy
    rw [hSdec, assemble_bvalues, assemble_gradient_directions, assemble_delta,
      assemble_Delta]
  rw [htab]
  unfold gtab_dipy2mipy
  simp only []
  rw [map_div_mul_roundtrip, flat3_chunk3 _ (by rw [hgl]; omega), List.length_map,
    show (chunk3 gd.data).length = bv.len from by rw [chunk3_length, hgl]; omega]
  have hc2 : check_acquisition_scheme ⟨[bv.data.length], bv.data⟩
      ⟨[bv.len, 3], gd.data⟩ ⟨[δ2.data.length], δ2.data⟩
      ⟨[Δ2.data.length], Δ2.data⟩ = .ok () := by
    apply check_ok_intro
    · rfl
    · rfl
    · rfl
    · rfl
    · rfl
    · show bv.data.length = bv.len
      omega
    · show bv.data.length = δ2.data.length
      omega
    · show bv.data.length = Δ2.data.length
      omega
    · exact hdpos
    · exact hDpos
    · exact hbpos
    · exact hnorm
    · exact hxne
    · exact hdne2
    · exact hDne2
  refine ⟨assembleScheme bv.data (chunk3 gd.data)
      (zipWith3 qfb bv.data δ2.data Δ2.data) (zipWith3 gfb bv.data δ2.data Δ2.data)
      δ2.data Δ2.data 50000000 10000000 si0 sb0,
    from_bvalues_ok_intro qfb gfb ⟨[bv.data.length], bv.data⟩ ⟨[bv.len, 3], gd.data⟩
      (.arr ⟨[δ2.data.length], δ2.data⟩) (.arr ⟨[Δ2.data.length], Δ2.data⟩)
      50000000 10000000 ⟨[δ2.data.length], δ2.data⟩ ⟨[Δ2.data.length], Δ2.data⟩ _
      rfl hc2 (hbuild 10000000),
    ?_, ?_, ?_, ?_, ?_, ?_, ?_, ?_⟩ <;>
  · rw [hSdec]
    rfl

/-- C8 (counterexample to the claim as stated): a scheme constructed at
`min_b_shell_distance = 1e9` exports fine, but importing the export back —
which hard-codes the default 50e6 — re-clusters its two timing groups into
different numbers of shells and raises, so the round trip does not reproduce
the scheme. -/
theorem C8_counterexample_roundtrip_raises_off_default :
    acquisition_scheme_from_bvalues exConv3 exConv3
        ⟨[5], [0, 100000000, 0, 100000000, 200000000]⟩
        ⟨[5, 3], [1, 0, 0, 1, 0, 0, 1, 0, 0, 1, 0, 0, 1, 0, 0]⟩
        (.arr ⟨[5], [1, 1, 2, 2, 2]⟩) (.arr ⟨[5], [3, 3, 4, 4, 4]⟩)
        1000000000 10000000 = .ok exSchemeD ∧
    gtab_dipy2mipy exConv3 exConv3 (gtab_mipy2dipy exSchemeD) =
      .error (.scheme .raggedShellBvalues) :=
  ⟨by with_unfolding_all rfl, by with_unfolding_all rfl⟩

/-- C8 (witness): the amended theorem on the concrete scheme `exSchemeC`,
which is built at the default shell distance. -/
theorem C8_witness :
    acquisition_scheme_from_bvalues exConv3 exConv3 ⟨[3], [0, 10, 12]⟩
        ⟨[3, 3], [1, 0, 0, 1, 0, 0, 1, 0, 0]⟩ (.scalar 1) (.scalar 3)
        50000000 10000000 = .ok exSchemeC ∧
    (∃ S2, gtab_dipy2mipy exConv3 exConv3 (gtab_mipy2dipy exSchemeC) = .ok S2 ∧
      S2.bvalues = exSchemeC.bvalues ∧
      S2.gradient_directions = exSchemeC.gradient_directions ∧
      S2.delta = exSchemeC.delta ∧ S2.Delta = exSchemeC.Delta ∧
      S2.qvalues = exSchemeC.qvalues ∧
      S2.gradient_strengths = exSchemeC.gradient_strengths ∧
      S2.shell_indices = exSchemeC.shell_indices ∧
      S2.shell_bvalues = exSchemeC.shell_bvalues) :=
  ⟨by with_unfolding_all rfl,
    C8_roundtrip_reproduces_scheme_at_default_distance exConv3 exConv3
      ⟨[3], [0, 10, 12]⟩ ⟨[3, 3], [1, 0, 0, 1, 0, 0, 1, 0, 0]⟩ (.scalar 1) (.scalar 3)
      10000000 exSchemeC (by with_unfolding_all rfl) (by decide) (by decide)
      (by decide) (by decide)⟩
